import Mathlib

/-!
Shallow embedding of the Merkle-Patricia-Trie repository (Rust) and proofs
about it.  Bytes and nibbles are modelled as `Nat` with explicit bounds where
they matter; `Vec<u8>` becomes `List Nat`; fallible code returns an explicit
sum; Rust panics are modelled as a dedicated result constructor.  Recursive
functions over the node tree take an explicit fuel argument (the Rust
recursion is structural on the heap tree, which the embedding mirrors with a
fuel that is proven sufficient on all reachable states).
-/

set_option maxRecDepth 100000

/-! ## RLP (src/trie/rlp.rs) -/

/-- Outcome of a fallible Rust computation: `Ok`, `Err`, a `panic!`, or fuel
exhaustion of the embedding (never reached with the fuel bounds used here). -/
inductive DOut (α : Type) where
  | ok (a : α)
  | err (m : String)
  | panicked (m : String)
  | nofuel
deriving DecidableEq

/-- `RlpData` from src/trie/rlp.rs: a byte string or a list of RLP values. -/
inductive RlpData where
  | String : List Nat → RlpData
  | List : List RlpData → RlpData

/-- usize big-endian bytes (8 bytes, 64-bit platform), as in `len.to_be_bytes()`. -/
def natToBE8 (l : Nat) : List Nat :=
  [l / 2 ^ 56 % 256, l / 2 ^ 48 % 256, l / 2 ^ 40 % 256, l / 2 ^ 32 % 256,
   l / 2 ^ 24 % 256, l / 2 ^ 16 % 256, l / 2 ^ 8 % 256, l % 256]

/-- `length_to_minimal_bytes` from src/trie/rlp.rs: minimal big-endian bytes of
a length (the source slices `to_be_bytes()` from the first non-zero byte, which
for a non-zero value is exactly `dropWhile (· == 0)`). -/
def length_to_minimal_bytes (l : Nat) : List Nat :=
  if l = 0 then [0] else (natToBE8 l).dropWhile (· == 0)

/-- `to_integer` from src/trie/rlp.rs: big-endian accumulation
`result = (result << 8) | byte` on `usize`; for bytes `< 256` this is
`(result * 256 + byte) % 2^64`. -/
def to_integer (data : List Nat) : Nat :=
  data.foldl (fun r b => (r * 256 + b) % 2 ^ 64) 0

/-- `encode_length` from src/trie/rlp.rs.  The `_ => panic!` arm of the source
match is unreachable (the first two arms cover all of `usize`). -/
def encode_length (l : Nat) (offset : Nat) : List Nat :=
  if l ≤ 55 then
    [l + offset]
  else
    let len_bytes := length_to_minimal_bytes l
    (len_bytes.length + offset + 55) :: len_bytes

mutual

/-- `encode_rlp` from src/trie/rlp.rs. -/
def encode_rlp : RlpData → List Nat
  | .String bytes =>
      if bytes.length = 1 ∧ bytes.headD 0 < 0x80 then bytes
      else encode_length bytes.length 0x80 ++ bytes
  | .List items => encode_length (encodeItems items).length 0xc0 ++ encodeItems items

/-- concatenation of the encodings of a list's items (the `for` loop in
`encode_rlp`'s `List` arm). -/
def encodeItems : List RlpData → List Nat
  | [] => []
  | x :: xs => encode_rlp x ++ encodeItems xs

end

mutual

/-- `decode_length` from src/trie/rlp.rs, with fuel.  Returns the decoded item
and the number of bytes it consumed.  The source panics on empty input, and
(in a debug build) on `usize` overflow of `len_of_len + 1 + payload_len`. -/
def decLenF : Nat → List Nat → DOut (RlpData × Nat)
  | 0, _ => .nofuel
  | f + 1, data =>
    match data with
    | [] => .panicked "Length of the data is 0"
    | b :: rest =>
      if b ≤ 0x7f then
        .ok (.String [b], 1)
      else if b ≤ 0xb7 then
        let payload_len := b - 0x80
        if data.length < payload_len + 1 then .err "Insufficient data for string"
        else .ok (.String (rest.take payload_len), payload_len + 1)
      else if b ≤ 0xbf then
        let len_of_len := b - 0xb7
        if data.length < len_of_len + 1 then .err "Insufficient data for length prefix"
        else
          let payload_len := to_integer (rest.take len_of_len)
          if 2 ^ 64 ≤ len_of_len + 1 + payload_len then .panicked "attempt to add with overflow"
          else if data.length < len_of_len + 1 + payload_len then
            .err "Insufficient data for long string"
          else .ok (.String ((data.drop (len_of_len + 1)).take payload_len),
                    len_of_len + 1 + payload_len)
      else if b ≤ 0xf7 then
        let list_len := b - 0xc0
        if data.length < list_len + 1 then .err "Insufficient data for list"
        else
          match decItemsF f (rest.take list_len) with
          | .ok items => .ok (.List items, 1 + list_len)
          | .err m => .err m
          | .panicked m => .panicked m
          | .nofuel => .nofuel
      else
        let len_of_len := b - 0xf7
        if data.length < len_of_len + 1 then .err "Insufficient data for length prefix"
        else
          let payload_len := to_integer (rest.take len_of_len)
          if 2 ^ 64 ≤ len_of_len + 1 + payload_len then .panicked "attempt to add with overflow"
          else if data.length < len_of_len + 1 + payload_len then
            .err "Insufficient data for long list"
          else
            match decItemsF f ((data.drop (len_of_len + 1)).take payload_len) with
            | .ok items => .ok (.List items, len_of_len + 1 + payload_len)
            | .err m => .err m
            | .panicked m => .panicked m
            | .nofuel => .nofuel

/-- the `while offset < list_data.len()` item loop of `decode_length`. -/
def decItemsF : Nat → List Nat → DOut (List RlpData)
  | 0, _ => .nofuel
  | f + 1, payload =>
    if payload.isEmpty then .ok []
    else
      match decLenF f payload with
      | .ok (item, n) =>
        match decItemsF f (payload.drop n) with
        | .ok items => .ok (item :: items)
        | .err m => .err m
        | .panicked m => .panicked m
        | .nofuel => .nofuel
      | .err m => .err m
      | .panicked m => .panicked m
      | .nofuel => .nofuel

end

/-- `decode_length` facade with fuel sufficient for any input of this length. -/
def decode_length (data : List Nat) : DOut (RlpData × Nat) :=
  decLenF (2 * data.length + 2) data

/-- `decode_rlp` from src/trie/rlp.rs: empty input returns the empty string;
otherwise the `decode_length` result is `unwrap`ped, so a decode error becomes
a panic. -/
def decode_rlp (data : List Nat) : DOut RlpData :=
  if data.length = 0 then .ok (.String [])
  else
    match decode_length data with
    | .ok (x, _) => .ok x
    | .err m => .panicked m
    | .panicked m => .panicked m
    | .nofuel => .nofuel

mutual

/-- well-formedness of an `RlpData` value as a value of the Rust program: every
(sub)value's encoding fits in a `Vec`, i.e. its length fits in `usize`. -/
def rlpWf : RlpData → Bool
  | .String s => decide ((encode_rlp (.String s)).length < 2 ^ 64)
  | .List items =>
      decide ((encode_rlp (.List items)).length < 2 ^ 64) && rlpWfItems items

/-- `rlpWf` for every item of a list. -/
def rlpWfItems : List RlpData → Bool
  | [] => true
  | x :: xs => rlpWf x && rlpWfItems xs

end

/-! ## Nibble paths (src/trie/path.rs) -/

/-- `NibblePath::lcp_len` from src/trie/path.rs: length of the longest common
nibble run of two sequences. -/
def lcp_len : List Nat → List Nat → Nat
  | x :: xs, y :: ys => if x = y then lcp_len xs ys + 1 else 0
  | _, _ => 0

/-- `From<Key32> for NibblePath` (and `from_bytes`) in src/trie/path.rs: each
byte `b` contributes `b >> 4` then `b & 0x0f`. -/
def keyNibbles (key : List Nat) : List Nat :=
  key.flatMap (fun b => [b / 16, b % 16])

/-! ## Nodes (src/trie/node.rs) -/

/-- `Node` from src/trie/node.rs.  `BranchNode.children` is the 16-slot array
(modelled as a length-16 list), `value` its optional value (`vt`). -/
inductive Node where
  | Branch : List (Option Node) → Option (List Nat) → Node
  | Extension : List Nat → Node → Node
  | Leaf : List Nat → List Nat → Node

/-- `DeleteResult` from src/trie/node.rs.  The source's `Deleted` mutates the
receiver in place; the embedding's `Deleted` carries the mutated node. -/
inductive DeleteResult where
  | NotFound
  | Deleted (self : Node)
  | DeletedAndReplace (n : Node)

/-- `BranchNode::new()`: all 16 children absent, no value. -/
def emptyChildren : List (Option Node) := List.replicate 16 none

/-- `LeafNode::diverge_with` from src/trie/node.rs.  `lp, lv` are the leaf's
fields, `path, value` the arguments.  The source indexes `old_rem[0]` and
`new_rem[0]`, which panics when either remainder is empty while the paths are
not identical; that is unreachable for same-length paths, and the embedding
returns the overwrite result there. -/
def diverge_with (lp : List Nat) (lv : List Nat) (path : List Nat) (value : List Nat) : Node :=
  let k := lcp_len lp path
  if k = lp.length ∧ k = path.length then
    .Leaf path value
  else
    match lp.drop k, path.drop k with
    | o :: os, w :: ws =>
      let branch := (emptyChildren.set o (some (.Leaf os lv))).set w (some (.Leaf ws value))
      if 0 < k then .Extension (lp.take k) (.Branch branch none)
      else .Branch branch none
    | _, _ => .Leaf path value

mutual

/-- `Node::insert` from src/trie/node.rs, with fuel.  A `Branch` with an empty
remaining path panics in the source (`path.nibbles[0]`); that is unreachable
for 64-nibble keys and the embedding returns the node unchanged there. -/
def insertF : Nat → Node → List Nat → List Nat → Node
  | 0, n, _, _ => n
  | f + 1, n, path, value =>
    match n with
    | .Leaf lp lv => diverge_with lp lv path value
    | .Extension ep ec => mergeF f ep ec path value
    | .Branch ch v =>
      match path with
      | [] => .Branch ch v
      | i :: rest =>
        match ch.getD i none with
        | some child =>
          match child with
          | .Leaf lp lv => .Branch (ch.set i (some (diverge_with lp lv rest value))) v
          | .Extension ep ec => .Branch (ch.set i (some (mergeF f ep ec rest value))) v
          | .Branch bch bv =>
            .Branch (ch.set i (some (insertF f (.Branch bch bv) rest value))) v
        | none => .Branch (ch.set i (some (.Leaf rest value))) v

/-- `ExtensionNode::merge_with` from src/trie/node.rs, with fuel.  `ep, ec` are
the extension's fields.  The source takes `path[..ep.len()]`, which panics when
`path` is shorter than the extension path; unreachable on reachable tries, and
the embedding returns the extension unchanged there.  When the split point is
the last extension nibble the source builds an `Extension` with an *empty*
path (`rem_ext_path[1..]`). -/
def mergeF : Nat → List Nat → Node → List Nat → List Nat → Node
  | 0, ep, ec, _, _ => .Extension ep ec
  | f + 1, ep, ec, path, value =>
    if ep.length ≤ path.length then
      let k := lcp_len ep (path.take ep.length)
      if k = ep.length then
        .Extension ep (insertF f ec (path.drop k) value)
      else
        let rem_ext_path := ep.drop k
        let branch0 :=
          match rem_ext_path with
          | r0 :: rrest => emptyChildren.set r0 (some (.Extension rrest ec))
          | [] => emptyChildren.set (ep.getD k 0) (some ec)
        let new_rem := path.drop k
        let node :=
          match new_rem with
          | [] => Node.Branch branch0 (some value)
          | w :: ws => Node.Branch (branch0.set w (some (.Leaf ws value))) none
        if 0 < k then .Extension (ep.take k) node else node
    else
      .Extension ep ec

end

/-- `Node::get` from src/trie/node.rs, with fuel.  The `Extension` arm slices
`path[..ext_path.len()]` (panics when `path` is shorter — unreachable for
64-nibble keys, the embedding misses instead), the `Branch` arm indexes
`path[0]` (likewise). -/
def getF : Nat → Node → List Nat → Option (List Nat)
  | 0, _, _ => none
  | f + 1, n, path =>
    match n with
    | .Leaf lp lv => if lp = path then some lv else none
    | .Extension ep ec =>
      if ep.length ≤ path.length ∧ ep = path.take ep.length then
        getF f ec (path.drop ep.length)
      else none
    | .Branch ch _ =>
      match path with
      | [] => none
      | i :: rest =>
        match ch.getD i none with
        | some child => getF f child rest
        | none => none

/-- the `active_children` enumeration of `try_collapse_branch`
(src/trie/node.rs): indexed non-absent children in slot order, starting at
index `s`. -/
def activeChildren : List (Option Node) → Nat → List (Nat × Node)
  | [], _ => []
  | none :: rest, s => activeChildren rest (s + 1)
  | some c :: rest, s => (s, c) :: activeChildren rest (s + 1)

/-- `try_collapse_branch` from src/trie/node.rs. -/
def try_collapse_branch (ch : List (Option Node)) (v : Option (List Nat)) : DeleteResult :=
  let active := activeChildren ch 0
  if active.length = 1 ∧ v = none then
    match active.headD (0, .Leaf [] []) with
    | (i, .Leaf lp lv) => .DeletedAndReplace (.Leaf (i :: lp) lv)
    | (i, .Extension p c) => .DeletedAndReplace (.Extension (i :: p) c)
    | (i, .Branch bch bv) => .DeletedAndReplace (.Extension [i] (.Branch bch bv))
  else
    .Deleted (.Branch ch v)

/-- `Node::delete` from src/trie/node.rs, with fuel.  Called on a `Leaf` the
source panics ("Delete should not be called directly on a leaf node"); that is
unreachable through the public API and the embedding returns `NotFound`.  The
`Branch` arm indexes `path.nibbles[0]` (panics on an empty remaining path —
unreachable for 64-nibble keys). -/
def deleteF : Nat → Node → List Nat → DeleteResult
  | 0, _, _ => .NotFound
  | f + 1, n, path =>
    match n with
    | .Leaf _ _ => .NotFound
    | .Branch ch v =>
      match path with
      | [] => .NotFound
      | i :: rest =>
        match ch.getD i none with
        | some child =>
          match child with
          | .Leaf lp _ =>
            if lp = rest then try_collapse_branch (ch.set i none) v
            else .NotFound
          | _ =>
            match deleteF f child rest with
            | .NotFound => .NotFound
            | .Deleted child' => try_collapse_branch (ch.set i (some child')) v
            | .DeletedAndReplace nc => try_collapse_branch (ch.set i (some nc)) v
        | none => .NotFound
    | .Extension ep ec =>
      if ep.length ≤ path.length ∧ path.take ep.length = ep then
        match deleteF f ec (path.drop ep.length) with
        | .NotFound => .NotFound
        | .Deleted ec' => .Deleted (.Extension ep ec')
        | .DeletedAndReplace nc =>
          match nc with
          | .Leaf lp lv => .DeletedAndReplace (.Leaf (ep ++ lp) lv)
          | .Extension np nch => .DeletedAndReplace (.Extension (ep ++ np) nch)
          | .Branch bch bv => .Deleted (.Extension ep (.Branch bch bv))
      else .NotFound

/-- fuel sufficient for every operation on every reachable tree (each level of
the tree consumes at most 3 fuel, and reachable trees are at most 65 branch
levels deep). -/
def FUEL : Nat := 200

/-! ## Keccak-256

Modelled from the spec: the source delegates hashing to the external `sha3`
crate (`Keccak256`), which is not part of this repository.  The spec (glossary)
fixes it as Keccak-256, the pre-SHA3-standardization variant (`pad10*1` with
domain byte `0x01`, rate 1088).  The 25 64-bit lanes are packed into one
1600-bit natural; lane `i = x + 5y` sits at bits `64*i`, least significant
byte first, matching the standard byte mapping. -/

/-- 2^64, the lane modulus. -/
def U64 : Nat := 2 ^ 64

/-- 64-bit left rotation. -/
def rotl64 (x n : Nat) : Nat :=
  ((x <<< n) ||| (x >>> (64 - n))) % U64

/-- the 24 Keccak round constants (iota step). -/
def keccakRC : List Nat :=
  [1, 32898, 9223372036854808714, 9223372039002292224, 32907, 2147483649,
   9223372039002292353, 9223372036854808585, 138, 136, 2147516425, 2147483658,
   2147516555, 9223372036854775947, 9223372036854808713, 9223372036854808579,
   9223372036854808578, 9223372036854775936, 32778, 9223372039002259466,
   9223372039002292353, 9223372036854808704, 2147483649, 9223372039002292232]

/-- combined rho/pi table: entry at target lane index `i` is
`(source lane, rotation)`. -/
def rhoPi : List (Nat × Nat) :=
  [(0, 0), (6, 44), (12, 43), (18, 21), (24, 14), (3, 28), (9, 20), (10, 3), (16, 45),
   (22, 61), (1, 1), (7, 6), (13, 25), (19, 8), (20, 18), (4, 27), (5, 36), (11, 10),
   (17, 15), (23, 56), (2, 62), (8, 55), (14, 39), (15, 41), (21, 2)]

/-- lane `i` of the packed state. -/
def lane (S : Nat) (i : Nat) : Nat := (S >>> (64 * i)) % U64

/-- repack 25 lanes into the 1600-bit state. -/
def packLanes (ls : List Nat) : Nat :=
  ls.foldr (fun l acc => acc * U64 + l) 0

/-- one Keccak-f[1600] round: theta, rho+pi, chi, iota. -/
def keccakRound (S : Nat) (rc : Nat) : Nat :=
  let C := (List.range 5).map (fun x =>
    lane S x ^^^ lane S (x + 5) ^^^ lane S (x + 10) ^^^ lane S (x + 15) ^^^ lane S (x + 20))
  let D := (List.range 5).map (fun x =>
    (C.getD ((x + 4) % 5) 0) ^^^ rotl64 (C.getD ((x + 1) % 5) 0) 1)
  let A1 := (List.range 25).map (fun i => lane S i ^^^ D.getD (i % 5) 0)
  let B := rhoPi.map (fun sr => rotl64 (A1.getD sr.1 0) sr.2)
  let A2 := (List.range 25).map (fun i =>
    let x := i % 5
    let y := i / 5
    (B.getD (x + 5 * y) 0) ^^^
      (((B.getD ((x + 1) % 5 + 5 * y) 0) ^^^ (U64 - 1)) &&& (B.getD ((x + 2) % 5 + 5 * y) 0)))
  let A2i := match A2 with
    | a0 :: restL => (a0 ^^^ rc) :: restL
    | [] => []
  packLanes A2i

/-- Keccak-f[1600]. -/
def keccakF (S : Nat) : Nat := keccakRC.foldl keccakRound S

/-- little-endian bytes to Nat. -/
def bytesToNatLE (bs : List Nat) : Nat :=
  bs.foldr (fun b acc => acc * 256 + b) 0

/-- Keccak (pre-SHA3) pad10*1 at rate 136 bytes. -/
def keccakPad (msg : List Nat) : List Nat :=
  let padLen := 136 - msg.length % 136
  if padLen = 1 then msg ++ [0x81]
  else msg ++ 0x01 :: (List.replicate (padLen - 2) 0) ++ [0x80]

/-- split into rate-sized blocks (fueled; fuel `length + 2` always suffices). -/
def chunksF : Nat → Nat → List Nat → List (List Nat)
  | 0, _, l => [l]
  | f + 1, r, l =>
    if l.length ≤ r then [l.take r]
    else (l.take r) :: chunksF f r (l.drop r)

/-- Nat to `len` little-endian bytes. -/
def natToBytesLE (n : Nat) (len : Nat) : List Nat :=
  (List.range len).map (fun i => (n >>> (8 * i)) % 256)

/-- Keccak-256 of a byte string (the `Keccak256::digest` of the `sha3` crate,
modelled from the spec). -/
def keccak256 (msg : List Nat) : List Nat :=
  let blocks := chunksF (msg.length + 2) 136 (keccakPad msg)
  let S := blocks.foldl (fun S block => keccakF (S ^^^ bytesToNatLE block)) 0
  natToBytesLE (S % (2 ^ 256)) 32

/-! ## Commit layer (src/kv/storage.rs)

`src/kv/storage.rs` imports its RLP functions from `kv/encoder.rs`, a file of
this repository that is not under src/; its `encode_rlp` is modelled from the
spec's §4.2 encoding rules, which coincide with `encode_rlp` of
src/trie/rlp.rs, so that definition is reused here.  The store is the write
history: a `put` appends the `(key, value)` pair. -/

/-- `NodeRef` from src/kv/storage.rs. -/
inductive NodeRef where
  | Hash : List Nat → NodeRef
  | Inline : List Nat → NodeRef
deriving DecidableEq

/-- pack a flagged nibble sequence two-per-byte (`nib[2i] << 4 | nib[2i+1]`,
the final loop of `compact_encode`; the length is always even there). -/
def packPairs : List Nat → List Nat
  | a :: b :: rest => (a * 16 + b) :: packPairs rest
  | _ => []

/-- `compact_encode` from src/kv/storage.rs (hex-prefix encoding); `Err` on a
`Branch`, modelled as `none`. -/
def compact_encode (n : Node) : Option (List Nat) :=
  match n with
  | .Leaf lp _ =>
    let odd := lp.length % 2
    let path_nibbles := if odd = 0 then 0x02 :: 0x00 :: lp else 0x03 :: lp
    some (packPairs path_nibbles)
  | .Extension ep _ =>
    let odd := ep.length % 2
    let path_nibbles := if odd = 0 then 0x00 :: 0x00 :: ep else 0x01 :: ep
    some (packPairs path_nibbles)
  | .Branch _ _ => none

/-- `inline_or_hash` from src/kv/storage.rs: nodes whose RLP is shorter than
32 bytes are inlined; otherwise the RLP is stored under its Keccak-256. -/
def inline_or_hash (db : List (List Nat × List Nat)) (rlp : RlpData) :
    NodeRef × List (List Nat × List Nat) :=
  let bytes := encode_rlp rlp
  if bytes.length < 32 then (.Inline bytes, db)
  else (.Hash (keccak256 bytes), db ++ [(keccak256 bytes, bytes)])

/-- child reference field used inside a parent's RLP list (both `NodeRef`
cases become an RLP string of the bytes). -/
def refField (r : NodeRef) : RlpData :=
  match r with
  | .Inline bs => .String bs
  | .Hash h => .String h

mutual

/-- `commit_node` from src/kv/storage.rs, with fuel; `none` is fuel exhaustion
(the concrete fuel used below suffices for every tree in this file). -/
def commitNodeF : Nat → Node → List (List Nat × List Nat) →
    Option (NodeRef × List (List Nat × List Nat))
  | 0, _, _ => none
  | f + 1, n, db =>
    match n with
    | .Leaf _ lv =>
      match compact_encode n with
      | some ep => some (inline_or_hash db (.List [.String ep, .String lv]))
      | none => none
    | .Extension _ ec =>
      match commitNodeF f ec db with
      | some (cref, db1) =>
        match compact_encode n with
        | some ep => some (inline_or_hash db1 (.List [.String ep, refField cref]))
        | none => none
      | none => none
    | .Branch ch v =>
      match commitChildrenF f ch db with
      | some (items, db1) =>
        let valueField : RlpData := match v with
          | some bs => .String bs
          | none => .String []
        some (inline_or_hash db1 (.List (items ++ [valueField])))
      | none => none

/-- the `for i in 0..16` child loop of `commit_node`'s `Branch` arm. -/
def commitChildrenF : Nat → List (Option Node) → List (List Nat × List Nat) →
    Option (List RlpData × List (List Nat × List Nat))
  | 0, _, _ => none
  | _ + 1, [], db => some ([], db)
  | f + 1, none :: rest, db =>
    match commitChildrenF f rest db with
    | some (items, db1) => some (.String [] :: items, db1)
    | none => none
  | f + 1, some c :: rest, db =>
    match commitNodeF f c db with
    | some (cref, db1) =>
      match commitChildrenF f rest db1 with
      | some (items, db2) => some (refField cref :: items, db2)
      | none => none
    | none => none

end

mutual

/-- the node RLP bytes a commit produces for a node, computed without a store
(children are replaced by their inline-or-hash reference, exactly as
`commit_node` builds them). -/
def encNodeF : Nat → Node → Option (List Nat)
  | 0, _ => none
  | f + 1, n =>
    match n with
    | .Leaf _ lv =>
      match compact_encode n with
      | some ep => some (encode_rlp (.List [.String ep, .String lv]))
      | none => none
    | .Extension _ ec =>
      match encNodeF f ec with
      | some cB =>
        match compact_encode n with
        | some ep =>
          some (encode_rlp (.List [.String ep,
            refField (if cB.length < 32 then .Inline cB else .Hash (keccak256 cB))]))
        | none => none
      | none => none
    | .Branch ch v =>
      match encChildrenF f ch with
      | some items =>
        let valueField : RlpData := match v with
          | some bs => .String bs
          | none => .String []
        some (encode_rlp (.List (items ++ [valueField])))
      | none => none

/-- per-child reference fields for `encNodeF` on a branch. -/
def encChildrenF : Nat → List (Option Node) → Option (List RlpData)
  | 0, _ => none
  | _ + 1, [] => some []
  | f + 1, none :: rest =>
    match encChildrenF f rest with
    | some items => some (.String [] :: items)
    | none => none
  | f + 1, some c :: rest =>
    match encNodeF f c with
    | some cB =>
      match encChildrenF f rest with
      | some items =>
        some (refField (if cB.length < 32 then .Inline cB else .Hash (keccak256 cB)) :: items)
      | none => none
    | none => none

end

/-- `NodeRef::canonicalize_root` from src/kv/storage.rs. -/
def canonicalize_root (r : NodeRef) : List Nat :=
  match r with
  | .Hash h => h
  | .Inline bytes => keccak256 bytes

/-- the bytes of `"__ROOT__"`. -/
def rootSentinel : List Nat := [0x5f, 0x5f, 0x52, 0x4f, 0x4f, 0x54, 0x5f, 0x5f]

/-! ## Trie facade (src/trie/trie.rs) -/

/-- `Trie` from src/trie/trie.rs: an optional root node and an optionally
bound store (the sled handle, modelled by its write history). -/
structure Trie where
  root : Option Node
  db : Option (List (List Nat × List Nat))

/-- `Trie::new()`. -/
def Trie.new : Trie := ⟨none, none⟩

/-- `Trie::with_db`: bound to an (empty) store. -/
def Trie.with_db : Trie := ⟨none, some []⟩

/-- `Trie::set` from src/trie/trie.rs. -/
def Trie.set (t : Trie) (key : List Nat) (value : List Nat) : Trie :=
  match t.root with
  | none => { t with root := some (.Leaf (keyNibbles key) value) }
  | some root => { t with root := some (insertF FUEL root (keyNibbles key) value) }

/-- `Trie::get` from src/trie/trie.rs.  With a store bound the source performs
a store lookup whose result is discarded; the returned value always comes from
the in-memory walk, which is what is modelled. -/
def Trie.get (t : Trie) (key : List Nat) : Option (List Nat) :=
  match t.root with
  | none => none
  | some root => getF FUEL root (keyNibbles key)

/-- `Trie::delete` from src/trie/trie.rs: a leaf root is handled inline, any
other root dispatches to `Node::delete`. -/
def Trie.delete (t : Trie) (key : List Nat) : Trie × Bool :=
  match t.root with
  | none => (t, false)
  | some root =>
    match root with
    | .Leaf lp _ =>
      if lp = keyNibbles key then ({ t with root := none }, true) else (t, false)
    | _ =>
      match deleteF FUEL root (keyNibbles key) with
      | .Deleted r1 => ({ t with root := some r1 }, true)
      | .NotFound => (t, false)
      | .DeletedAndReplace n => ({ t with root := some n }, true)

/-- commit fuel; covers every tree committed in this file. -/
def FUELC : Nat := 4000

/-- `Trie::commit` from src/trie/trie.rs: `self.db.as_mut().unwrap()` panics
when no store is bound (modelled as `none`); otherwise the root is committed
(an empty trie yields `Inline []`) and the sentinel entry
`(Keccak-256("__ROOT__"), canonical root digest)` is written. -/
def Trie.commit (t : Trie) : Option (NodeRef × List (List Nat × List Nat)) :=
  match t.db with
  | none => none
  | some db =>
    match (match t.root with
           | none => some (NodeRef.Inline [], db)
           | some n => commitNodeF FUELC n db) with
    | some (ref, db1) => some (ref, db1 ++ [(keccak256 rootSentinel, canonicalize_root ref)])
    | none => none

/-! ## Invariant checkers and claim-support definitions -/

/-- spec invariant I3 as a checker: no reachable Extension node has an empty
path ("*I3.* No Extension has an empty path."), with fuel. -/
def checkI3F : Nat → Node → Bool
  | 0, _ => false
  | f + 1, n =>
    match n with
    | .Leaf _ _ => true
    | .Extension ep ec => decide (ep ≠ []) && checkI3F f ec
    | .Branch ch _ => ch.all (fun c => match c with
        | some child => checkI3F f child
        | none => true)

/-- a well-formed 32-byte key. -/
def isKey32 (k : List Nat) : Prop := k.length = 32 ∧ ∀ b ∈ k, b < 256

instance (k : List Nat) : Decidable (isKey32 k) := by
  unfold isKey32; infer_instance

/-- a public-API operation on a trie. -/
inductive Op where
  | setOp (k v : List Nat)
  | delOp (k : List Nat)

/-- the key an operation touches. -/
def Op.key : Op → List Nat
  | .setOp k _ => k
  | .delOp k => k

/-- apply one operation through the public facade. -/
def applyOp (t : Trie) : Op → Trie
  | .setOp k v => t.set k v
  | .delOp k => (t.delete k).1

/-- apply a sequence of public operations. -/
def applyOps (t : Trie) (ops : List Op) : Trie := ops.foldl applyOp t

/-- build a trie from key/value pairs by `set`, in list order, starting from
`Trie.new`. -/
def buildTrie (pairs : List (List Nat × List Nat)) : Trie :=
  pairs.foldl (fun t kv => t.set kv.1 kv.2) Trie.new

/-- build on a store-bound trie instead. -/
def buildTrieDb (pairs : List (List Nat × List Nat)) : Trie :=
  pairs.foldl (fun t kv => t.set kv.1 kv.2) Trie.with_db

/-- delete a list of keys in order, keeping only the trie. -/
def deleteKeys (t : Trie) (ks : List (List Nat)) : Trie :=
  ks.foldl (fun t k => (t.delete k).1) t

/-! ## Proof infrastructure: reachable-tree invariant and fuel bounds -/

/-- the node is a Branch. -/
def isBranch : Node → Prop
  | .Branch _ _ => True
  | _ => False

/-- invariant of every node in a tree reachable through the public API, at
nibble depth `d`: stored paths are nibbles, key paths complete to 64 nibbles,
a branch has 16 slots, no value, at least two children, and every extension
child is a branch.  (Reachable extensions can have empty paths — the source
emits them — so I3 is deliberately not part of this invariant.) -/
inductive Wf : Node → Nat → Prop where
  | leaf : ∀ (p v : List Nat) (d : Nat), d + p.length = 64 → (∀ x ∈ p, x < 16) →
      Wf (.Leaf p v) d
  | ext : ∀ (p : List Nat) (c : Node) (d : Nat), (∀ x ∈ p, x < 16) → isBranch c →
      Wf c (d + p.length) → Wf (.Extension p c) d
  | branch : ∀ (ch : List (Option Node)) (v : Option (List Nat)) (d : Nat),
      ch.length = 16 → d < 64 → v = none →
      (∀ i c, ch.getD i none = some c → Wf c (d + 1)) →
      2 ≤ (activeChildren ch 0).length →
      Wf (.Branch ch v) d

/-- fuel needed by an operation entering this node at depth `d` (each level
consumes at most 3: one for a branch, two for an extension via its merge). -/
def fuelNeed : Node → Nat → Nat
  | .Leaf _ _, _ => 1
  | .Branch _ _, d => 3 * (65 - d)
  | .Extension _ _, d => 3 * (65 - d) + 2

/-- a remaining key path at depth `d`: completes to 64 nibbles, all nibbles. -/
def goodP (p : List Nat) (d : Nat) : Prop :=
  d + p.length = 64 ∧ ∀ x ∈ p, x < 16

/-- trie-level invariant: empty, or a reachable root. -/
def TrieWf (t : Trie) : Prop :=
  match t.root with
  | none => True
  | some n => Wf n 0

/-- a byte sequence that is a canonical RLP encoding: the encoding of some
well-formed RLP value (the spec: "Encoding is canonical (a single valid
encoding per value)"). -/
def canonicalRlp (b : List Nat) : Prop :=
  ∃ x, rlpWf x = true ∧ encode_rlp x = b

/-- concrete 32-byte keys exercising the extension-split restructuring:
nibble paths [0,0,0,…], [0,1,0,…], [1,0,0,…]. -/
def cexKeyA : List Nat := List.replicate 32 0

/-- second key: differs from `cexKeyA` at the second nibble. -/
def cexKeyB : List Nat := 1 :: List.replicate 31 0

/-- third key: differs from both at the first nibble. -/
def cexKeyC : List Nat := 16 :: List.replicate 31 0

/-- the in-memory trie after `set A; set B; set C` (insertion order 1). -/
def cexTrieABC : Trie := ((Trie.new.set cexKeyA [1]).set cexKeyB [2]).set cexKeyC [3]

/-- order 1 on a store-bound trie. -/
def cexDbABC : Trie := ((Trie.with_db.set cexKeyA [1]).set cexKeyB [2]).set cexKeyC [3]

/-- order 2 (`A; C; B`) on a store-bound trie — same key→value mapping. -/
def cexDbACB : Trie := ((Trie.with_db.set cexKeyA [1]).set cexKeyC [3]).set cexKeyB [2]

/-- I3 checker at the root of a trie (an empty trie satisfies it). -/
def rootCheckI3 (t : Trie) : Bool :=
  match t.root with
  | none => true
  | some n => checkI3F FUEL n


/-- the leaf for key A inside the shared branch (paths are the key nibbles
after the two consumed ones). -/
def nA : Node := .Leaf (List.replicate 62 0) [1]

/-- the leaf for key B inside the shared branch. -/
def nB : Node := .Leaf (List.replicate 62 0) [2]

/-- the leaf for key C under the root branch. -/
def nC : Node := .Leaf (0 :: List.replicate 62 0) [3]

/-- the branch holding the A and B leaves. -/
def nB2 : Node := .Branch
  [some nA, some nB, none, none, none, none, none, none,
   none, none, none, none, none, none, none, none] none

/-- the empty-path extension over `nB2` that insertion order A,B,C produces. -/
def nExt : Node := .Extension [] nB2

/-- the root of insertion order A,B,C. -/
def nRoot1 : Node := .Branch
  [some nExt, some nC, none, none, none, none, none, none,
   none, none, none, none, none, none, none, none] none

/-- the root of insertion order A,C,B — same mapping, no extension. -/
def nRoot2 : Node := .Branch
  [some nB2, some nC, none, none, none, none, none, none,
   none, none, none, none, none, none, none, none] none

/-- commit-time RLP of `nA`. -/
def cexEncA : List Nat := [226, 160, 32, 0, 0, 0, 0, 0, 0, 0, 0, 0, 0, 0, 0, 0, 0, 0, 0, 0, 0, 0, 0, 0, 0, 0, 0, 0, 0, 0, 0, 0, 0, 0, 1]

/-- Keccak-256 of `cexEncA`. -/
def cexHashA : List Nat := [148, 167, 43, 84, 216, 71, 69, 166, 221, 48, 108, 51, 61, 161, 201, 72, 28, 161, 47, 53, 118, 212, 145, 225, 3, 10, 80, 218, 49, 55, 201, 42]

/-- commit-time RLP of `nB`. -/
def cexEncB : List Nat := [226, 160, 32, 0, 0, 0, 0, 0, 0, 0, 0, 0, 0, 0, 0, 0, 0, 0, 0, 0, 0, 0, 0, 0, 0, 0, 0, 0, 0, 0, 0, 0, 0, 0, 2]

/-- Keccak-256 of `cexEncB`. -/
def cexHashB : List Nat := [95, 176, 36, 149, 167, 147, 176, 10, 21, 167, 222, 68, 128, 236, 44, 16, 219, 128, 200, 164, 63, 195, 43, 188, 196, 232, 127, 104, 18, 173, 147, 29]

/-- commit-time RLP of `nC`. -/
def cexEncC : List Nat := [226, 160, 48, 0, 0, 0, 0, 0, 0, 0, 0, 0, 0, 0, 0, 0, 0, 0, 0, 0, 0, 0, 0, 0, 0, 0, 0, 0, 0, 0, 0, 0, 0, 0, 3]

/-- Keccak-256 of `cexEncC`. -/
def cexHashC : List Nat := [71, 163, 241, 120, 248, 32, 18, 178, 103, 69, 132, 1, 210, 54, 209, 249, 240, 60, 148, 163, 99, 114, 206, 180, 185, 164, 211, 76, 98, 207, 118, 160]

/-- commit-time RLP of `nB2`. -/
def cexEncB2 : List Nat := [248, 81, 160, 148, 167, 43, 84, 216, 71, 69, 166, 221, 48, 108, 51, 61, 161, 201, 72, 28, 161, 47, 53, 118, 212, 145, 225, 3, 10, 80, 218, 49, 55, 201, 42, 160, 95, 176, 36, 149, 167, 147, 176, 10, 21, 167, 222, 68, 128, 236, 44, 16, 219, 128, 200, 164, 63, 195, 43, 188, 196, 232, 127, 104, 18, 173, 147, 29, 128, 128, 128, 128, 128, 128, 128, 128, 128, 128, 128, 128, 128, 128, 128]

/-- Keccak-256 of `cexEncB2`. -/
def cexHashB2 : List Nat := [242, 144, 241, 221, 5, 239, 68, 64, 10, 235, 93, 146, 170, 38, 221, 154, 249, 213, 94, 223, 81, 222, 193, 10, 151, 121, 166, 96, 147, 196, 42, 207]

/-- commit-time RLP of `nExt`. -/
def cexEncExt : List Nat := [226, 0, 160, 242, 144, 241, 221, 5, 239, 68, 64, 10, 235, 93, 146, 170, 38, 221, 154, 249, 213, 94, 223, 81, 222, 193, 10, 151, 121, 166, 96, 147, 196, 42, 207]

/-- Keccak-256 of `cexEncExt`. -/
def cexHashExt : List Nat := [127, 77, 15, 1, 192, 84, 115, 235, 86, 216, 14, 207, 42, 52, 39, 49, 236, 50, 235, 61, 197, 240, 228, 152, 80, 254, 173, 229, 104, 92, 71, 36]

/-- commit-time RLP of `nRoot1`. -/
def cexEncR1 : List Nat := [248, 81, 160, 127, 77, 15, 1, 192, 84, 115, 235, 86, 216, 14, 207, 42, 52, 39, 49, 236, 50, 235, 61, 197, 240, 228, 152, 80, 254, 173, 229, 104, 92, 71, 36, 160, 71, 163, 241, 120, 248, 32, 18, 178, 103, 69, 132, 1, 210, 54, 209, 249, 240, 60, 148, 163, 99, 114, 206, 180, 185, 164, 211, 76, 98, 207, 118, 160, 128, 128, 128, 128, 128, 128, 128, 128, 128, 128, 128, 128, 128, 128, 128]

/-- Keccak-256 of `cexEncR1`. -/
def cexHashR1 : List Nat := [75, 252, 245, 157, 207, 170, 115, 69, 116, 15, 67, 82, 62, 63, 59, 160, 160, 64, 97, 192, 101, 26, 205, 101, 54, 63, 225, 114, 97, 113, 56, 52]

/-- commit-time RLP of `nRoot2`. -/
def cexEncR2 : List Nat := [248, 81, 160, 242, 144, 241, 221, 5, 239, 68, 64, 10, 235, 93, 146, 170, 38, 221, 154, 249, 213, 94, 223, 81, 222, 193, 10, 151, 121, 166, 96, 147, 196, 42, 207, 160, 71, 163, 241, 120, 248, 32, 18, 178, 103, 69, 132, 1, 210, 54, 209, 249, 240, 60, 148, 163, 99, 114, 206, 180, 185, 164, 211, 76, 98, 207, 118, 160, 128, 128, 128, 128, 128, 128, 128, 128, 128, 128, 128, 128, 128, 128, 128]

/-- Keccak-256 of `cexEncR2`. -/
def cexHashR2 : List Nat := [107, 231, 196, 139, 183, 44, 141, 216, 255, 82, 58, 12, 39, 76, 132, 21, 108, 234, 114, 127, 40, 5, 43, 147, 82, 213, 66, 130, 127, 34, 27, 167]

/-- all keys of a sequence of operations are well-formed 32-byte keys. -/
def opsValid (ops : List Op) : Prop := ∀ op ∈ ops, isKey32 op.key

/-- predicate on a batch of store writes: every entry is keyed by the
Keccak-256 of its value and the value is at least 32 bytes. -/
def goodWrites (w : List (List Nat × List Nat)) : Prop :=
  ∀ kv ∈ w, kv.1 = keccak256 kv.2 ∧ 32 ≤ kv.2.length

/-- a node is not a leaf (the shapes `Node::delete` may be called on). -/
def notLeaf : Node → Prop
  | .Leaf _ _ => False
  | _ => True

/-! ## Theorems -/

/-- `set` and `delete` do not touch the store binding. -/
theorem applyOp_db (t : Trie) (op : Op) : (applyOp t op).db = t.db := by
  cases op with
  | setOp k v =>
    simp only [applyOp, Trie.set]
    cases t.root <;> simp
  | delOp k =>
    simp only [applyOp, Trie.delete]
    cases t.root with
    | none => rfl
    | some root =>
      cases root with
      | Leaf lp lv => by_cases h : lp = keyNibbles k <;> simp [h]
      | Extension ep ec => cases h : deleteF FUEL (.Extension ep ec) (keyNibbles k) <;> simp [h]
      | Branch ch v => cases h : deleteF FUEL (.Branch ch v) (keyNibbles k) <;> simp [h]

/-- `applyOps` does not touch the store binding. -/
theorem applyOps_db (t : Trie) (ops : List Op) : (applyOps t ops).db = t.db := by
  induction ops generalizing t with
  | nil => rfl
  | cons op rest ih => simpa [applyOps, List.foldl_cons, applyOp_db] using
      (applyOp_db t op ▸ ih (applyOp t op))

/-- C10: committing a trie created by `Trie::new()` — never bound to a store —
panics (`self.db.as_mut().unwrap()` on `None`, modelled as `none`) for every
sequence of public operations applied to it, instead of returning a root
reference. -/
theorem commit_unbound_panics (ops : List Op) : (applyOps Trie.new ops).commit = none := by
  have h : (applyOps Trie.new ops).db = none := applyOps_db Trie.new ops
  unfold Trie.commit
  rw [h]

/-- C3 (code evaluation at the failing input): after three successful `set`s
of 32-byte keys with nibble paths [0,0,…], [0,1,…], [1,0,…] the tree contains
an Extension with an empty path, violating invariant I3 ("No Extension has an
empty path").  The third insert splits the root extension `[0]` at its last
nibble and `ExtensionNode::merge_with` emits `Extension(rem_ext_path[1..] = [],
old_child)`. -/
theorem set_violates_I3 : rootCheckI3 cexTrieABC = false := by decide


/-- `inline_or_hash` on an RLP of at least 32 bytes stores under the hash. -/
theorem inline_or_hash_big (db : List (List Nat × List Nat)) (rlp : RlpData)
    (h : 32 ≤ (encode_rlp rlp).length) :
    inline_or_hash db rlp =
      (.Hash (keccak256 (encode_rlp rlp)),
       db ++ [(keccak256 (encode_rlp rlp), encode_rlp rlp)]) := by
  simp only [inline_or_hash]
  rw [if_neg (by omega)]

/-- committing the A-leaf writes its RLP under its hash. -/
theorem commit_nA (f : Nat) (db : List (List Nat × List Nat)) (h : 1 ≤ f) :
    commitNodeF f nA db = some (.Hash cexHashA, db ++ [(cexHashA, cexEncA)]) := by
  cases f with
  | zero => omega
  | succ g => rfl

/-- committing the B-leaf. -/
theorem commit_nB (f : Nat) (db : List (List Nat × List Nat)) (h : 1 ≤ f) :
    commitNodeF f nB db = some (.Hash cexHashB, db ++ [(cexHashB, cexEncB)]) := by
  cases f with
  | zero => omega
  | succ g => rfl

/-- committing the C-leaf. -/
theorem commit_nC (f : Nat) (db : List (List Nat × List Nat)) (h : 1 ≤ f) :
    commitNodeF f nC db = some (.Hash cexHashC, db ++ [(cexHashC, cexEncC)]) := by
  cases f with
  | zero => omega
  | succ g => rfl

/-- committing a run of absent children contributes empty strings and no
writes. -/
theorem commit_nones (k : Nat) :
    ∀ (f : Nat) (db : List (List Nat × List Nat)), k + 1 ≤ f →
      commitChildrenF f (List.replicate k none) db =
        some (List.replicate k (.String []), db) := by
  induction k with
  | zero =>
    intro f db h
    cases f with
    | zero => omega
    | succ g => rfl
  | succ k ih =>
    intro f db h
    cases f with
    | zero => omega
    | succ g =>
      simp only [List.replicate, commitChildrenF, ih g db (by omega)]

/-- committing the shared branch `nB2` writes A, B, then the branch itself. -/
theorem commit_nB2 (f : Nat) (db : List (List Nat × List Nat)) (h : 20 ≤ f) :
    commitNodeF f nB2 db = some (.Hash cexHashB2,
      db ++ [(cexHashA, cexEncA), (cexHashB, cexEncB), (cexHashB2, cexEncB2)]) := by
  cases f with
  | zero => omega
  | succ g => cases g with
    | zero => omega
    | succ g1 => cases g1 with
      | zero => omega
      | succ g2 =>
        have e1 := commit_nA (g2 + 1) db (by omega)
        have e2 := commit_nB g2 (db ++ [(cexHashA, cexEncA)]) (by omega)
        have e3 := commit_nones 14 g2 (db ++ [(cexHashA, cexEncA)] ++ [(cexHashB, cexEncB)])
          (by omega)
        simp only [List.replicate_succ, List.replicate_zero] at e3
        simp only [nB2, commitNodeF]
        simp only [commitChildrenF, e1, e2, e3]
        rw [inline_or_hash_big _ _ (by decide)]
        simp only [List.append_assoc]
        rfl

/-- committing the empty-path extension `nExt` commits `nB2` first, then
itself. -/
theorem commit_nExt (f : Nat) (db : List (List Nat × List Nat)) (h : 22 ≤ f) :
    commitNodeF f nExt db = some (.Hash cexHashExt,
      db ++ [(cexHashA, cexEncA), (cexHashB, cexEncB), (cexHashB2, cexEncB2),
             (cexHashExt, cexEncExt)]) := by
  cases f with
  | zero => omega
  | succ g =>
    have e1 := commit_nB2 g db (by omega)
    simp only [nExt, commitNodeF, e1]
    show some (inline_or_hash
        (db ++ [(cexHashA, cexEncA), (cexHashB, cexEncB), (cexHashB2, cexEncB2)])
        (RlpData.List [.String [0], .String cexHashB2])) = _
    rw [inline_or_hash_big _ _ (by decide)]
    simp only [List.append_assoc]
    rfl

/-- committing the order-1 root writes A, B, the branch, the extension, C,
then the root. -/
theorem commit_nRoot1 (f : Nat) (db : List (List Nat × List Nat)) (h : 26 ≤ f) :
    commitNodeF f nRoot1 db = some (.Hash cexHashR1,
      db ++ [(cexHashA, cexEncA), (cexHashB, cexEncB), (cexHashB2, cexEncB2),
             (cexHashExt, cexEncExt), (cexHashC, cexEncC), (cexHashR1, cexEncR1)]) := by
  cases f with
  | zero => omega
  | succ g => cases g with
    | zero => omega
    | succ g1 => cases g1 with
      | zero => omega
      | succ g2 =>
        have e1 := commit_nExt (g2 + 1) db (by omega)
        have e2 := commit_nC g2 (db ++ [(cexHashA, cexEncA), (cexHashB, cexEncB),
          (cexHashB2, cexEncB2), (cexHashExt, cexEncExt)]) (by omega)
        have e3 := commit_nones 14 g2 (db ++ [(cexHashA, cexEncA), (cexHashB, cexEncB),
          (cexHashB2, cexEncB2), (cexHashExt, cexEncExt)] ++ [(cexHashC, cexEncC)]) (by omega)
        simp only [List.replicate_succ, List.replicate_zero] at e3
        simp only [nRoot1, commitNodeF]
        simp only [commitChildrenF, e1, e2, e3]
        rw [inline_or_hash_big _ _ (by decide)]
        simp only [List.append_assoc]
        rfl

/-- committing the order-2 root writes A, B, the branch, C, then the root;
its hash differs from the order-1 root's. -/
theorem commit_nRoot2 (f : Nat) (db : List (List Nat × List Nat)) (h : 26 ≤ f) :
    commitNodeF f nRoot2 db = some (.Hash cexHashR2,
      db ++ [(cexHashA, cexEncA), (cexHashB, cexEncB), (cexHashB2, cexEncB2),
             (cexHashC, cexEncC), (cexHashR2, cexEncR2)]) := by
  cases f with
  | zero => omega
  | succ g => cases g with
    | zero => omega
    | succ g1 => cases g1 with
      | zero => omega
      | succ g2 =>
        have e1 := commit_nB2 (g2 + 1) db (by omega)
        have e2 := commit_nC g2 (db ++ [(cexHashA, cexEncA), (cexHashB, cexEncB),
          (cexHashB2, cexEncB2)]) (by omega)
        have e3 := commit_nones 14 g2 (db ++ [(cexHashA, cexEncA), (cexHashB, cexEncB),
          (cexHashB2, cexEncB2)] ++ [(cexHashC, cexEncC)]) (by omega)
        simp only [List.replicate_succ, List.replicate_zero] at e3
        simp only [nRoot2, commitNodeF]
        simp only [commitChildrenF, e1, e2, e3]
        rw [inline_or_hash_big _ _ (by decide)]
        simp only [List.append_assoc]
        rfl

/-- C2 (code evaluation at the failing input): two store-bound tries holding
the same three-key mapping, built in insertion orders A,B,C and A,C,B, agree
on every lookup, yet `commit()` returns different root references: the first
order's tree holds an empty-path Extension above the shared branch (emitted by
`ExtensionNode::merge_with`), the second holds the branch directly, so the
root RLPs — and hence the Keccak-256 root hashes — differ. -/
theorem commit_order_dependent :
    (∀ k ∈ [cexKeyA, cexKeyB, cexKeyC], cexDbABC.get k = cexDbACB.get k) ∧
      cexDbABC.commit.map (fun x => x.1) ≠ cexDbACB.commit.map (fun x => x.1) := by
  constructor
  · decide
  · have r1 : cexDbABC.root = some nRoot1 := rfl
    have r2 : cexDbACB.root = some nRoot2 := rfl
    have d1 : cexDbABC.db = some [] := rfl
    have d2 : cexDbACB.db = some [] := rfl
    simp only [Trie.commit, r1, r2, d1, d2]
    rw [commit_nRoot1 FUELC [] (by norm_num [FUELC]),
        commit_nRoot2 FUELC [] (by norm_num [FUELC])]
    simp only [Option.map_some]
    intro hcontra
    have : cexHashR1 = cexHashR2 := by
      injection hcontra with h1
      injection h1
    exact absurd this (by decide)

/-- `to_integer` inverts the fixed 8-byte big-endian rendering below `2^64`. -/
theorem to_integer_be8 (l : Nat) (h : l < 2 ^ 64) : to_integer (natToBE8 l) = l := by
  simp only [to_integer, natToBE8, List.foldl]
  omega

/-- leading zero bytes do not change `to_integer`. -/
theorem to_integer_dropZeros (L : List Nat) :
    to_integer (L.dropWhile (· == 0)) = to_integer L := by
  induction L with
  | nil => rfl
  | cons a t ih =>
    by_cases ha : a = 0
    · subst ha
      simpa [to_integer, List.dropWhile] using ih
    · have hb : (a == 0) = false := by simpa using ha
      simp [to_integer, List.dropWhile, hb]

/-- `to_integer` inverts `length_to_minimal_bytes` below `2^64`. -/
theorem to_integer_minimal (l : Nat) (h : l < 2 ^ 64) :
    to_integer (length_to_minimal_bytes l) = l := by
  unfold length_to_minimal_bytes
  by_cases h0 : l = 0
  · subst h0; rfl
  · rw [if_neg h0, to_integer_dropZeros, to_integer_be8 l h]

/-- `dropWhile` never lengthens a list. -/
theorem length_dropWhile_le {α : Type} (p : α → Bool) (L : List α) :
    (L.dropWhile p).length ≤ L.length := by
  induction L with
  | nil => simp
  | cons a t ih =>
    by_cases hp : p a
    · simp only [List.dropWhile, hp]
      exact le_trans ih (by simp)
    · have hb : p a = false := by simpa using hp
      simp [List.dropWhile, hb]

/-- minimal length bytes: at most 8 of them. -/
theorem minimal_len_le (l : Nat) : (length_to_minimal_bytes l).length ≤ 8 := by
  unfold length_to_minimal_bytes
  by_cases h0 : l = 0
  · simp [h0]
  · rw [if_neg h0]
    calc ((natToBE8 l).dropWhile (· == 0)).length ≤ (natToBE8 l).length :=
          length_dropWhile_le _ _
      _ = 8 := rfl

/-- minimal length bytes of a positive value below `2^64`: at least one. -/
theorem minimal_len_pos (l : Nat) (h0 : l ≠ 0) (h : l < 2 ^ 64) :
    1 ≤ (length_to_minimal_bytes l).length := by
  by_contra hc
  have hnil : length_to_minimal_bytes l = [] := by
    cases hl : length_to_minimal_bytes l with
    | nil => rfl
    | cons a t => rw [hl] at hc; simp at hc
  have : to_integer (length_to_minimal_bytes l) = l := to_integer_minimal l h
  rw [hnil] at this
  exact h0 (by simpa [to_integer] using this.symm)

/-- an RLP encoding is never empty. -/
theorem encode_rlp_ne_nil (x : RlpData) : encode_rlp x ≠ [] := by
  cases x with
  | String bytes =>
    by_cases hb : bytes.length = 1 ∧ bytes.headD 0 < 0x80
    · simp only [encode_rlp, if_pos hb]
      intro hc
      rw [hc] at hb
      simp at hb
    · simp only [encode_rlp, if_neg hb, encode_length]
      by_cases hl : bytes.length ≤ 55 <;> simp [hl]
  | List items =>
    simp only [encode_rlp, encode_length]
    by_cases hl : (encodeItems items).length ≤ 55 <;> simp [hl]

mutual

/-- `decode_length` inverts `encode_rlp` on any well-formed value, consuming
exactly the encoding and ignoring anything after it. -/
theorem decLen_enc (x : RlpData) (rest : List Nat) (f : Nat)
    (hw : rlpWf x = true) (hf : 2 * (encode_rlp x).length + 2 ≤ f) :
    decLenF f (encode_rlp x ++ rest) = .ok (x, (encode_rlp x).length) := by
  match x with
  | .String s =>
    by_cases hb : s.length = 1 ∧ s.headD 0 < 0x80
    · obtain ⟨h1, h2⟩ := hb
      obtain ⟨b, rfl⟩ : ∃ b, s = [b] := by
        cases s with
        | nil => simp at h1
        | cons b t =>
          cases t with
          | nil => exact ⟨b, rfl⟩
          | cons c u => simp at h1
      simp only [List.headD] at h2
      have he : encode_rlp (.String [b]) = [b] := by
        simp only [encode_rlp]
        rw [if_pos (by simp [h2])]
      rw [he] at hf ⊢
      cases f with
      | zero => simp at hf
      | succ g =>
        show decLenF (g + 1) (b :: rest) = .ok (.String [b], 1)
        simp only [decLenF]
        rw [if_pos (by omega : b ≤ 0x7f)]
    · have he : encode_rlp (.String s) = encode_length s.length 0x80 ++ s := by
        simp only [encode_rlp, if_neg hb]
      by_cases hlen : s.length ≤ 55
      · have he2 : encode_rlp (.String s) = (s.length + 0x80) :: s := by
          rw [he]; simp [encode_length, hlen]
        rw [he2] at hf ⊢
        cases f with
        | zero => simp at hf
        | succ g =>
          show decLenF (g + 1) ((s.length + 0x80) :: (s ++ rest)) =
            .ok (.String s, s.length + 1)
          simp only [decLenF]
          rw [if_neg (by omega), if_pos (by omega)]
          simp only [show s.length + 0x80 - 0x80 = s.length from by omega]
          rw [if_neg (by simp only [List.length_cons, List.length_append]; omega)]
          rw [List.take_left]
      · have hwf : (encode_rlp (.String s)).length < 2 ^ 64 := by
          simpa [rlpWf] using hw
        have hm := minimal_len_le s.length
        have hslt : s.length < 2 ^ 64 := by
          rw [he] at hwf; simp [encode_length, hlen] at hwf; omega
        have hm1 : 1 ≤ (length_to_minimal_bytes s.length).length :=
          minimal_len_pos s.length (by omega) hslt
        have he2 : encode_rlp (.String s) =
            ((length_to_minimal_bytes s.length).length + 0x80 + 55) ::
              (length_to_minimal_bytes s.length ++ s) := by
          rw [he]; simp [encode_length, hlen]
        have hbound : (length_to_minimal_bytes s.length).length + 1 + s.length < 2 ^ 64 := by
          rw [he2] at hwf
          simp only [List.length_cons, List.length_append] at hwf
          omega
        rw [he2] at hf ⊢
        cases f with
        | zero => simp at hf
        | succ g =>
          show decLenF (g + 1)
              (((length_to_minimal_bytes s.length).length + 0x80 + 55) ::
                ((length_to_minimal_bytes s.length ++ s) ++ rest)) =
            .ok (.String s, (length_to_minimal_bytes s.length ++ s).length + 1)
          simp only [decLenF]
          rw [if_neg (by omega), if_neg (by omega), if_pos (by omega)]
          simp only [show (length_to_minimal_bytes s.length).length + 0x80 + 55 - 0xb7 =
            (length_to_minimal_bytes s.length).length from by omega]
          rw [List.append_assoc, List.take_left, to_integer_minimal s.length hslt]
          rw [if_neg (by simp only [List.length_cons, List.length_append]; omega)]
          rw [if_neg (by omega)]
          rw [if_neg (by simp only [List.length_cons, List.length_append]; omega)]
          rw [List.drop_succ_cons, List.drop_left, List.take_left]
          rw [show (length_to_minimal_bytes s.length ++ s).length + 1 =
            (length_to_minimal_bytes s.length).length + 1 + s.length from by
              simp only [List.length_append]; omega]
  | .List items =>
    have hwitems : rlpWfItems items = true := by
      simp only [rlpWf, Bool.and_eq_true] at hw; exact hw.2
    have hwf : (encode_rlp (.List items)).length < 2 ^ 64 := by
      simp only [rlpWf, Bool.and_eq_true, decide_eq_true_eq] at hw; exact hw.1
    have he : encode_rlp (.List items) =
        encode_length (encodeItems items).length 0xc0 ++ encodeItems items := by
      simp only [encode_rlp]
    by_cases hlen : (encodeItems items).length ≤ 55
    · have he2 : encode_rlp (.List items) =
          ((encodeItems items).length + 0xc0) :: encodeItems items := by
        rw [he]; simp [encode_length, hlen]
      rw [he2] at hf ⊢
      cases f with
      | zero => simp at hf
      | succ g =>
        show decLenF (g + 1)
            (((encodeItems items).length + 0xc0) :: (encodeItems items ++ rest)) =
          .ok (.List items, (encodeItems items).length + 1)
        simp only [decLenF]
        rw [if_neg (by omega), if_neg (by omega), if_neg (by omega), if_pos (by omega)]
        simp only [show (encodeItems items).length + 0xc0 - 0xc0 =
          (encodeItems items).length from by omega]
        rw [if_neg (by simp only [List.length_cons, List.length_append]; omega)]
        rw [List.take_left]
        rw [decItems_enc items g hwitems (by
          simp only [List.length_cons] at hf; omega)]
        rw [show (1 : Nat) + (encodeItems items).length =
          (encodeItems items).length + 1 from by omega]
    · have hm := minimal_len_le (encodeItems items).length
      have hslt : (encodeItems items).length < 2 ^ 64 := by
        rw [he] at hwf; simp [encode_length, hlen] at hwf; omega
      have hm1 : 1 ≤ (length_to_minimal_bytes (encodeItems items).length).length :=
        minimal_len_pos _ (by omega) hslt
      have he2 : encode_rlp (.List items) =
          ((length_to_minimal_bytes (encodeItems items).length).length + 0xc0 + 55) ::
            (length_to_minimal_bytes (encodeItems items).length ++ encodeItems items) := by
        rw [he]; simp [encode_length, hlen]
      have hbound : (length_to_minimal_bytes (encodeItems items).length).length + 1 +
          (encodeItems items).length < 2 ^ 64 := by
        rw [he2] at hwf
        simp only [List.length_cons, List.length_append] at hwf
        omega
      rw [he2] at hf ⊢
      cases f with
      | zero => simp at hf
      | succ g =>
        show decLenF (g + 1)
            (((length_to_minimal_bytes (encodeItems items).length).length + 0xc0 + 55) ::
              ((length_to_minimal_bytes (encodeItems items).length ++ encodeItems items)
                ++ rest)) =
          .ok (.List items,
            (length_to_minimal_bytes (encodeItems items).length ++ encodeItems items).length
              + 1)
        simp only [decLenF]
        rw [if_neg (by omega), if_neg (by omega), if_neg (by omega), if_neg (by omega)]
        simp only [show (length_to_minimal_bytes (encodeItems items).length).length +
          0xc0 + 55 - 0xf7 =
          (length_to_minimal_bytes (encodeItems items).length).length from by omega]
        rw [if_neg (by simp only [List.length_cons, List.length_append]; omega)]
        rw [List.append_assoc, List.take_left, to_integer_minimal _ hslt]
        rw [if_neg (by omega)]
        rw [if_neg (by simp only [List.length_cons, List.length_append]; omega)]
        rw [List.drop_succ_cons, List.drop_left, List.take_left]
        rw [decItems_enc items g hwitems (by
          simp only [List.length_cons, List.length_append] at hf; omega)]
        rw [show (length_to_minimal_bytes (encodeItems items).length ++
            encodeItems items).length + 1 =
          (length_to_minimal_bytes (encodeItems items).length).length + 1 +
            (encodeItems items).length from by simp only [List.length_append]; omega]

/-- the item loop of `decode_length` inverts the item-wise encoding
concatenation. -/
theorem decItems_enc (items : List RlpData) (f : Nat)
    (hw : rlpWfItems items = true) (hf : 2 * (encodeItems items).length + 3 ≤ f) :
    decItemsF f (encodeItems items) = .ok items := by
  match items with
  | [] =>
    cases f with
    | zero => omega
    | succ g => simp [encodeItems, decItemsF]
  | x :: xs =>
    have hwx : rlpWf x = true := by
      simp only [rlpWfItems, Bool.and_eq_true] at hw; exact hw.1
    have hwxs : rlpWfItems xs = true := by
      simp only [rlpWfItems, Bool.and_eq_true] at hw; exact hw.2
    have hne := encode_rlp_ne_nil x
    have hpos : 1 ≤ (encode_rlp x).length := List.length_pos.2 hne
    cases f with
    | zero => omega
    | succ g =>
      have heq : encodeItems (x :: xs) = encode_rlp x ++ encodeItems xs := rfl
      rw [heq] at hf ⊢
      simp only [decItemsF]
      rw [if_neg (by simp [List.isEmpty_eq_true, hne])]
      rw [decLen_enc x (encodeItems xs) g hwx (by
        simp only [List.length_append] at hf; omega)]
      dsimp only
      rw [List.drop_left]
      rw [decItems_enc xs g hwxs (by
        simp only [List.length_append] at hf; omega)]

end

/-- C4: RLP round-trip.  For every well-formed RLP value `x`,
`decode(encode(x)) = x`; and every canonical encoding `b` (the encoding of a
well-formed value) decodes to a value that re-encodes to `b`. -/
theorem rlp_roundtrip :
    (∀ x, rlpWf x = true → decode_rlp (encode_rlp x) = .ok x) ∧
    (∀ b, canonicalRlp b → ∃ x, decode_rlp b = .ok x ∧ encode_rlp x = b) := by
  have main : ∀ x, rlpWf x = true → decode_rlp (encode_rlp x) = .ok x := by
    intro x hw
    unfold decode_rlp
    rw [if_neg (by simpa using encode_rlp_ne_nil x)]
    have h := decLen_enc x [] (2 * (encode_rlp x).length + 2) hw (by omega)
    rw [List.append_nil] at h
    unfold decode_length
    rw [h]
  refine ⟨main, ?_⟩
  rintro b ⟨x, hw, rfl⟩
  exact ⟨x, main x hw, rfl⟩

/-- witness for C4 at concrete values: the list ["cat", "dog"] round-trips,
and the canonical encoding [0xc0] of the empty list decodes back to it. -/
theorem rlp_roundtrip_witness :
    rlpWf (.List [.String [0x63, 0x61, 0x74], .String [0x64, 0x6f, 0x67]]) = true ∧
    decode_rlp (encode_rlp (.List [.String [0x63, 0x61, 0x74], .String [0x64, 0x6f, 0x67]])) =
      .ok (.List [.String [0x63, 0x61, 0x74], .String [0x64, 0x6f, 0x67]]) ∧
    canonicalRlp [0xc0] ∧
    (∃ x, decode_rlp [0xc0] = .ok x ∧ encode_rlp x = [0xc0]) := by
  refine ⟨by decide, rlp_roundtrip.1 _ (by decide), ⟨.List [], by decide, rfl⟩,
    rlp_roundtrip.2 [0xc0] ⟨.List [], by decide, rfl⟩⟩

/-- C7 counterexample: on input [0x01, 0x02] the first item consumes one of
the two bytes, and the top-level decoder succeeds with the first item instead
of failing with a TrailingBytes error. -/
theorem decode_rlp_trailing_accepted : decode_rlp [0x01, 0x02] = .ok (.String [0x01]) := rfl

/-- C7 amended: the top-level decoder is not strict about input length — it
decodes the first item and silently ignores any trailing bytes (there is no
TrailingBytes error in the code). -/
theorem decode_rlp_ignores_trailing (x : RlpData) (rest : List Nat)
    (hw : rlpWf x = true) : decode_rlp (encode_rlp x ++ rest) = .ok x := by
  unfold decode_rlp
  rw [if_neg (by simp [encode_rlp_ne_nil x])]
  unfold decode_length
  rw [decLen_enc x rest _ hw (by simp only [List.length_append]; omega)]

/-- witness for the amended C7: "cat" followed by a stray byte decodes to
"cat". -/
theorem decode_rlp_ignores_trailing_witness :
    rlpWf (.String [0x63, 0x61, 0x74]) = true ∧
    decode_rlp (encode_rlp (.String [0x63, 0x61, 0x74]) ++ [0x99]) =
      .ok (.String [0x63, 0x61, 0x74]) :=
  ⟨by decide, decode_rlp_ignores_trailing _ [0x99] (by decide)⟩

/-- C8 counterexample: on the malformed input [0x81] (a declared one-byte
string with no byte following) the top-level decoder panics — `decode_rlp`
unwraps the decode error — rather than returning a typed error. -/
theorem decode_rlp_panics_on_malformed :
    decode_rlp [0x81] = .panicked "Insufficient data for string" := rfl

/-- C8 amended: empty top-level input yields the empty string (not an
EmptyInput error); `decode_length` panics on empty input; and whenever
`decode_length` returns a typed error, `decode_rlp` turns it into a panic via
`unwrap` instead of propagating it. -/
theorem decode_rlp_error_behavior :
    decode_rlp [] = .ok (.String []) ∧
    decode_length [] = .panicked "Length of the data is 0" ∧
    (∀ data m, decode_length data = .err m → decode_rlp data = .panicked m) := by
  refine ⟨rfl, rfl, ?_⟩
  intro data m h
  unfold decode_rlp
  have hne : data.length ≠ 0 := by
    intro h0
    rw [List.length_eq_zero.1 h0] at h
    simp [decode_length, decLenF] at h
  rw [if_neg hne, h]

/-- witness for the amended C8 at the concrete malformed input [0x81]. -/
theorem decode_rlp_error_behavior_witness :
    decode_rlp [0x81] = .panicked "Insufficient data for string" :=
  decode_rlp_error_behavior.2.2 [0x81] "Insufficient data for string" rfl


/-- what `inline_or_hash` contributes: the inline-or-hash reference of the
RLP bytes, membership of the node's own write when hashed, and only good
writes beyond `db`. -/
theorem inline_or_hash_spec (db w1 db' : List (List Nat × List Nat)) (rlp : RlpData)
    (ref : NodeRef) (hw1 : goodWrites w1)
    (h : inline_or_hash (db ++ w1) rlp = (ref, db')) :
    ref = (if (encode_rlp rlp).length < 32 then NodeRef.Inline (encode_rlp rlp)
           else NodeRef.Hash (keccak256 (encode_rlp rlp))) ∧
    (32 ≤ (encode_rlp rlp).length →
      (keccak256 (encode_rlp rlp), encode_rlp rlp) ∈ db') ∧
    ∃ w, db' = db ++ w ∧ goodWrites w := by
  simp only [inline_or_hash] at h
  by_cases hlen : (encode_rlp rlp).length < 32
  · rw [if_pos hlen] at h
    obtain ⟨rfl, rfl⟩ := by simpa using h
    exact ⟨by rw [if_pos hlen], by omega, w1, rfl, hw1⟩
  · rw [if_neg hlen] at h
    obtain ⟨rfl, rfl⟩ := by simpa using h
    refine ⟨by rw [if_neg hlen], fun _ => by simp,
      w1 ++ [(keccak256 (encode_rlp rlp), encode_rlp rlp)], by simp, ?_⟩
    intro kv hkv
    rcases List.mem_append.1 hkv with hkv | hkv
    · exact hw1 kv hkv
    · simp at hkv
      rw [hkv]
      exact ⟨rfl, by simpa [Nat.not_lt] using hlen⟩

/-- fuel-indexed induction for the commit layer: a successful `commit_node`
returns the inline-or-hash reference of the node's RLP bytes and appends only
hash-keyed writes of at-least-32-byte values; a successful child loop yields
exactly the reference fields of `encChildrenF`. -/
theorem commit_spec_aux : ∀ f : Nat,
    (∀ n db ref db', commitNodeF f n db = some (ref, db') →
      ∃ B, encNodeF f n = some B ∧
        ref = (if B.length < 32 then NodeRef.Inline B else NodeRef.Hash (keccak256 B)) ∧
        (32 ≤ B.length → (keccak256 B, B) ∈ db') ∧
        ∃ w, db' = db ++ w ∧ goodWrites w) ∧
    (∀ ch db items db', commitChildrenF f ch db = some (items, db') →
      encChildrenF f ch = some items ∧
      ∃ w, db' = db ++ w ∧ goodWrites w) := by
  intro f
  induction f with
  | zero =>
    constructor
    · intro n db ref db' h
      simp [commitNodeF] at h
    · intro ch db items db' h
      simp [commitChildrenF] at h
  | succ g ih =>
    obtain ⟨ihN, ihC⟩ := ih
    constructor
    · intro n db ref db' h
      match n with
      | .Leaf lp lv =>
        simp only [commitNodeF, compact_encode] at h
        refine ⟨encode_rlp (.List [.String (packPairs
          (if lp.length % 2 = 0 then 0x02 :: 0x00 :: lp else 0x03 :: lp)), .String lv]),
          by simp only [encNodeF, compact_encode], ?_⟩
        have h0 : inline_or_hash (db ++ []) (.List [.String (packPairs
            (if lp.length % 2 = 0 then 0x02 :: 0x00 :: lp else 0x03 :: lp)), .String lv]) =
            (ref, db') := by
          simpa using h
        exact inline_or_hash_spec db [] db' _ ref (by simp [goodWrites]) h0
      | .Extension ep ec =>
        simp only [commitNodeF] at h
        cases hc : commitNodeF g ec db with
        | none => rw [hc] at h; simp at h
        | some pr =>
          obtain ⟨cref, db1⟩ := pr
          rw [hc] at h
          obtain ⟨Bc, hBc, hrefc, _, w1, rfl, hw1⟩ := ihN ec db cref db1 hc
          simp only [compact_encode] at h
          refine ⟨encode_rlp (.List [.String (packPairs
            (if ep.length % 2 = 0 then 0x00 :: 0x00 :: ep else 0x01 :: ep)),
            refField cref]),
            by simp only [encNodeF, hBc, compact_encode, hrefc], ?_⟩
          exact inline_or_hash_spec db w1 db' _ ref hw1 (by simpa using h)
      | .Branch ch v =>
        simp only [commitNodeF] at h
        cases hc : commitChildrenF g ch db with
        | none => rw [hc] at h; simp at h
        | some pr =>
          obtain ⟨items, db1⟩ := pr
          rw [hc] at h
          obtain ⟨hencc, w1, rfl, hw1⟩ := ihC ch db items db1 hc
          refine ⟨encode_rlp (.List (items ++ [(match v with
            | some bs => RlpData.String bs
            | none => RlpData.String [])])),
            by simp only [encNodeF, hencc], ?_⟩
          exact inline_or_hash_spec db w1 db' _ ref hw1 (by simpa using h)
    · intro ch db items db' h
      match ch with
      | [] =>
        simp only [commitChildrenF] at h
        obtain ⟨rfl, rfl⟩ := by simpa using h
        exact ⟨rfl, [], by simp [goodWrites]⟩
      | none :: rest =>
        simp only [commitChildrenF] at h
        cases hc : commitChildrenF g rest db with
        | none => rw [hc] at h; simp at h
        | some pr =>
          obtain ⟨items1, db1⟩ := pr
          rw [hc] at h
          obtain ⟨rfl, rfl⟩ := by simpa using h
          obtain ⟨hencc, w1, rfl, hw1⟩ := ihC rest db items1 db1 hc
          exact ⟨by simp only [encChildrenF, hencc], w1, rfl, hw1⟩
      | some c :: rest =>
        simp only [commitChildrenF] at h
        cases hc : commitNodeF g c db with
        | none => rw [hc] at h; simp at h
        | some pr =>
          obtain ⟨cref, db1⟩ := pr
          rw [hc] at h
          dsimp only at h
          cases hr : commitChildrenF g rest db1 with
          | none => rw [hr] at h; simp at h
          | some pr2 =>
            obtain ⟨items1, db2⟩ := pr2
            rw [hr] at h
            obtain ⟨rfl, rfl⟩ := by simpa using h
            obtain ⟨Bc, hBc, hrefc, _, w1, rfl, hw1⟩ := ihN c db cref db1 hc
            obtain ⟨hencc, w2, rfl, hw2⟩ := ihC rest (db ++ w1) items1 db2 hr
            refine ⟨by simp only [encChildrenF, hBc, hencc, hrefc], w1 ++ w2, by simp, ?_⟩
            intro kv hkv
            rcases List.mem_append.1 hkv with hkv | hkv
            · exact hw1 kv hkv
            · exact hw2 kv hkv

/-- C9: a successful `commit_node` of any node returns the inline reference
containing the node's canonical RLP bytes `B` when `len(B) < 32`, and
otherwise the reference `Keccak-256(B)` with the pair `(Keccak-256(B), B)`
written to the store; and every store entry the commit appends is keyed by
the Keccak-256 of its value, whose length is at least 32. -/
theorem commit_node_inline_or_hash (f : Nat) (n : Node)
    (db db' : List (List Nat × List Nat)) (ref : NodeRef)
    (h : commitNodeF f n db = some (ref, db')) :
    ∃ B, encNodeF f n = some B ∧
      ref = (if B.length < 32 then NodeRef.Inline B else NodeRef.Hash (keccak256 B)) ∧
      (32 ≤ B.length → (keccak256 B, B) ∈ db') ∧
      ∃ w, db' = db ++ w ∧ goodWrites w :=
  (commit_spec_aux f).1 n db ref db' h

/-- witness for C9 at a concrete small node: a three-nibble leaf whose RLP is
7 bytes is inlined and writes nothing. -/
theorem commit_node_inline_or_hash_witness :
    commitNodeF 1 (.Leaf [1, 2, 3] [7, 7]) [] =
      some (NodeRef.Inline [198, 130, 49, 35, 130, 7, 7], []) ∧
    ∃ B, encNodeF 1 (.Leaf [1, 2, 3] [7, 7]) = some B ∧
      (NodeRef.Inline [198, 130, 49, 35, 130, 7, 7] : NodeRef) =
        (if B.length < 32 then NodeRef.Inline B else NodeRef.Hash (keccak256 B)) ∧
      (32 ≤ B.length → (keccak256 B, B) ∈ ([] : List (List Nat × List Nat))) ∧
      ∃ w, ([] : List (List Nat × List Nat)) = [] ++ w ∧ goodWrites w :=
  ⟨rfl, commit_node_inline_or_hash 1 (.Leaf [1, 2, 3] [7, 7]) [] [] _ rfl⟩

/-- `getD` after setting the same slot. -/
theorem getD_set_self {α : Type} (l : List α) (i : Nat) (x d : α) (h : i < l.length) :
    (l.set i x).getD i d = x := by
  simp [List.getD_eq_getElem?_getD, List.getElem?_set_self h]

/-- `getD` after setting a different slot. -/
theorem getD_set_other {α : Type} (l : List α) (i j : Nat) (x d : α) (h : i ≠ j) :
    (l.set i x).getD j d = l.getD j d := by
  simp [List.getD_eq_getElem?_getD, List.getElem?_set_ne h]

/-- `getD none` over the all-`none` children array. -/
theorem getD_replicate_none (n i : Nat) :
    (List.replicate n (none : Option Node)).getD i none = none := by
  simp only [List.getD_eq_getElem?_getD, List.getElem?_replicate]
  split <;> rfl

/-- setting `none` into the all-`none` children array changes nothing. -/
theorem replicate_set_none (n i : Nat) :
    (List.replicate n (none : Option Node)).set i none = List.replicate n none := by
  induction n generalizing i with
  | zero => rfl
  | succ m ih =>
    cases i with
    | zero => simp [List.replicate_succ]
    | succ j => simp [List.replicate_succ, List.set, ih]

/-- a defined `getD` entry lies within the list. -/
theorem getD_some_lt (l : List (Option Node)) (j : Nat) (c : Node)
    (h : l.getD j none = some c) : j < l.length := by
  by_contra hc
  rw [List.getD_eq_getElem?_getD, List.getElem?_eq_none (by omega)] at h
  simp at h

/-- a length-one list containing `x` is `[x]`. -/
theorem eq_singleton_of_len_one_mem {α : Type} (l : List α) (x : α)
    (h1 : l.length = 1) (h2 : x ∈ l) : l = [x] := by
  cases l with
  | nil => simp at h1
  | cons a t =>
    cases t with
    | nil => simp at h2; rw [h2]
    | cons b u => simp at h1

/-- `activeChildren` of the all-absent array is empty. -/
theorem activeChildren_replicate (n s : Nat) :
    activeChildren (List.replicate n none) s = [] := by
  induction n generalizing s with
  | zero => rfl
  | succ m ih => simp [List.replicate_succ, activeChildren, ih]

/-- membership in `activeChildren`: exactly the defined slots, shifted by the
start index. -/
theorem activeChildren_mem (l : List (Option Node)) (s j : Nat) (c : Node) :
    (j, c) ∈ activeChildren l s ↔ s ≤ j ∧ l.getD (j - s) none = some c := by
  induction l generalizing s with
  | nil =>
    simp [activeChildren, List.getD]
  | cons hd t ih =>
    cases hd with
    | none =>
      simp only [activeChildren, ih (s + 1)]
      constructor
      · rintro ⟨h1, h2⟩
        refine ⟨by omega, ?_⟩
        have : j - s = (j - (s + 1)) + 1 := by omega
        rw [this]
        simpa using h2
      · rintro ⟨h1, h2⟩
        by_cases hjs : j = s
        · subst hjs; simp at h2
        · refine ⟨by omega, ?_⟩
          have : j - s = (j - (s + 1)) + 1 := by omega
          rw [this] at h2
          simpa using h2
    | some x =>
      simp only [activeChildren, List.mem_cons, ih (s + 1)]
      constructor
      · rintro (h | ⟨h1, h2⟩)
        · rw [Prod.mk.injEq] at h
          obtain ⟨rfl, rfl⟩ := h
          simp
        · refine ⟨by omega, ?_⟩
          have : j - s = (j - (s + 1)) + 1 := by omega
          rw [this]
          simpa using h2
      · rintro ⟨h1, h2⟩
        by_cases hjs : j = s
        · subst hjs
          simp at h2
          left
          rw [h2]
        · right
          refine ⟨by omega, ?_⟩
          have : j - s = (j - (s + 1)) + 1 := by omega
          rw [this] at h2
          simpa using h2

/-- writing into an absent slot adds one active child. -/
theorem activeChildren_len_set_fresh (l : List (Option Node)) (i s : Nat) (x : Node)
    (h : i < l.length) (h2 : l.getD i none = none) :
    (activeChildren (l.set i (some x)) s).length = (activeChildren l s).length + 1 := by
  induction l generalizing i s with
  | nil => simp at h
  | cons hd t ih =>
    cases i with
    | zero =>
      simp only [List.getD_cons_zero] at h2
      rw [h2]
      simp [activeChildren, List.set]
    | succ j =>
      have hj : j < t.length := by simpa using h
      simp only [List.getD_cons_succ] at h2
      cases hd with
      | none => simpa [activeChildren, List.set] using ih j (s + 1) hj h2
      | some y => simpa [activeChildren, List.set] using ih j (s + 1) hj h2

/-- overwriting a present slot keeps the active-children count. -/
theorem activeChildren_len_set_present (l : List (Option Node)) (i s : Nat) (x y : Node)
    (h2 : l.getD i none = some y) :
    (activeChildren (l.set i (some x)) s).length = (activeChildren l s).length := by
  induction l generalizing i s with
  | nil => simp [List.getD] at h2
  | cons hd t ih =>
    cases i with
    | zero =>
      simp only [List.getD_cons_zero] at h2
      rw [h2]
      simp [activeChildren, List.set]
    | succ j =>
      simp only [List.getD_cons_succ] at h2
      cases hd with
      | none => simpa [activeChildren, List.set] using ih j (s + 1) h2
      | some z => simpa [activeChildren, List.set] using ih j (s + 1) h2

/-- removing a present child lowers the active-children count by one. -/
theorem activeChildren_len_set_none (l : List (Option Node)) (i s : Nat) (y : Node)
    (h : l.getD i none = some y) :
    (activeChildren (l.set i none) s).length + 1 = (activeChildren l s).length := by
  induction l generalizing i s with
  | nil => simp [List.getD] at h
  | cons hd t ih =>
    cases i with
    | zero =>
      simp only [List.getD_cons_zero] at h
      rw [h]
      simp [activeChildren, List.set]
    | succ j =>
      simp only [List.getD_cons_succ] at h
      cases hd with
      | none => simpa [activeChildren, List.set] using ih j (s + 1) h
      | some z => simpa [activeChildren, List.set] using ih j (s + 1) h

/-- the common-run length is bounded by the left length. -/
theorem lcp_len_le_left (a b : List Nat) : lcp_len a b ≤ a.length := by
  induction a generalizing b with
  | nil => simp [lcp_len]
  | cons x xs ih =>
    cases b with
    | nil => simp [lcp_len]
    | cons y ys =>
      simp only [lcp_len]
      split
      · have := ih ys
        simp
        omega
      · simp

/-- the common-run length is bounded by the right length. -/
theorem lcp_len_le_right (a b : List Nat) : lcp_len a b ≤ b.length := by
  induction a generalizing b with
  | nil => simp [lcp_len]
  | cons x xs ih =>
    cases b with
    | nil => simp [lcp_len]
    | cons y ys =>
      simp only [lcp_len]
      split
      · have := ih ys
        simp
        omega
      · simp

/-- a sequence matches itself along its whole length. -/
theorem lcp_self (a : List Nat) : lcp_len a a = a.length := by
  induction a with
  | nil => rfl
  | cons x xs ih => simp [lcp_len, ih]

/-- the two sequences agree on the common run. -/
theorem take_lcp_eq (a b : List Nat) :
    a.take (lcp_len a b) = b.take (lcp_len a b) := by
  induction a generalizing b with
  | nil => simp [lcp_len]
  | cons x xs ih =>
    cases b with
    | nil => simp [lcp_len]
    | cons y ys =>
      simp only [lcp_len]
      split
      · next hxy => simp [List.take_succ_cons, hxy, ih ys]
      · simp

/-- the sequences differ right after the common run (when both extend it). -/
theorem lcp_getD_ne (a b : List Nat) (ha : lcp_len a b < a.length)
    (hb : lcp_len a b < b.length) :
    a.getD (lcp_len a b) 0 ≠ b.getD (lcp_len a b) 0 := by
  induction a generalizing b with
  | nil => simp at ha
  | cons x xs ih =>
    cases b with
    | nil => simp at hb
    | cons y ys =>
      simp only [lcp_len, List.length_cons] at *
      by_cases hxy : x = y
      · rw [if_pos hxy] at ha hb ⊢
        simpa using ih ys (by omega) (by omega)
      · rw [if_neg hxy] at ha hb ⊢
        simpa using hxy

/-- sequences with a full-length common run are equal (same lengths). -/
theorem eq_of_lcp_full (a b : List Nat) (h1 : lcp_len a b = a.length)
    (h2 : a.length = b.length) : a = b := by
  have := take_lcp_eq a b
  rw [h1, List.take_length, h2, List.take_length] at this
  exact this

/-- truncating the right sequence to the left's length keeps the common run. -/
theorem lcp_take_right (a b : List Nat) :
    lcp_len a (b.take a.length) = lcp_len a b := by
  induction a generalizing b with
  | nil => simp [lcp_len]
  | cons x xs ih =>
    cases b with
    | nil => simp [lcp_len]
    | cons y ys => simp [lcp_len, List.take_succ_cons, ih ys]

/-- a full common run against a truncation means the left is a true prefix. -/
theorem take_eq_of_lcp_full (a b : List Nat) (h : lcp_len a b = a.length)
    (_hlen : a.length ≤ b.length) : b.take a.length = a := by
  have := take_lcp_eq a b
  rw [h, List.take_length] at this
  exact this.symm

/-- a 32-byte key yields 64 nibbles. -/
theorem keyNibbles_length (k : List Nat) : (keyNibbles k).length = 2 * k.length := by
  induction k with
  | nil => rfl
  | cons b t ih => simp [keyNibbles, List.flatMap_cons] at ih ⊢; omega

/-- nibbles of a byte string are nibbles. -/
theorem keyNibbles_lt16 (k : List Nat) (hk : ∀ b ∈ k, b < 256) :
    ∀ x ∈ keyNibbles k, x < 16 := by
  induction k with
  | nil => simp [keyNibbles]
  | cons b t ih =>
    intro x hx
    simp only [keyNibbles, List.flatMap_cons, List.mem_append, List.mem_cons] at hx
    rcases hx with (rfl | rfl | h) | h
    · have := hk b (by simp)
      omega
    · omega
    · simp at h
    · exact ih (fun c hc => hk c (by simp [hc])) x h

/-- nibble paths determine the key bytes. -/
theorem keyNibbles_inj (k1 k2 : List Nat) (h : keyNibbles k1 = keyNibbles k2) :
    k1 = k2 := by
  induction k1 generalizing k2 with
  | nil =>
    cases k2 with
    | nil => rfl
    | cons b t => simp [keyNibbles] at h
  | cons b t ih =>
    cases k2 with
    | nil => simp [keyNibbles] at h
    | cons c u =>
      simp only [keyNibbles, List.flatMap_cons, List.cons_append, List.nil_append,
        List.cons.injEq] at h
      obtain ⟨h1, h2, h3⟩ := h
      have : b = c := by omega
      rw [this, ih u (by simpa [keyNibbles] using h3)]

/-- a valid key's nibble path is a valid full-depth path. -/
theorem goodP_keyNibbles (k : List Nat) (hk : isKey32 k) : goodP (keyNibbles k) 0 := by
  obtain ⟨h1, h2⟩ := hk
  exact ⟨by simp [keyNibbles_length, h1], keyNibbles_lt16 k h2⟩

/-- reachable nodes do not sit below depth 64. -/
theorem Wf.le64 {n : Node} {d : Nat} (h : Wf n d) : d ≤ 64 := by
  induction h with
  | leaf p v d hd hn => omega
  | ext p c d hn hb hc ih => omega
  | branch ch v d hlen hd hv hch hcount ih => omega

/-- fuel demand is positive on reachable nodes. -/
theorem fuelNeed_pos {n : Node} {d : Nat} (h : Wf n d) : 1 ≤ fuelNeed n d := by
  cases h with
  | leaf p v hd hn => simp [fuelNeed]
  | ext hn hb hc => simp [fuelNeed]
  | branch hlen hd hv hch hcount => simp [fuelNeed]; omega

/-- fuel demand never exceeds the kind-blind bound. -/
theorem fuelNeed_le (n : Node) (d : Nat) : fuelNeed n d ≤ 3 * (65 - d) + 2 := by
  cases n <;> simp [fuelNeed]

/-- with sufficient fuel, `Node::get` does not depend on the fuel. -/
theorem getF_fuel_irrel : ∀ (f1 : Nat) {n : Node} {d : Nat} {p : List Nat} (f2 : Nat),
    Wf n d → goodP p d → fuelNeed n d ≤ f1 → fuelNeed n d ≤ f2 →
    getF f1 n p = getF f2 n p := by
  intro f1
  induction f1 with
  | zero =>
    intro n d p f2 hw hp h1 h2
    have := fuelNeed_pos hw
    omega
  | succ g ih =>
    intro n d p f2 hw hp h1 h2
    cases f2 with
    | zero =>
      have := fuelNeed_pos hw
      omega
    | succ h =>
      cases n with
      | Leaf lp lv => rfl
      | Extension ep ec =>
        cases hw with
        | ext _ _ _ hn hb hc =>
          simp only [getF]
          by_cases hg : ep.length ≤ p.length ∧ ep = p.take ep.length
          · rw [if_pos hg, if_pos hg]
            obtain ⟨bch, bv, rfl⟩ : ∃ bch bv, ec = .Branch bch bv := by
              cases ec with
              | Branch bch bv => exact ⟨bch, bv, rfl⟩
              | Extension a b => exact absurd hb (by simp [isBranch])
              | Leaf a b => exact absurd hb (by simp [isBranch])
            obtain ⟨hp1, hp2⟩ := hp
            apply ih h hc
            · exact ⟨by simp only [List.length_drop]; omega,
                fun x hx => hp2 x (List.mem_of_mem_drop hx)⟩
            · simp only [fuelNeed] at h1 ⊢
              omega
            · simp only [fuelNeed] at h2 ⊢
              omega
          · rw [if_neg hg, if_neg hg]
      | Branch ch v =>
        cases hw with
        | branch _ _ _ hlen hd hv hch hcount =>
          obtain ⟨hp1, hp2⟩ := hp
          cases p with
          | nil => simp at hp1; omega
          | cons i rest =>
            simp only [getF]
            cases hcg : ch.getD i none with
            | none => rfl
            | some c =>
              apply ih h (hch i c hcg)
              · exact ⟨by simp only [List.length_cons] at hp1; omega,
                  fun x hx => hp2 x (by simp [hx])⟩
              · have := fuelNeed_le c (d + 1)
                simp only [fuelNeed] at h1
                omega
              · have := fuelNeed_le c (d + 1)
                simp only [fuelNeed] at h2
                omega

/-- head of a drop is the indexed element. -/
theorem headD_drop (l : List Nat) (k d : Nat) : (l.drop k).headD d = l.getD k d := by
  simp [List.headD_eq_head?_getD, List.head?_drop, List.getD_eq_getElem?_getD]

/-- `merge_with` never produces a leaf. -/
theorem mergeF_not_leaf (f : Nat) (ep : List Nat) (ec : Node) (p v : List Nat)
    (lp lv : List Nat) : mergeF f ep ec p v ≠ .Leaf lp lv := by
  cases f with
  | zero => simp [mergeF]
  | succ g =>
    simp only [mergeF]
    split
    · split
      · simp
      · split
        · simp
        · split <;> simp
    · simp

/-- inserting into a branch yields a branch with the same value slot. -/
theorem insertF_branch_shape (f : Nat) (ch : List (Option Node))
    (v : Option (List Nat)) (p val : List Nat) :
    ∃ ch', insertF f (.Branch ch v) p val = .Branch ch' v := by
  cases f with
  | zero => exact ⟨ch, rfl⟩
  | succ g =>
    cases p with
    | nil => exact ⟨ch, rfl⟩
    | cons i rest =>
      simp only [insertF]
      cases hcg : ch.getD i none with
      | none => exact ⟨_, rfl⟩
      | some child =>
        cases child with
        | Leaf lp lv => exact ⟨_, rfl⟩
        | Extension ep ec => exact ⟨_, rfl⟩
        | Branch bch bv => exact ⟨_, rfl⟩

theorem drop_cons_of_lt (l : List Nat) (k : Nat) (h : k < l.length) :
    ∃ o os, l.drop k = o :: os := by
  cases hd : l.drop k with
  | nil =>
    have hlen : (l.drop k).length = l.length - k := List.length_drop k l
    rw [hd] at hlen
    simp at hlen
    omega
  | cons o os => exact ⟨o, os, rfl⟩

/-- `diverge_with` builds a well-formed subtree when the two keys differ. -/
theorem diverge_wf (lp lv p v : List Nat) (d : Nat)
    (hw : Wf (.Leaf lp lv) d) (hp : goodP p d) :
    Wf (diverge_with lp lv p v) d := by
  cases hw with
  | leaf _ _ _ hl hn =>
    obtain ⟨hp1, hp2⟩ := hp
    have hlen : lp.length = p.length := by omega
    unfold diverge_with
    by_cases hk : lcp_len lp p = lp.length ∧ lcp_len lp p = p.length
    · rw [if_pos hk]
      exact Wf.leaf p v d hp1 hp2
    · rw [if_neg hk]
      have hk1 : lcp_len lp p < lp.length := by
        have := lcp_len_le_left lp p
        rcases Nat.lt_or_ge (lcp_len lp p) lp.length with h | h
        · exact h
        · exact absurd ⟨by omega, by omega⟩ hk
      have hk2 : lcp_len lp p < p.length := by omega
      obtain ⟨o, os, ho⟩ := drop_cons_of_lt lp (lcp_len lp p) hk1
      obtain ⟨w, ws, hw2⟩ := drop_cons_of_lt p (lcp_len lp p) hk2
      have how : o ≠ w := by
        have hne := lcp_getD_ne lp p hk1 hk2
        have h1 : lp.getD (lcp_len lp p) 0 = o := by
          rw [← headD_drop, ho]; rfl
        have h2 : p.getD (lcp_len lp p) 0 = w := by
          rw [← headD_drop, hw2]; rfl
        rw [h1, h2] at hne
        exact hne
      have hlos : os.length = lp.length - lcp_len lp p - 1 := by
        have := List.length_drop (lcp_len lp p) lp
        rw [ho] at this
        simp at this
        omega
      have hlws : ws.length = p.length - lcp_len lp p - 1 := by
        have := List.length_drop (lcp_len lp p) p
        rw [hw2] at this
        simp at this
        omega
      have hmos : ∀ x ∈ os, x < 16 := by
        intro x hx
        exact hn x (List.mem_of_mem_drop (ho ▸ List.mem_cons_of_mem o hx))
      have hmws : ∀ x ∈ ws, x < 16 := by
        intro x hx
        exact hp2 x (List.mem_of_mem_drop (hw2 ▸ List.mem_cons_of_mem w hx))
      have ho16 : o < 16 := hn o (List.mem_of_mem_drop (ho ▸ List.mem_cons_self o os))
      have hw16 : w < 16 := hp2 w (List.mem_of_mem_drop (hw2 ▸ List.mem_cons_self w ws))
      simp only [ho, hw2]
      have hbr : Wf (.Branch ((emptyChildren.set o (some (.Leaf os lv))).set w
          (some (.Leaf ws v))) none) (d + lcp_len lp p) := by
        refine Wf.branch _ _ _ (by simp [emptyChildren]) (by omega) rfl ?_ ?_
        · intro j c hj
          by_cases hjw : j = w
          · subst hjw
            rw [getD_set_self _ _ _ _ (by simp [emptyChildren]; omega)] at hj
            cases hj
            exact Wf.leaf ws v _ (by omega) hmws
          · rw [getD_set_other _ _ _ _ _ (fun h => hjw h.symm)] at hj
            by_cases hjo : j = o
            · subst hjo
              rw [getD_set_self _ _ _ _ (by simp [emptyChildren]; omega)] at hj
              cases hj
              exact Wf.leaf os lv _ (by omega) hmos
            · rw [getD_set_other _ _ _ _ _ (fun h => hjo h.symm)] at hj
              rw [emptyChildren, getD_replicate_none] at hj
              cases hj
        · rw [activeChildren_len_set_fresh _ _ _ _ (by simp [emptyChildren]; omega)
            (by rw [getD_set_other _ _ _ _ _ how, emptyChildren, getD_replicate_none]),
            activeChildren_len_set_fresh _ _ _ _ (by simp [emptyChildren]; omega)
            (by rw [emptyChildren, getD_replicate_none])]
          omega
      by_cases hk0 : 0 < lcp_len lp p
      · rw [if_pos hk0]
        refine Wf.ext _ _ _ (fun x hx => hn x (List.mem_of_mem_take hx)) (by trivial) ?_
        have hlt : (lp.take (lcp_len lp p)).length = lcp_len lp p := by
          simp [List.length_take]
          omega
        rw [hlt]
        exact hbr
      · rw [if_neg hk0]
        have : lcp_len lp p = 0 := by omega
        rw [this] at hbr
        simpa using hbr

/-- `insert` and `merge_with` preserve the reachable-tree invariant. -/
theorem insert_wf_aux : ∀ fi : Nat,
    (∀ n d p v, Wf n d → goodP p d → fuelNeed n d ≤ fi →
      Wf (insertF fi n p v) d) ∧
    (∀ ep ec d p v, (∀ x ∈ ep, x < 16) → isBranch ec → Wf ec (d + ep.length) →
      goodP p d → 3 * (65 - d) + 1 ≤ fi →
      Wf (mergeF fi ep ec p v) d) := by
  intro fi
  induction fi with
  | zero =>
    constructor
    · intro n d p v hw hp hf
      have := fuelNeed_pos hw
      omega
    · intro ep ec d p v hn hb hc hp hf
      omega
  | succ g ih =>
    obtain ⟨ihI, ihM⟩ := ih
    constructor
    · intro n d p v hw hp hf
      cases n with
      | Leaf lp lv =>
        simp only [insertF]
        exact diverge_wf lp lv p v d hw hp
      | Extension ep ec =>
        simp only [insertF]
        cases hw with
        | ext _ _ _ hn hb hc =>
          refine ihM ep ec d p v hn hb hc hp ?_
          simp only [fuelNeed] at hf
          omega
      | Branch ch cv =>
        cases hw with
        | branch _ _ _ hlen hd hv hch hcount =>
          cases p with
          | nil =>
            simp only [insertF]
            exact Wf.branch ch cv d hlen hd hv hch hcount
          | cons i rest =>
            obtain ⟨hp1, hp2⟩ := hp
            have hi16 : i < 16 := hp2 i (List.mem_cons_self i rest)
            have hil : i < ch.length := by omega
            have hrest : goodP rest (d + 1) := by
              refine ⟨?_, fun x hx => hp2 x (List.mem_cons_of_mem i hx)⟩
              simp only [List.length_cons] at hp1
              omega
            simp only [insertF]
            cases hcg : ch.getD i none with
            | none =>
              refine Wf.branch _ _ _ (by simp [hlen]) hd hv ?_ ?_
              · intro j c hj
                by_cases hji : j = i
                · subst hji
                  rw [getD_set_self _ _ _ _ hil] at hj
                  cases hj
                  exact Wf.leaf rest v _ hrest.1 hrest.2
                · rw [getD_set_other _ _ _ _ _ (fun h => hji h.symm)] at hj
                  exact hch j c hj
              · rw [activeChildren_len_set_fresh _ _ _ _ hil hcg]
                omega
            | some child =>
              have hcw : Wf child (d + 1) := hch i child hcg
              have hfb : fuelNeed child (d + 1) ≤ g := by
                have := fuelNeed_le child (d + 1)
                simp only [fuelNeed] at hf
                omega
              cases child with
              | Leaf lp lv =>
                refine Wf.branch _ _ _ (by simp [hlen]) hd hv ?_ ?_
                · intro j c hj
                  by_cases hji : j = i
                  · subst hji
                    rw [getD_set_self _ _ _ _ hil] at hj
                    cases hj
                    exact diverge_wf lp lv rest v (d + 1) hcw hrest
                  · rw [getD_set_other _ _ _ _ _ (fun h => hji h.symm)] at hj
                    exact hch j c hj
                · rw [activeChildren_len_set_present _ _ _ _ _ hcg]
                  exact hcount
              | Extension ep ec =>
                refine Wf.branch _ _ _ (by simp [hlen]) hd hv ?_ ?_
                · intro j c hj
                  by_cases hji : j = i
                  · subst hji
                    rw [getD_set_self _ _ _ _ hil] at hj
                    cases hj
                    cases hcw with
                    | ext _ _ _ hn2 hb2 hc2 =>
                      refine ihM ep ec (d + 1) rest v hn2 hb2 hc2 hrest ?_
                      simp only [fuelNeed] at hf
                      omega
                  · rw [getD_set_other _ _ _ _ _ (fun h => hji h.symm)] at hj
                    exact hch j c hj
                · rw [activeChildren_len_set_present _ _ _ _ _ hcg]
                  exact hcount
              | Branch bch bv =>
                refine Wf.branch _ _ _ (by simp [hlen]) hd hv ?_ ?_
                · intro j c hj
                  by_cases hji : j = i
                  · subst hji
                    rw [getD_set_self _ _ _ _ hil] at hj
                    cases hj
                    exact ihI (.Branch bch bv) (d + 1) rest v hcw hrest hfb
                  · rw [getD_set_other _ _ _ _ _ (fun h => hji h.symm)] at hj
                    exact hch j c hj
                · rw [activeChildren_len_set_present _ _ _ _ _ hcg]
                  exact hcount
    · intro ep ec d p v hn hb hc hp hf
      cases ec with
      | Leaf _ _ => simp [isBranch] at hb
      | Extension _ _ => simp [isBranch] at hb
      | Branch bch bv =>
        have hd' : d + ep.length < 64 := by
          cases hc with
          | branch _ _ _ hlen2 hd2 hv2 hch2 hcount2 => exact hd2
        obtain ⟨hp1, hp2⟩ := hp
        have hle : ep.length ≤ p.length := by omega
        simp only [mergeF]
        rw [if_pos hle, lcp_take_right]
        by_cases hk : lcp_len ep p = ep.length
        · rw [if_pos hk, hk]
          obtain ⟨ch', hch'⟩ := insertF_branch_shape g bch bv (p.drop ep.length) v
          refine Wf.ext _ _ _ hn ?_ ?_
          · rw [hch']
            trivial
          · refine ihI (.Branch bch bv) (d + ep.length) (p.drop ep.length) v hc ?_ ?_
            · refine ⟨?_, fun x hx => hp2 x (List.mem_of_mem_drop hx)⟩
              rw [List.length_drop]
              omega
            · simp only [fuelNeed]
              omega
        · rw [if_neg hk]
          have hk1 : lcp_len ep p < ep.length := by
            have := lcp_len_le_left ep p
            omega
          have hk2 : lcp_len ep p < p.length := by omega
          obtain ⟨o, os, ho⟩ := drop_cons_of_lt ep (lcp_len ep p) hk1
          obtain ⟨w, ws, hw2⟩ := drop_cons_of_lt p (lcp_len ep p) hk2
          have how : o ≠ w := by
            have hne := lcp_getD_ne ep p hk1 hk2
            have h1 : ep.getD (lcp_len ep p) 0 = o := by
              rw [← headD_drop, ho]; rfl
            have h2 : p.getD (lcp_len ep p) 0 = w := by
              rw [← headD_drop, hw2]; rfl
            rw [h1, h2] at hne
            exact hne
          have hlos : os.length = ep.length - lcp_len ep p - 1 := by
            have := List.length_drop (lcp_len ep p) ep
            rw [ho] at this
            simp at this
            omega
          have hlws : ws.length = p.length - lcp_len ep p - 1 := by
            have := List.length_drop (lcp_len ep p) p
            rw [hw2] at this
            simp at this
            omega
          have hmos : ∀ x ∈ os, x < 16 := by
            intro x hx
            exact hn x (List.mem_of_mem_drop (ho ▸ List.mem_cons_of_mem o hx))
          have hmws : ∀ x ∈ ws, x < 16 := by
            intro x hx
            exact hp2 x (List.mem_of_mem_drop (hw2 ▸ List.mem_cons_of_mem w hx))
          have ho16 : o < 16 := hn o (List.mem_of_mem_drop (ho ▸ List.mem_cons_self o os))
          have hw16 : w < 16 := hp2 w (List.mem_of_mem_drop (hw2 ▸ List.mem_cons_self w ws))
          simp only [ho, hw2]
          have hbr : Wf (.Branch ((emptyChildren.set o
              (some (.Extension os (.Branch bch bv)))).set w
              (some (.Leaf ws v))) none) (d + lcp_len ep p) := by
            refine Wf.branch _ _ _ (by simp [emptyChildren]) (by omega) rfl ?_ ?_
            · intro j c hj
              by_cases hjw : j = w
              · subst hjw
                rw [getD_set_self _ _ _ _ (by simp [emptyChildren]; omega)] at hj
                cases hj
                exact Wf.leaf ws v _ (by omega) hmws
              · rw [getD_set_other _ _ _ _ _ (fun h => hjw h.symm)] at hj
                by_cases hjo : j = o
                · subst hjo
                  rw [getD_set_self _ _ _ _ (by simp [emptyChildren]; omega)] at hj
                  cases hj
                  refine Wf.ext _ _ _ hmos trivial ?_
                  rw [show d + lcp_len ep p + 1 + os.length = d + ep.length from by omega]
                  exact hc
                · rw [getD_set_other _ _ _ _ _ (fun h => hjo h.symm)] at hj
                  rw [emptyChildren, getD_replicate_none] at hj
                  cases hj
            · rw [activeChildren_len_set_fresh _ _ _ _ (by simp [emptyChildren]; omega)
                (by rw [getD_set_other _ _ _ _ _ how, emptyChildren, getD_replicate_none]),
                activeChildren_len_set_fresh _ _ _ _ (by simp [emptyChildren]; omega)
                (by rw [emptyChildren, getD_replicate_none])]
              omega
          by_cases hk0 : 0 < lcp_len ep p
          · rw [if_pos hk0]
            refine Wf.ext _ _ _ (fun x hx => hn x (List.mem_of_mem_take hx)) trivial ?_
            have hlt : (ep.take (lcp_len ep p)).length = lcp_len ep p := by
              simp [List.length_take]
              omega
            rw [hlt]
            exact hbr
          · rw [if_neg hk0]
            have hz : lcp_len ep p = 0 := by omega
            rw [hz] at hbr
            simpa using hbr

/-- looking up the freshly planted leaf in a two-leaf divergence branch. -/
theorem diverge_branch_get (b0 : List (Option Node)) (w : Nat) (ws v : List Nat)
    (f : Nat) (hf : 2 ≤ f) (hb0 : b0.length = 16) (hw16 : w < 16) :
    getF f (.Branch (b0.set w (some (.Leaf ws v))) none) (w :: ws) = some v := by
  cases f with
  | zero => omega
  | succ f1 =>
    cases f1 with
    | zero => omega
    | succ f2 =>
      simp only [getF]
      rw [getD_set_self _ _ _ _ (by omega)]
      simp [getF]

/-- looking up the inserted key after a leaf divergence finds the new value. -/
theorem diverge_get_self (lp lv p v : List Nat) (d fg : Nat)
    (hw : Wf (.Leaf lp lv) d) (hp : goodP p d) (hfg : 3 ≤ fg) :
    getF fg (diverge_with lp lv p v) p = some v := by
  cases hw with
  | leaf _ _ _ hl hn =>
    obtain ⟨hp1, hp2⟩ := hp
    unfold diverge_with
    by_cases hk : lcp_len lp p = lp.length ∧ lcp_len lp p = p.length
    · rw [if_pos hk]
      cases fg with
      | zero => omega
      | succ f1 => simp [getF]
    · rw [if_neg hk]
      have hk1 : lcp_len lp p < lp.length := by
        have := lcp_len_le_left lp p
        rcases Nat.lt_or_ge (lcp_len lp p) lp.length with h | h
        · exact h
        · exact absurd ⟨by omega, by omega⟩ hk
      have hk2 : lcp_len lp p < p.length := by omega
      obtain ⟨o, os, ho⟩ := drop_cons_of_lt lp (lcp_len lp p) hk1
      obtain ⟨w, ws, hw2⟩ := drop_cons_of_lt p (lcp_len lp p) hk2
      have hw16 : w < 16 := hp2 w (List.mem_of_mem_drop (hw2 ▸ List.mem_cons_self w ws))
      simp only [ho, hw2]
      by_cases hk0 : 0 < lcp_len lp p
      · rw [if_pos hk0]
        cases fg with
        | zero => omega
        | succ f1 =>
          have hTL : (lp.take (lcp_len lp p)).length = lcp_len lp p := by
            simp [List.length_take]
            omega
          simp only [getF]
          rw [if_pos ⟨by omega, by rw [hTL]; exact take_lcp_eq lp p⟩, hTL, hw2]
          exact diverge_branch_get _ w ws v f1 (by omega) (by simp [emptyChildren]) hw16
      · rw [if_neg hk0]
        have hz : lcp_len lp p = 0 := by omega
        rw [hz, List.drop_zero] at hw2
        rw [hw2]
        exact diverge_branch_get _ w ws v fg (by omega) (by simp [emptyChildren]) hw16

/-- after `insert`/`merge_with`, looking up the inserted key finds the value. -/
theorem insert_get_self_aux : ∀ fi : Nat,
    (∀ n d p v fg, Wf n d → goodP p d → fuelNeed n d ≤ fi → 3 * (65 - d) + 3 ≤ fg →
      getF fg (insertF fi n p v) p = some v) ∧
    (∀ ep ec d p v fg, (∀ x ∈ ep, x < 16) → isBranch ec → Wf ec (d + ep.length) →
      goodP p d → 3 * (65 - d) + 1 ≤ fi → 3 * (65 - d) + 3 ≤ fg →
      getF fg (mergeF fi ep ec p v) p = some v) := by
  intro fi
  induction fi with
  | zero =>
    constructor
    · intro n d p v fg hw hp hf hfg
      have := fuelNeed_pos hw
      omega
    · intro ep ec d p v fg hn hb hc hp hf hfg
      omega
  | succ g ih =>
    obtain ⟨ihI, ihM⟩ := ih
    constructor
    · intro n d p v fg hw hp hf hfg
      cases n with
      | Leaf lp lv =>
        simp only [insertF]
        exact diverge_get_self lp lv p v d fg hw hp (by omega)
      | Extension ep ec =>
        simp only [insertF]
        cases hw with
        | ext _ _ _ hn hb hc =>
          refine ihM ep ec d p v fg hn hb hc hp ?_ hfg
          simp only [fuelNeed] at hf
          omega
      | Branch ch cv =>
        cases hw with
        | branch _ _ _ hlen hd hv hch hcount =>
          cases p with
          | nil =>
            obtain ⟨hp1, hp2⟩ := hp
            simp at hp1
            omega
          | cons i rest =>
            obtain ⟨hp1, hp2⟩ := hp
            have hi16 : i < 16 := hp2 i (List.mem_cons_self i rest)
            have hil : i < ch.length := by omega
            have hrest : goodP rest (d + 1) := by
              refine ⟨?_, fun x hx => hp2 x (List.mem_cons_of_mem i hx)⟩
              simp only [List.length_cons] at hp1
              omega
            simp only [insertF]
            cases hcg : ch.getD i none with
            | none =>
              cases fg with
              | zero => omega
              | succ f1 =>
                simp only [getF]
                rw [getD_set_self _ _ _ _ hil]
                cases f1 with
                | zero => omega
                | succ f2 => simp [getF]
            | some child =>
              have hcw : Wf child (d + 1) := hch i child hcg
              cases fg with
              | zero => omega
              | succ f1 =>
                cases child with
                | Leaf lp lv =>
                  simp only [getF]
                  rw [getD_set_self _ _ _ _ hil]
                  exact diverge_get_self lp lv rest v (d + 1) f1 hcw hrest (by omega)
                | Extension ep2 ec2 =>
                  simp only [getF]
                  rw [getD_set_self _ _ _ _ hil]
                  cases hcw with
                  | ext _ _ _ hn2 hb2 hc2 =>
                    refine ihM ep2 ec2 (d + 1) rest v f1 hn2 hb2 hc2 hrest ?_ ?_
                    · simp only [fuelNeed] at hf
                      omega
                    · omega
                | Branch bch bv =>
                  simp only [getF]
                  rw [getD_set_self _ _ _ _ hil]
                  refine ihI (.Branch bch bv) (d + 1) rest v f1 hcw hrest ?_ ?_
                  · simp only [fuelNeed] at hf ⊢
                    omega
                  · omega
    · intro ep ec d p v fg hn hb hc hp hf hfg
      cases ec with
      | Leaf _ _ => simp [isBranch] at hb
      | Extension _ _ => simp [isBranch] at hb
      | Branch bch bv =>
        have hd' : d + ep.length < 64 := by
          cases hc with
          | branch _ _ _ hlen2 hd2 hv2 hch2 hcount2 => exact hd2
        obtain ⟨hp1, hp2⟩ := hp
        have hle : ep.length ≤ p.length := by omega
        simp only [mergeF]
        rw [if_pos hle, lcp_take_right]
        by_cases hk : lcp_len ep p = ep.length
        · rw [if_pos hk, hk]
          cases fg with
          | zero => omega
          | succ f1 =>
            have hgood : goodP (p.drop ep.length) (d + ep.length) := by
              refine ⟨?_, fun x hx => hp2 x (List.mem_of_mem_drop hx)⟩
              rw [List.length_drop]
              omega
            have hwI : Wf (insertF g (.Branch bch bv) (p.drop ep.length) v)
                (d + ep.length) :=
              (insert_wf_aux g).1 (.Branch bch bv) (d + ep.length) (p.drop ep.length) v
                hc hgood (by simp only [fuelNeed]; omega)
            simp only [getF]
            rw [if_pos ⟨hle, (take_eq_of_lcp_full ep p hk hle).symm⟩]
            rw [getF_fuel_irrel f1 (3 * (65 - (d + ep.length)) + 3) hwI hgood
              (by have := fuelNeed_le (insertF g (.Branch bch bv) (p.drop ep.length) v)
                    (d + ep.length)
                  omega)
              (by have := fuelNeed_le (insertF g (.Branch bch bv) (p.drop ep.length) v)
                    (d + ep.length)
                  omega)]
            refine ihI (.Branch bch bv) (d + ep.length) (p.drop ep.length) v _ hc hgood ?_ ?_
            · simp only [fuelNeed]
              omega
            · omega
        · rw [if_neg hk]
          have hk1 : lcp_len ep p < ep.length := by
            have := lcp_len_le_left ep p
            omega
          have hk2 : lcp_len ep p < p.length := by omega
          obtain ⟨o, os, ho⟩ := drop_cons_of_lt ep (lcp_len ep p) hk1
          obtain ⟨w, ws, hw2⟩ := drop_cons_of_lt p (lcp_len ep p) hk2
          have hw16 : w < 16 := hp2 w (List.mem_of_mem_drop (hw2 ▸ List.mem_cons_self w ws))
          simp only [ho, hw2]
          by_cases hk0 : 0 < lcp_len ep p
          · rw [if_pos hk0]
            cases fg with
            | zero => omega
            | succ f1 =>
              have hTL : (ep.take (lcp_len ep p)).length = lcp_len ep p := by
                simp [List.length_take]
                omega
              simp only [getF]
              rw [if_pos ⟨by omega, by rw [hTL]; exact take_lcp_eq ep p⟩, hTL, hw2]
              exact diverge_branch_get _ w ws v f1 (by omega) (by simp [emptyChildren]) hw16
          · rw [if_neg hk0]
            have hz : lcp_len ep p = 0 := by omega
            rw [hz, List.drop_zero] at hw2
            rw [hw2]
            exact diverge_branch_get _ w ws v fg (by omega) (by simp [emptyChildren]) hw16

/-- a leaf divergence leaves lookups of every other key unchanged. -/
theorem diverge_frame (lp lv p q v : List Nat) (d fg : Nat)
    (hw : Wf (.Leaf lp lv) d) (hp : goodP p d) (hq : goodP q d) (hne : p ≠ q)
    (hfg : 3 ≤ fg) :
    getF fg (diverge_with lp lv p v) q = getF fg (.Leaf lp lv) q := by
  cases hw with
  | leaf _ _ _ hl hn =>
    obtain ⟨hp1, hp2⟩ := hp
    obtain ⟨hq1, hq2⟩ := hq
    have hRHS : getF fg (.Leaf lp lv) q = if lp = q then some lv else none := by
      cases fg with
      | zero => omega
      | succ f1 => rfl
    rw [hRHS]
    unfold diverge_with
    by_cases hkk : lcp_len lp p = lp.length ∧ lcp_len lp p = p.length
    · rw [if_pos hkk]
      have hlp : lp = p := eq_of_lcp_full lp p hkk.1 (by omega)
      cases fg with
      | zero => omega
      | succ f1 =>
        have h1 : getF (f1 + 1) (.Leaf p v) q = if p = q then some v else none := rfl
        rw [h1, if_neg hne, if_neg (by rw [hlp]; exact hne)]
    · rw [if_neg hkk]
      have hk1 : lcp_len lp p < lp.length := by
        have := lcp_len_le_left lp p
        rcases Nat.lt_or_ge (lcp_len lp p) lp.length with h | h
        · exact h
        · exact absurd ⟨by omega, by omega⟩ hkk
      have hk2 : lcp_len lp p < p.length := by omega
      have hkq : lcp_len lp p < q.length := by omega
      obtain ⟨o, os, ho⟩ := drop_cons_of_lt lp (lcp_len lp p) hk1
      obtain ⟨w, ws, hw2⟩ := drop_cons_of_lt p (lcp_len lp p) hk2
      obtain ⟨j, jrest, hj⟩ := drop_cons_of_lt q (lcp_len lp p) hkq
      have how : o ≠ w := by
        have hne2 := lcp_getD_ne lp p hk1 hk2
        have h1 : lp.getD (lcp_len lp p) 0 = o := by
          rw [← headD_drop, ho]; rfl
        have h2 : p.getD (lcp_len lp p) 0 = w := by
          rw [← headD_drop, hw2]; rfl
        rw [h1, h2] at hne2
        exact hne2
      have ho16 : o < 16 := hn o (List.mem_of_mem_drop (ho ▸ List.mem_cons_self o os))
      have hw16 : w < 16 := hp2 w (List.mem_of_mem_drop (hw2 ▸ List.mem_cons_self w ws))
      have htake_lp_p : lp.take (lcp_len lp p) = p.take (lcp_len lp p) := take_lcp_eq lp p
      have hq_eq : q = q.take (lcp_len lp p) ++ j :: jrest := by
        rw [← hj, List.take_append_drop]
      have hlp_eq : lp = lp.take (lcp_len lp p) ++ o :: os := by
        rw [← ho, List.take_append_drop]
      have hp_eq : p = p.take (lcp_len lp p) ++ w :: ws := by
        rw [← hw2, List.take_append_drop]
      simp only [ho, hw2]
      have hInner : ∀ f2, 2 ≤ f2 → q.take (lcp_len lp p) = lp.take (lcp_len lp p) →
          getF f2 (.Branch ((emptyChildren.set o (some (.Leaf os lv))).set w
            (some (.Leaf ws v))) none) (q.drop (lcp_len lp p)) =
          if lp = q then some lv else none := by
        intro f2 hf2 hqtake
        rw [hj]
        cases f2 with
        | zero => omega
        | succ f3 =>
          simp only [getF]
          by_cases hjw : j = w
          · rw [hjw, getD_set_self _ _ _ _ (by simp [emptyChildren]; omega)]
            have hlpq : lp ≠ q := by
              intro he
              have h7 := congrArg (List.drop (lcp_len lp p)) he
              rw [ho, hj] at h7
              injection h7 with h5 h6
              exact how (h5.trans hjw)
            rw [if_neg hlpq]
            cases f3 with
            | zero => rfl
            | succ f4 =>
              have hwsj : ws ≠ jrest := by
                intro he
                apply hne
                rw [hp_eq, hq_eq, hqtake, htake_lp_p, hjw, he]
              simp [getF, hwsj]
          · rw [getD_set_other _ _ _ _ _ (fun h => hjw h.symm)]
            by_cases hjo : j = o
            · rw [hjo, getD_set_self _ _ _ _ (by simp [emptyChildren]; omega)]
              by_cases hoj : os = jrest
              · have hlpq : lp = q := by
                  rw [hlp_eq, hq_eq, hqtake, hjo, hoj]
                rw [if_pos hlpq]
                cases f3 with
                | zero => omega
                | succ f4 => simp [getF, hoj]
              · have hlpq : lp ≠ q := by
                  intro he
                  have h7 := congrArg (List.drop (lcp_len lp p)) he
                  rw [ho, hj] at h7
                  injection h7 with h5 h6
                  exact hoj h6
                rw [if_neg hlpq]
                cases f3 with
                | zero => rfl
                | succ f4 => simp [getF, hoj]
            · rw [getD_set_other _ _ _ _ _ (fun h => hjo h.symm), emptyChildren,
                getD_replicate_none]
              have hlpq : lp ≠ q := by
                intro he
                have h7 := congrArg (List.drop (lcp_len lp p)) he
                rw [ho, hj] at h7
                injection h7 with h5 h6
                exact hjo h5.symm
              rw [if_neg hlpq]
      by_cases hk0 : 0 < lcp_len lp p
      · rw [if_pos hk0]
        cases fg with
        | zero => omega
        | succ f1 =>
          have hTL : (lp.take (lcp_len lp p)).length = lcp_len lp p := by
            simp [List.length_take]
            omega
          simp only [getF]
          by_cases hqt : q.take (lcp_len lp p) = lp.take (lcp_len lp p)
          · rw [if_pos ⟨by omega, by rw [hTL]; exact hqt.symm⟩, hTL]
            exact hInner f1 (by omega) hqt
          · rw [if_neg (fun hc => hqt (by rw [hTL] at hc; exact hc.2.symm)),
              if_neg (fun he => hqt (by rw [he]))]
      · rw [if_neg hk0]
        have hz : lcp_len lp p = 0 := by omega
        have hdz : q.drop (lcp_len lp p) = q := by rw [hz, List.drop_zero]
        have h8 := hInner fg (by omega) (by rw [hz]; simp)
        rw [hdz] at h8
        exact h8

theorem getD_take (l : List Nat) (m k d : Nat) (h : k < m) :
    (l.take m).getD k d = l.getD k d := by
  simp [List.getD_eq_getElem?_getD, List.getElem?_take, h]

theorem take_split_cons (q : List Nat) (k m j : Nat) (jrest : List Nat)
    (hkm : k < m) (hj : q.drop k = j :: jrest) :
    q.take m = q.take k ++ j :: jrest.take (m - k - 1) := by
  have h9 : m = k + (m - k) := by omega
  have h10 : m - k = (m - k - 1) + 1 := by omega
  conv_lhs => rw [h9, List.take_add, hj, h10]
  rw [List.take_succ_cons]

/-- `insert`/`merge_with` leave lookups of every other key unchanged. -/
theorem insert_frame_aux : ∀ fi : Nat,
    (∀ n d p q v fg, Wf n d → goodP p d → goodP q d → p ≠ q →
      fuelNeed n d ≤ fi → 3 * (65 - d) + 3 ≤ fg →
      getF fg (insertF fi n p v) q = getF fg n q) ∧
    (∀ ep ec d p q v fg, (∀ x ∈ ep, x < 16) → isBranch ec → Wf ec (d + ep.length) →
      goodP p d → goodP q d → p ≠ q → 3 * (65 - d) + 1 ≤ fi → 3 * (65 - d) + 3 ≤ fg →
      getF fg (mergeF fi ep ec p v) q = getF fg (.Extension ep ec) q) := by
  intro fi
  induction fi with
  | zero =>
    constructor
    · intro n d p q v fg hw hp hq hne hf hfg
      have := fuelNeed_pos hw
      omega
    · intro ep ec d p q v fg hn hb hc hp hq hne hf hfg
      omega
  | succ g ih =>
    obtain ⟨ihI, ihM⟩ := ih
    constructor
    · intro n d p q v fg hw hp hq hne hf hfg
      cases n with
      | Leaf lp lv =>
        simp only [insertF]
        exact diverge_frame lp lv p q v d fg hw hp hq hne (by omega)
      | Extension ep ec =>
        simp only [insertF]
        cases hw with
        | ext _ _ _ hn hb hc =>
          refine ihM ep ec d p q v fg hn hb hc hp hq hne ?_ hfg
          simp only [fuelNeed] at hf
          omega
      | Branch ch cv =>
        cases hw with
        | branch _ _ _ hlen hd hv hch hcount =>
          cases p with
          | nil =>
            obtain ⟨hp1, hp2⟩ := hp
            simp at hp1
            omega
          | cons i rest =>
            obtain ⟨hp1, hp2⟩ := hp
            have hi16 : i < 16 := hp2 i (List.mem_cons_self i rest)
            have hil : i < ch.length := by omega
            have hrest : goodP rest (d + 1) := by
              refine ⟨?_, fun x hx => hp2 x (List.mem_cons_of_mem i hx)⟩
              simp only [List.length_cons] at hp1
              omega
            cases q with
            | nil =>
              obtain ⟨hq1, hq2⟩ := hq
              simp at hq1
              omega
            | cons jq qrest =>
              obtain ⟨hq1, hq2⟩ := hq
              have hqrest : goodP qrest (d + 1) := by
                refine ⟨?_, fun x hx => hq2 x (List.mem_cons_of_mem jq hx)⟩
                simp only [List.length_cons] at hq1
                omega
              simp only [insertF]
              cases fg with
              | zero => omega
              | succ f1 =>
                cases hcg : ch.getD i none with
                | none =>
                  simp only [getF]
                  by_cases hij : jq = i
                  · rw [hij, getD_set_self _ _ _ _ hil, hcg]
                    have hrq : rest ≠ qrest := by
                      intro he
                      apply hne
                      rw [hij, he]
                    dsimp only
                    cases f1 with
                    | zero => rfl
                    | succ f2 => simp [getF, hrq]
                  · rw [getD_set_other _ _ _ _ _ (fun h => hij h.symm)]
                | some child =>
                  have hcw : Wf child (d + 1) := hch i child hcg
                  have hrq : jq = i → rest ≠ qrest := by
                    intro hij he
                    apply hne
                    rw [hij, he]
                  cases child with
                  | Leaf lp lv =>
                    simp only [getF]
                    by_cases hij : jq = i
                    · rw [hij, getD_set_self _ _ _ _ hil, hcg]
                      dsimp only
                      exact diverge_frame lp lv rest qrest v (d + 1) f1 hcw hrest hqrest
                        (hrq hij) (by omega)
                    · rw [getD_set_other _ _ _ _ _ (fun h => hij h.symm)]
                  | Extension ep2 ec2 =>
                    simp only [getF]
                    by_cases hij : jq = i
                    · rw [hij, getD_set_self _ _ _ _ hil, hcg]
                      dsimp only
                      cases hcw with
                      | ext _ _ _ hn2 hb2 hc2 =>
                        refine ihM ep2 ec2 (d + 1) rest qrest v f1 hn2 hb2 hc2 hrest
                          hqrest (hrq hij) ?_ ?_
                        · simp only [fuelNeed] at hf
                          omega
                        · omega
                    · rw [getD_set_other _ _ _ _ _ (fun h => hij h.symm)]
                  | Branch bch bv =>
                    simp only [getF]
                    by_cases hij : jq = i
                    · rw [hij, getD_set_self _ _ _ _ hil, hcg]
                      dsimp only
                      refine ihI (.Branch bch bv) (d + 1) rest qrest v f1 hcw hrest
                        hqrest (hrq hij) ?_ ?_
                      · simp only [fuelNeed] at hf ⊢
                        omega
                      · omega
                    · rw [getD_set_other _ _ _ _ _ (fun h => hij h.symm)]
    · intro ep ec d p q v fg hn hb hc hp hq hne hf hfg
      cases ec with
      | Leaf _ _ => simp [isBranch] at hb
      | Extension _ _ => simp [isBranch] at hb
      | Branch bch bv =>
        have hd' : d + ep.length < 64 := by
          cases hc with
          | branch _ _ _ hlen2 hd2 hv2 hch2 hcount2 => exact hd2
        obtain ⟨hp1, hp2⟩ := hp
        obtain ⟨hq1, hq2⟩ := hq
        have hle : ep.length ≤ p.length := by omega
        have hleq : ep.length ≤ q.length := by omega
        have hgoodq : goodP (q.drop ep.length) (d + ep.length) := by
          refine ⟨?_, fun x hx => hq2 x (List.mem_of_mem_drop hx)⟩
          rw [List.length_drop]
          omega
        simp only [mergeF]
        rw [if_pos hle, lcp_take_right]
        by_cases hk : lcp_len ep p = ep.length
        · rw [if_pos hk, hk]
          cases fg with
          | zero => omega
          | succ f1 =>
            simp only [getF]
            by_cases hcond : ep.length ≤ q.length ∧ ep = q.take ep.length
            · rw [if_pos hcond, if_pos hcond]
              have hgoodp : goodP (p.drop ep.length) (d + ep.length) := by
                refine ⟨?_, fun x hx => hp2 x (List.mem_of_mem_drop hx)⟩
                rw [List.length_drop]
                omega
              have hdne : p.drop ep.length ≠ q.drop ep.length := by
                intro he
                apply hne
                have hpt : p.take ep.length = ep := take_eq_of_lcp_full ep p hk hle
                calc p = p.take ep.length ++ p.drop ep.length := (List.take_append_drop _ p).symm
                  _ = q.take ep.length ++ q.drop ep.length := by rw [hpt, ← hcond.2, he]
                  _ = q := List.take_append_drop _ q
              have hwI : Wf (insertF g (.Branch bch bv) (p.drop ep.length) v)
                  (d + ep.length) :=
                (insert_wf_aux g).1 (.Branch bch bv) (d + ep.length) (p.drop ep.length) v
                  hc hgoodp (by simp only [fuelNeed]; omega)
              rw [getF_fuel_irrel f1 (3 * (65 - (d + ep.length)) + 3) hwI hgoodq
                (by have := fuelNeed_le (insertF g (.Branch bch bv) (p.drop ep.length) v)
                      (d + ep.length)
                    omega)
                (by have := fuelNeed_le (insertF g (.Branch bch bv) (p.drop ep.length) v)
                      (d + ep.length)
                    omega)]
              rw [getF_fuel_irrel f1 (3 * (65 - (d + ep.length)) + 3) hc hgoodq
                (by simp only [fuelNeed]; omega) (by simp only [fuelNeed]; omega)]
              refine ihI (.Branch bch bv) (d + ep.length) (p.drop ep.length)
                (q.drop ep.length) v _ hc hgoodp hgoodq hdne ?_ ?_
              · simp only [fuelNeed]
                omega
              · omega
            · rw [if_neg hcond, if_neg hcond]
        · rw [if_neg hk]
          have hk1 : lcp_len ep p < ep.length := by
            have := lcp_len_le_left ep p
            omega
          have hk2 : lcp_len ep p < p.length := by omega
          have hkq : lcp_len ep p < q.length := by omega
          obtain ⟨o, os, ho⟩ := drop_cons_of_lt ep (lcp_len ep p) hk1
          obtain ⟨w, ws, hw2⟩ := drop_cons_of_lt p (lcp_len ep p) hk2
          obtain ⟨j, jrest, hj⟩ := drop_cons_of_lt q (lcp_len ep p) hkq
          have how : o ≠ w := by
            have hne2 := lcp_getD_ne ep p hk1 hk2
            have h1 : ep.getD (lcp_len ep p) 0 = o := by
              rw [← headD_drop, ho]; rfl
            have h2 : p.getD (lcp_len ep p) 0 = w := by
              rw [← headD_drop, hw2]; rfl
            rw [h1, h2] at hne2
            exact hne2
          have ho16 : o < 16 := hn o (List.mem_of_mem_drop (ho ▸ List.mem_cons_self o os))
          have hw16 : w < 16 := hp2 w (List.mem_of_mem_drop (hw2 ▸ List.mem_cons_self w ws))
          have htake : ep.take (lcp_len ep p) = p.take (lcp_len ep p) := take_lcp_eq ep p
          have hlos : os.length = ep.length - lcp_len ep p - 1 := by
            have := List.length_drop (lcp_len ep p) ep
            rw [ho] at this
            simp at this
            omega
          have hljr : jrest.length = q.length - lcp_len ep p - 1 := by
            have := List.length_drop (lcp_len ep p) q
            rw [hj] at this
            simp at this
            omega
          have hlws : ws.length = p.length - lcp_len ep p - 1 := by
            have := List.length_drop (lcp_len ep p) p
            rw [hw2] at this
            simp at this
            omega
          have hqsplit : q.take ep.length =
              q.take (lcp_len ep p) ++ j :: jrest.take (ep.length - lcp_len ep p - 1) :=
            take_split_cons q (lcp_len ep p) ep.length j jrest hk1 hj
          have hepsplit : ep = ep.take (lcp_len ep p) ++ o :: os := by
            rw [← ho, List.take_append_drop]
          have hqge : q.getD (lcp_len ep p) 0 = j := by
            rw [← headD_drop, hj]; rfl
          have hepge : ep.getD (lcp_len ep p) 0 = o := by
            rw [← headD_drop, ho]; rfl
          have hRHS : getF fg (.Extension ep (.Branch bch bv)) q =
              (if ep = q.take ep.length then
                getF (3 * (65 - (d + ep.length)) + 3) (.Branch bch bv) (q.drop ep.length)
              else none) := by
            cases fg with
            | zero => omega
            | succ f1 =>
              simp only [getF]
              by_cases hcond : ep = q.take ep.length
              · rw [if_pos ⟨hleq, hcond⟩, if_pos hcond]
                exact getF_fuel_irrel f1 (3 * (65 - (d + ep.length)) + 3) hc hgoodq
                  (by simp only [fuelNeed]; omega) (by simp only [fuelNeed]; omega)
              · rw [if_neg (fun hcd => hcond hcd.2), if_neg hcond]
          rw [hRHS]
          simp only [ho, hw2]
          have hInner : ∀ f2, 3 * (65 - d) + 2 ≤ f2 →
              q.take (lcp_len ep p) = ep.take (lcp_len ep p) →
              getF f2 (.Branch ((emptyChildren.set o (some (.Extension os
                  (.Branch bch bv)))).set w (some (.Leaf ws v))) none)
                (q.drop (lcp_len ep p)) =
              (if ep = q.take ep.length then
                getF (3 * (65 - (d + ep.length)) + 3) (.Branch bch bv) (q.drop ep.length)
              else none) := by
            intro f2 hf2 hqtake
            rw [hj]
            cases f2 with
            | zero => omega
            | succ f3 =>
              simp only [getF]
              by_cases hjw : j = w
              · rw [hjw, getD_set_self _ _ _ _ (by simp [emptyChildren]; omega)]
                have hcond : ¬ ep = q.take ep.length := by
                  intro hcd
                  have h11 : ep.getD (lcp_len ep p) 0 =
                      (q.take ep.length).getD (lcp_len ep p) 0 :=
                    congrArg (fun l => List.getD l (lcp_len ep p) 0) hcd
                  rw [getD_take _ _ _ _ hk1] at h11
                  rw [hepge, hqge, hjw] at h11
                  exact how h11
                rw [if_neg hcond]
                have hwsj : ws ≠ jrest := by
                  intro he
                  apply hne
                  calc p = p.take (lcp_len ep p) ++ w :: ws := by
                        rw [← hw2, List.take_append_drop]
                    _ = q.take (lcp_len ep p) ++ j :: jrest := by
                        rw [hqtake, htake, hjw, he]
                    _ = q := by rw [← hj, List.take_append_drop]
                dsimp only
                cases f3 with
                | zero => rfl
                | succ f4 => simp [getF, hwsj]
              · rw [getD_set_other _ _ _ _ _ (fun h => hjw h.symm)]
                by_cases hjo : j = o
                · rw [hjo, getD_set_self _ _ _ _ (by simp [emptyChildren]; omega)]
                  dsimp only
                  cases f3 with
                  | zero => omega
                  | succ f4 =>
                    simp only [getF]
                    have hcondiff : (ep = q.take ep.length) ↔
                        (os = jrest.take os.length) := by
                      constructor
                      · intro hcd
                        have h12 : ep.take (lcp_len ep p) ++ o :: os =
                            q.take (lcp_len ep p) ++ j :: jrest.take
                              (ep.length - lcp_len ep p - 1) := by
                          rw [← hepsplit, ← hqsplit]
                          exact hcd
                        rw [hqtake, hjo] at h12
                        have h13 := List.append_cancel_left h12
                        injection h13 with h14 h15
                        rw [hlos]
                        exact h15
                      · intro hos
                        rw [hlos] at hos
                        calc ep = ep.take (lcp_len ep p) ++ o :: os := hepsplit
                          _ = q.take (lcp_len ep p) ++ j :: jrest.take
                              (ep.length - lcp_len ep p - 1) := by
                            rw [hqtake, hjo, ← hos]
                          _ = q.take ep.length := hqsplit.symm
                    by_cases hosj : os = jrest.take os.length
                    · rw [if_pos ⟨by omega, hosj⟩, if_pos (hcondiff.mpr hosj)]
                      have hpath : jrest.drop os.length = q.drop ep.length := by
                        have h16 : q.drop ep.length =
                            (q.drop (lcp_len ep p)).drop (ep.length - lcp_len ep p) := by
                          rw [List.drop_drop]
                          congr 1
                          omega
                        rw [h16, hj]
                        have h17 : ep.length - lcp_len ep p = os.length + 1 := by omega
                        rw [h17]
                        rfl
                      rw [hpath]
                      exact getF_fuel_irrel f4 (3 * (65 - (d + ep.length)) + 3) hc hgoodq
                        (by simp only [fuelNeed]; omega) (by simp only [fuelNeed]; omega)
                    · rw [if_neg (fun hcd => hosj hcd.2), if_neg
                        (fun hcd => hosj (hcondiff.mp hcd))]
                · rw [getD_set_other _ _ _ _ _ (fun h => hjo h.symm), emptyChildren,
                    getD_replicate_none]
                  have hcond : ¬ ep = q.take ep.length := by
                    intro hcd
                    have h11 : ep.getD (lcp_len ep p) 0 =
                        (q.take ep.length).getD (lcp_len ep p) 0 :=
                      congrArg (fun l => List.getD l (lcp_len ep p) 0) hcd
                    rw [getD_take _ _ _ _ hk1] at h11
                    rw [hepge, hqge] at h11
                    exact hjo h11.symm
                  rw [if_neg hcond]
          by_cases hk0 : 0 < lcp_len ep p
          · rw [if_pos hk0]
            cases fg with
            | zero => omega
            | succ f1 =>
              have hTL : (ep.take (lcp_len ep p)).length = lcp_len ep p := by
                simp [List.length_take]
                omega
              simp only [getF]
              by_cases hqt : q.take (lcp_len ep p) = ep.take (lcp_len ep p)
              · rw [if_pos ⟨by omega, by rw [hTL]; exact hqt.symm⟩, hTL]
                exact hInner f1 (by omega) hqt
              · rw [if_neg (fun hcd => hqt (by rw [hTL] at hcd; exact hcd.2.symm))]
                have hcond2 : ¬ ep = q.take ep.length := by
                  intro hcd
                  apply hqt
                  have h20 : ep.take (lcp_len ep p) =
                      (q.take ep.length).take (lcp_len ep p) :=
                    congrArg (List.take (lcp_len ep p)) hcd
                  rw [List.take_take, Nat.min_eq_left (by omega)] at h20
                  exact h20.symm
                rw [if_neg hcond2]
          · rw [if_neg hk0]
            have hz : lcp_len ep p = 0 := by omega
            have hdz : q.drop (lcp_len ep p) = q := by rw [hz, List.drop_zero]
            have h8 := hInner fg (by omega) (by rw [hz]; simp)
            rw [hdz] at h8
            exact h8

/-- a lookup that succeeds keeps succeeding with more fuel. -/
theorem getF_le_some : ∀ f1 : Nat, ∀ {n : Node} {p v : List Nat} (f2 : Nat),
    f1 ≤ f2 → getF f1 n p = some v → getF f2 n p = some v := by
  intro f1
  induction f1 with
  | zero =>
    intro n p v f2 hle h
    simp [getF] at h
  | succ g ih =>
    intro n p v f2 hle h
    cases f2 with
    | zero => omega
    | succ f3 =>
      cases n with
      | Leaf lp lv => exact h
      | Extension ep ec =>
        simp only [getF] at h ⊢
        by_cases hcond : ep.length ≤ p.length ∧ ep = p.take ep.length
        · rw [if_pos hcond] at h ⊢
          exact ih f3 (by omega) h
        · rw [if_neg hcond] at h
          cases h
      | Branch ch cv =>
        cases p with
        | nil => simp [getF] at h
        | cons i rest =>
          simp only [getF] at h ⊢
          cases hcg : ch.getD i none with
          | none =>
            rw [hcg] at h
            simp at h
          | some child =>
            rw [hcg] at h
            exact ih f3 (by omega) h

/-- `delete` where the key resolves to nothing reports `NotFound`. -/
theorem delete_absent_aux : ∀ fd : Nat, ∀ (n : Node) (d : Nat) (p : List Nat),
    Wf n d → goodP p d → (∀ fg, getF fg n p = none) →
    deleteF fd n p = .NotFound := by
  intro fd
  induction fd with
  | zero => intro n d p hw hp hget; rfl
  | succ g ih =>
    intro n d p hw hp hget
    cases n with
    | Leaf lp lv => rfl
    | Extension ep ec =>
      cases hw with
      | ext _ _ _ hn hb hc =>
        simp only [deleteF]
        by_cases hcond : ep.length ≤ p.length ∧ p.take ep.length = ep
        · rw [if_pos hcond]
          obtain ⟨hp1, hp2⟩ := hp
          have hgc : ∀ fg, getF fg ec (p.drop ep.length) = none := by
            intro fg
            have h1 := hget (fg + 1)
            simp only [getF] at h1
            rw [if_pos ⟨hcond.1, hcond.2.symm⟩] at h1
            exact h1
          have hgood : goodP (p.drop ep.length) (d + ep.length) := by
            refine ⟨?_, fun x hx => hp2 x (List.mem_of_mem_drop hx)⟩
            rw [List.length_drop]
            omega
          rw [ih ec (d + ep.length) (p.drop ep.length) hc hgood hgc]
        · rw [if_neg hcond]
    | Branch ch cv =>
      cases hw with
      | branch _ _ _ hlen hd hv hch hcount =>
        cases p with
        | nil => rfl
        | cons i rest =>
          simp only [deleteF]
          cases hcg : ch.getD i none with
          | none => rfl
          | some child =>
            have hcw : Wf child (d + 1) := hch i child hcg
            obtain ⟨hp1, hp2⟩ := hp
            have hrest : goodP rest (d + 1) := by
              refine ⟨?_, fun x hx => hp2 x (List.mem_cons_of_mem i hx)⟩
              simp only [List.length_cons] at hp1
              omega
            have hgc : ∀ fg, getF fg child rest = none := by
              intro fg
              have h1 := hget (fg + 1)
              simp only [getF] at h1
              rw [hcg] at h1
              exact h1
            cases child with
            | Leaf lp lv =>
              have h2 := hgc 1
              simp only [getF] at h2
              have hlp : lp ≠ rest := by
                intro he
                rw [if_pos he] at h2
                cases h2
              dsimp only
              rw [if_neg hlp]
            | Extension ep2 ec2 =>
              dsimp only
              rw [ih (.Extension ep2 ec2) (d + 1) rest hcw hrest hgc]
            | Branch bch bv =>
              dsimp only
              rw [ih (.Branch bch bv) (d + 1) rest hcw hrest hgc]

theorem getD_set_none_self (l : List (Option Node)) (i : Nat) :
    (l.set i none).getD i none = none := by
  by_cases h : i < l.length
  · exact getD_set_self l i none none h
  · rw [List.getD_eq_getElem?_getD, List.getElem?_eq_none]
    · rfl
    · simp [List.length_set]
      omega

theorem getF_succ_leaf (f : Nat) (lp lv p : List Nat) :
    getF (f + 1) (.Leaf lp lv) p = if lp = p then some lv else none := rfl

theorem getF_succ_ext (f : Nat) (ep : List Nat) (ec : Node) (p : List Nat) :
    getF (f + 1) (.Extension ep ec) p =
    (if ep.length ≤ p.length ∧ ep = p.take ep.length then getF f ec (p.drop ep.length)
     else none) := rfl

theorem getF_succ_branch (f : Nat) (ch : List (Option Node)) (cv : Option (List Nat))
    (i : Nat) (rest : List Nat) :
    getF (f + 1) (.Branch ch cv) (i :: rest) =
    (match ch.getD i none with
     | some child => getF f child rest
     | none => none) := rfl

theorem getF_succ_branch_nil (f : Nat) (ch : List (Option Node))
    (cv : Option (List Nat)) : getF (f + 1) (.Branch ch cv) [] = none := rfl

/-- deleting a present key: `delete` reports a deletion, the resulting node is
well-formed, of the same top-level kind for in-place results, and no longer
holds the key. -/
theorem delete_present_aux : ∀ fd : Nat, ∀ (n : Node) (d : Nat) (p v : List Nat),
    Wf n d → goodP p d → notLeaf n → fuelNeed n d ≤ fd →
    getF (3 * (65 - d) + 3) n p = some v →
    (match deleteF fd n p with
     | .NotFound => False
     | .Deleted n' => Wf n' d ∧ (isBranch n → isBranch n') ∧
         getF (3 * (65 - d) + 3) n' p = none
     | .DeletedAndReplace n' => Wf n' d ∧ getF (3 * (65 - d) + 3) n' p = none) := by
  intro fd
  induction fd with
  | zero =>
    intro n d p v hw hp hnl hf hget
    have := fuelNeed_pos hw
    omega
  | succ g ih =>
    intro n d p v hw hp hnl hf hget
    cases n with
    | Leaf lp lv => exact absurd hnl (by simp [notLeaf])
    | Extension ep ec =>
      cases hw with
      | ext _ _ _ hn hb hc =>
        cases ec with
        | Leaf _ _ => simp [isBranch] at hb
        | Extension _ _ => simp [isBranch] at hb
        | Branch bch bv =>
          have hd' : d + ep.length < 64 := by
            cases hc with
            | branch _ _ _ hlen2 hd2 hv2 hch2 hcount2 => exact hd2
          obtain ⟨hp1, hp2⟩ := hp
          rw [show (3 * (65 - d) + 3) = (3 * (65 - d) + 2) + 1 from rfl,
            getF_succ_ext] at hget
          by_cases hcond : ep.length ≤ p.length ∧ ep = p.take ep.length
          · rw [if_pos hcond] at hget
            simp only [deleteF]
            rw [if_pos ⟨hcond.1, hcond.2.symm⟩]
            have hgood : goodP (p.drop ep.length) (d + ep.length) := by
              refine ⟨?_, fun x hx => hp2 x (List.mem_of_mem_drop hx)⟩
              rw [List.length_drop]
              omega
            rw [getF_fuel_irrel (3 * (65 - d) + 2) (3 * (65 - (d + ep.length)) + 3)
              hc hgood (by simp only [fuelNeed]; omega)
              (by simp only [fuelNeed]; omega)] at hget
            have hfc : fuelNeed (.Branch bch bv) (d + ep.length) ≤ g := by
              simp only [fuelNeed] at hf ⊢
              omega
            have hIH := ih (.Branch bch bv) (d + ep.length) (p.drop ep.length) v hc hgood
              trivial hfc hget
            cases hdel : deleteF g (.Branch bch bv) (p.drop ep.length) with
            | NotFound =>
              rw [hdel] at hIH
              exact hIH
            | Deleted ec' =>
              rw [hdel] at hIH
              obtain ⟨hw', hk', hg'⟩ := hIH
              have hbr' : isBranch ec' := hk' trivial
              refine ⟨Wf.ext ep ec' d hn hbr' hw',
                fun hbn => absurd hbn (by simp [isBranch]), ?_⟩
              rw [show (3 * (65 - d) + 3) = (3 * (65 - d) + 2) + 1 from rfl,
                getF_succ_ext, if_pos hcond]
              rw [getF_fuel_irrel (3 * (65 - d) + 2) (3 * (65 - (d + ep.length)) + 3)
                hw' hgood (by have := fuelNeed_le ec' (d + ep.length); omega)
                (by have := fuelNeed_le ec' (d + ep.length); omega)]
              exact hg'
            | DeletedAndReplace nc =>
              rw [hdel] at hIH
              obtain ⟨hw', hg'⟩ := hIH
              cases nc with
              | Leaf lp2 lv2 =>
                have hlp2 : lp2 ≠ p.drop ep.length := by
                  intro he
                  rw [show (3 * (65 - (d + ep.length)) + 3) =
                    (3 * (65 - (d + ep.length)) + 2) + 1 from rfl,
                    getF_succ_leaf, if_pos he] at hg'
                  cases hg'
                cases hw' with
                | leaf _ _ _ hl2 hn2 =>
                  constructor
                  · refine Wf.leaf _ _ _ ?_ ?_
                    · rw [List.length_append]
                      omega
                    · intro x hx
                      rcases List.mem_append.mp hx with h | h
                      · exact hn x h
                      · exact hn2 x h
                  · rw [show (3 * (65 - d) + 3) = (3 * (65 - d) + 2) + 1 from rfl,
                      getF_succ_leaf, if_neg]
                    intro he
                    apply hlp2
                    have h30 : p = ep ++ p.drop ep.length := by
                      conv_lhs => rw [← List.take_append_drop ep.length p, ← hcond.2]
                    rw [h30] at he
                    exact List.append_cancel_left he
              | Extension np nch =>
                cases hw' with
                | ext _ _ _ hn2 hb2 hc2 =>
                  constructor
                  · refine Wf.ext _ _ _ ?_ hb2 ?_
                    · intro x hx
                      rcases List.mem_append.mp hx with h | h
                      · exact hn x h
                      · exact hn2 x h
                    · rw [show d + (ep ++ np).length = d + ep.length + np.length by
                        rw [List.length_append]; omega]
                      exact hc2
                  · rw [show (3 * (65 - (d + ep.length)) + 3) =
                      (3 * (65 - (d + ep.length)) + 2) + 1 from rfl,
                      getF_succ_ext] at hg'
                    rw [show (3 * (65 - d) + 3) = (3 * (65 - d) + 2) + 1 from rfl,
                      getF_succ_ext]
                    by_cases hc3 : np.length ≤ (p.drop ep.length).length ∧
                        np = (p.drop ep.length).take np.length
                    · rw [if_pos hc3] at hg'
                      rw [if_pos ?_]
                      · have hpath : (p.drop ep.length).drop np.length =
                            p.drop ((ep ++ np).length) := by
                          rw [List.drop_drop, List.length_append]
                        rw [← hpath]
                        have hgood2 : goodP ((p.drop ep.length).drop np.length)
                            (d + ep.length + np.length) := by
                          obtain ⟨ha, hbq⟩ := hgood
                          refine ⟨?_, fun x hx => hbq x (List.mem_of_mem_drop hx)⟩
                          have h40 : (p.drop ep.length).length = p.length - ep.length :=
                            List.length_drop _ _
                          have h41 : ((p.drop ep.length).drop np.length).length =
                              (p.drop ep.length).length - np.length := List.length_drop _ _
                          omega
                        rw [getF_fuel_irrel (3 * (65 - d) + 2)
                          (3 * (65 - (d + ep.length)) + 2) hc2 hgood2
                          (by have := fuelNeed_le nch (d + ep.length + np.length); omega)
                          (by have := fuelNeed_le nch (d + ep.length + np.length); omega)]
                        exact hg'
                      · constructor
                        · rw [List.length_append]
                          rw [List.length_drop] at hc3
                          omega
                        · rw [show p.take ((ep ++ np).length) =
                            p.take ep.length ++ (p.drop ep.length).take np.length by
                              rw [List.length_append, List.take_add]]
                          rw [← hcond.2, ← hc3.2]
                    · rw [if_neg hc3] at hg'
                      rw [if_neg]
                      intro hcd
                      apply hc3
                      have h31 : p.take ((ep ++ np).length) =
                          p.take ep.length ++ (p.drop ep.length).take np.length := by
                        rw [List.length_append, List.take_add]
                      rw [h31, ← hcond.2] at hcd
                      have h32 := List.append_cancel_left hcd.2
                      refine ⟨?_, h32⟩
                      rw [List.length_append] at hcd
                      rw [List.length_drop]
                      omega
              | Branch bch2 bv2 =>
                refine ⟨Wf.ext ep (.Branch bch2 bv2) d hn trivial hw',
                  fun hbn => absurd hbn (by simp [isBranch]), ?_⟩
                rw [show (3 * (65 - d) + 3) = (3 * (65 - d) + 2) + 1 from rfl,
                  getF_succ_ext, if_pos hcond]
                rw [getF_fuel_irrel (3 * (65 - d) + 2) (3 * (65 - (d + ep.length)) + 3)
                  hw' hgood (by simp only [fuelNeed]; omega)
                  (by simp only [fuelNeed]; omega)]
                exact hg'
          · rw [if_neg hcond] at hget
            cases hget
    | Branch ch cv =>
      cases hw with
      | branch _ _ _ hlen hd hv hch hcount =>
        cases p with
        | nil =>
          rw [show (3 * (65 - d) + 3) = (3 * (65 - d) + 2) + 1 from rfl,
            getF_succ_branch_nil] at hget
          cases hget
        | cons i rest =>
          obtain ⟨hp1, hp2⟩ := hp
          have hi16 : i < 16 := hp2 i (List.mem_cons_self i rest)
          have hil : i < ch.length := by omega
          have hrest : goodP rest (d + 1) := by
            refine ⟨?_, fun x hx => hp2 x (List.mem_cons_of_mem i hx)⟩
            simp only [List.length_cons] at hp1
            omega
          rw [show (3 * (65 - d) + 3) = (3 * (65 - d) + 2) + 1 from rfl,
            getF_succ_branch] at hget
          simp only [deleteF]
          cases hcg : ch.getD i none with
          | none =>
            rw [hcg] at hget
            cases hget
          | some child =>
            rw [hcg] at hget
            dsimp only at hget
            have hcw : Wf child (d + 1) := hch i child hcg
            cases child with
            | Leaf lp2 lv2 =>
              have hlp2 : lp2 = rest := by
                rw [show (3 * (65 - d) + 2) = (3 * (65 - d) + 1) + 1 from rfl,
                  getF_succ_leaf] at hget
                by_cases he : lp2 = rest
                · exact he
                · rw [if_neg he] at hget
                  cases hget
              dsimp only
              rw [if_pos hlp2]
              simp only [try_collapse_branch]
              have hcnt := activeChildren_len_set_none ch i 0 _ hcg
              by_cases hone : (activeChildren (ch.set i none) 0).length = 1
              · rw [if_pos ⟨hone, hv⟩]
                cases hact : activeChildren (ch.set i none) 0 with
                | nil =>
                  rw [hact] at hone
                  simp at hone
                | cons hd0 tl =>
                  have htl : tl = [] := by
                    rw [hact] at hone
                    simp only [List.length_cons] at hone
                    rw [← List.length_eq_zero]
                    omega
                  subst htl
                  obtain ⟨j, c⟩ := hd0
                  have hmem : (j, c) ∈ activeChildren (ch.set i none) 0 := by
                    rw [hact]
                    exact List.mem_cons_self _ _
                  have hjc := (activeChildren_mem _ 0 j c).mp hmem
                  have hjc2 : (ch.set i none).getD j none = some c := by
                    have := hjc.2
                    rwa [Nat.sub_zero] at this
                  have hji : j ≠ i := by
                    intro he
                    rw [he, getD_set_none_self] at hjc2
                    cases hjc2
                  rw [getD_set_other ch i j none none (fun h => hji h.symm)] at hjc2
                  have hcw2 : Wf c (d + 1) := hch j c hjc2
                  have hj16 : j < 16 := by
                    have := getD_some_lt ch j c hjc2
                    omega
                  cases c with
                  | Leaf lp3 lv3 =>
                    cases hcw2 with
                    | leaf _ _ _ hl3 hn3 =>
                      constructor
                      · refine Wf.leaf _ _ _ ?_ ?_
                        · simp only [List.length_cons]
                          omega
                        · intro x hx
                          rcases List.mem_cons.mp hx with h | h
                          · omega
                          · exact hn3 x h
                      · rw [show (3 * (65 - d) + 3) = (3 * (65 - d) + 2) + 1 from rfl,
                          getF_succ_leaf, if_neg]
                        intro he
                        injection he with h1 h2
                        exact hji h1
                  | Extension p3 c3 =>
                    cases hcw2 with
                    | ext _ _ _ hn3 hb3 hc3 =>
                      constructor
                      · refine Wf.ext _ _ _ ?_ hb3 ?_
                        · intro x hx
                          rcases List.mem_cons.mp hx with h | h
                          · omega
                          · exact hn3 x h
                        · rw [show d + (j :: p3).length = d + 1 + p3.length by
                            simp only [List.length_cons]; omega]
                          exact hc3
                      · rw [show (3 * (65 - d) + 3) = (3 * (65 - d) + 2) + 1 from rfl,
                          getF_succ_ext, if_neg]
                        intro hcd
                        have h2 := hcd.2
                        rw [List.length_cons, List.take_succ_cons] at h2
                        injection h2 with h1 _
                        exact hji h1
                  | Branch bch3 bv3 =>
                    constructor
                    · refine Wf.ext _ _ _ ?_ trivial ?_
                      · intro x hx
                        rcases List.mem_cons.mp hx with h | h
                        · omega
                        · simp at h
                      · rw [show d + [j].length = d + 1 from rfl]
                        exact hcw2
                    · rw [show (3 * (65 - d) + 3) = (3 * (65 - d) + 2) + 1 from rfl,
                        getF_succ_ext, if_neg]
                      intro hcd
                      have h2 := hcd.2
                      rw [show [j].length = 1 from rfl, List.take_succ_cons] at h2
                      injection h2 with h1 _
                      exact hji h1
              · rw [if_neg (fun hcd => hone hcd.1)]
                refine ⟨?_, fun _ => trivial, ?_⟩
                · refine Wf.branch _ _ _ (by simp [List.length_set, hlen]) hd hv ?_ ?_
                  · intro j c hj
                    by_cases hji : j = i
                    · rw [hji, getD_set_none_self] at hj
                      cases hj
                    · rw [getD_set_other _ _ _ _ _ (fun h => hji h.symm)] at hj
                      exact hch j c hj
                  · omega
                · rw [show (3 * (65 - d) + 3) = (3 * (65 - d) + 2) + 1 from rfl,
                    getF_succ_branch, getD_set_none_self]
            | Extension ep2 ec2 =>
              have hget2 : getF (3 * (65 - (d + 1)) + 3) (.Extension ep2 ec2) rest
                  = some v := by
                rw [← getF_fuel_irrel (3 * (65 - d) + 2) (3 * (65 - (d + 1)) + 3)
                  hcw hrest (by have := fuelNeed_le (Node.Extension ep2 ec2) (d + 1); omega)
                  (by have := fuelNeed_le (Node.Extension ep2 ec2) (d + 1); omega)]
                exact hget
              have hfc : fuelNeed (.Extension ep2 ec2) (d + 1) ≤ g := by
                simp only [fuelNeed] at hf ⊢
                omega
              have hIH := ih (.Extension ep2 ec2) (d + 1) rest v hcw hrest trivial hfc hget2
              dsimp only
              cases hdel : deleteF g (.Extension ep2 ec2) rest with
              | NotFound =>
                rw [hdel] at hIH
                exact hIH
              | Deleted child' =>
                rw [hdel] at hIH
                obtain ⟨hw', hk', hg'⟩ := hIH
                dsimp only
                simp only [try_collapse_branch]
                have hcnt := activeChildren_len_set_present ch i 0 child' _ hcg
                rw [if_neg (fun hcd => by omega)]
                refine ⟨?_, fun _ => trivial, ?_⟩
                · refine Wf.branch _ _ _ (by simp [List.length_set, hlen]) hd hv ?_ ?_
                  · intro j c hj
                    by_cases hji : j = i
                    · rw [hji, getD_set_self _ _ _ _ hil] at hj
                      cases hj
                      exact hw'
                    · rw [getD_set_other _ _ _ _ _ (fun h => hji h.symm)] at hj
                      exact hch j c hj
                  · omega
                · rw [show (3 * (65 - d) + 3) = (3 * (65 - d) + 2) + 1 from rfl,
                    getF_succ_branch, getD_set_self _ _ _ _ hil]
                  dsimp only
                  rw [getF_fuel_irrel (3 * (65 - d) + 2) (3 * (65 - (d + 1)) + 3)
                    hw' hrest (by have := fuelNeed_le child' (d + 1); omega)
                    (by have := fuelNeed_le child' (d + 1); omega)]
                  exact hg'
              | DeletedAndReplace nc =>
                rw [hdel] at hIH
                obtain ⟨hw', hg'⟩ := hIH
                dsimp only
                simp only [try_collapse_branch]
                have hcnt := activeChildren_len_set_present ch i 0 nc _ hcg
                rw [if_neg (fun hcd => by omega)]
                refine ⟨?_, fun _ => trivial, ?_⟩
                · refine Wf.branch _ _ _ (by simp [List.length_set, hlen]) hd hv ?_ ?_
                  · intro j c hj
                    by_cases hji : j = i
                    · rw [hji, getD_set_self _ _ _ _ hil] at hj
                      cases hj
                      exact hw'
                    · rw [getD_set_other _ _ _ _ _ (fun h => hji h.symm)] at hj
                      exact hch j c hj
                  · omega
                · rw [show (3 * (65 - d) + 3) = (3 * (65 - d) + 2) + 1 from rfl,
                    getF_succ_branch, getD_set_self _ _ _ _ hil]
                  dsimp only
                  rw [getF_fuel_irrel (3 * (65 - d) + 2) (3 * (65 - (d + 1)) + 3)
                    hw' hrest (by have := fuelNeed_le nc (d + 1); omega)
                    (by have := fuelNeed_le nc (d + 1); omega)]
                  exact hg'
            | Branch bch2 bv2 =>
              have hget2 : getF (3 * (65 - (d + 1)) + 3) (.Branch bch2 bv2) rest
                  = some v := by
                rw [← getF_fuel_irrel (3 * (65 - d) + 2) (3 * (65 - (d + 1)) + 3)
                  hcw hrest (by have := fuelNeed_le (Node.Branch bch2 bv2) (d + 1); omega)
                  (by have := fuelNeed_le (Node.Branch bch2 bv2) (d + 1); omega)]
                exact hget
              have hfc : fuelNeed (.Branch bch2 bv2) (d + 1) ≤ g := by
                simp only [fuelNeed] at hf ⊢
                omega
              have hIH := ih (.Branch bch2 bv2) (d + 1) rest v hcw hrest trivial hfc hget2
              dsimp only
              cases hdel : deleteF g (.Branch bch2 bv2) rest with
              | NotFound =>
                rw [hdel] at hIH
                exact hIH
              | Deleted child' =>
                rw [hdel] at hIH
                obtain ⟨hw', hk', hg'⟩ := hIH
                dsimp only
                simp only [try_collapse_branch]
                have hcnt := activeChildren_len_set_present ch i 0 child' _ hcg
                rw [if_neg (fun hcd => by omega)]
                refine ⟨?_, fun _ => trivial, ?_⟩
                · refine Wf.branch _ _ _ (by simp [List.length_set, hlen]) hd hv ?_ ?_
                  · intro j c hj
                    by_cases hji : j = i
                    · rw [hji, getD_set_self _ _ _ _ hil] at hj
                      cases hj
                      exact hw'
                    · rw [getD_set_other _ _ _ _ _ (fun h => hji h.symm)] at hj
                      exact hch j c hj
                  · omega
                · rw [show (3 * (65 - d) + 3) = (3 * (65 - d) + 2) + 1 from rfl,
                    getF_succ_branch, getD_set_self _ _ _ _ hil]
                  dsimp only
                  rw [getF_fuel_irrel (3 * (65 - d) + 2) (3 * (65 - (d + 1)) + 3)
                    hw' hrest (by have := fuelNeed_le child' (d + 1); omega)
                    (by have := fuelNeed_le child' (d + 1); omega)]
                  exact hg'
              | DeletedAndReplace nc =>
                rw [hdel] at hIH
                obtain ⟨hw', hg'⟩ := hIH
                dsimp only
                simp only [try_collapse_branch]
                have hcnt := activeChildren_len_set_present ch i 0 nc _ hcg
                rw [if_neg (fun hcd => by omega)]
                refine ⟨?_, fun _ => trivial, ?_⟩
                · refine Wf.branch _ _ _ (by simp [List.length_set, hlen]) hd hv ?_ ?_
                  · intro j c hj
                    by_cases hji : j = i
                    · rw [hji, getD_set_self _ _ _ _ hil] at hj
                      cases hj
                      exact hw'
                    · rw [getD_set_other _ _ _ _ _ (fun h => hji h.symm)] at hj
                      exact hch j c hj
                  · omega
                · rw [show (3 * (65 - d) + 3) = (3 * (65 - d) + 2) + 1 from rfl,
                    getF_succ_branch, getD_set_self _ _ _ _ hil]
                  dsimp only
                  rw [getF_fuel_irrel (3 * (65 - d) + 2) (3 * (65 - (d + 1)) + 3)
                    hw' hrest (by have := fuelNeed_le nc (d + 1); omega)
                    (by have := fuelNeed_le nc (d + 1); omega)]
                  exact hg'

theorem set_getD_self_eq {α : Type} (l : List (Option α)) (i : Nat) :
    l.set i (l.getD i none) = l := by
  induction l generalizing i with
  | nil => rfl
  | cons hd tl ih =>
    cases i with
    | zero => simp [List.set, List.getD]
    | succ j =>
      simp only [List.set, List.getD_cons_succ]
      rw [ih j]

/-- writing back the value a slot already holds is the identity. -/
theorem set_restore {α : Type} (l : List (Option α)) (i : Nat) (x : Option α)
    (h : l.getD i none = x) : l.set i x = l := by
  rw [← h]
  exact set_getD_self_eq l i

theorem activeChildren_singleton (o : Nat) (Y : Node) (ho : o < 16) :
    activeChildren (emptyChildren.set o (some Y)) 0 = [(o, Y)] := by
  have hlen1 : (activeChildren (emptyChildren.set o (some Y)) 0).length = 1 := by
    rw [activeChildren_len_set_fresh _ _ _ _ (by simp [emptyChildren]; omega)
      (by rw [emptyChildren, getD_replicate_none])]
    rw [emptyChildren, activeChildren_replicate]
    rfl
  have hmem : (o, Y) ∈ activeChildren (emptyChildren.set o (some Y)) 0 := by
    rw [activeChildren_mem]
    refine ⟨Nat.zero_le o, ?_⟩
    rw [Nat.sub_zero, getD_set_self _ _ _ _ (by simp [emptyChildren]; omega)]
  exact eq_singleton_of_len_one_mem _ _ hlen1 hmem

theorem diverge_not_leaf (lp lv p v : List Nat) (hlen : lp.length = p.length)
    (hne : lp ≠ p) (a b : List Nat) : diverge_with lp lv p v ≠ .Leaf a b := by
  unfold diverge_with
  rw [if_neg (fun hcd => hne (eq_of_lcp_full lp p hcd.1 hlen))]
  have hk1 : lcp_len lp p < lp.length := by
    have h1 := lcp_len_le_left lp p
    rcases Nat.lt_or_ge (lcp_len lp p) lp.length with h | h
    · exact h
    · exact absurd (eq_of_lcp_full lp p (by omega) hlen) hne
  have hk2 : lcp_len lp p < p.length := by omega
  obtain ⟨o, os, ho⟩ := drop_cons_of_lt lp (lcp_len lp p) hk1
  obtain ⟨w, ws, hw2⟩ := drop_cons_of_lt p (lcp_len lp p) hk2
  simp only [ho, hw2]
  split <;> simp

/-- deleting the diverging key from a freshly split leaf restores the leaf. -/
theorem diverge_delete (lp lv p v : List Nat) (d fd : Nat)
    (hw : Wf (.Leaf lp lv) d) (hp : goodP p d) (hne : lp ≠ p) (hfd : 3 ≤ fd) :
    deleteF fd (diverge_with lp lv p v) p = .DeletedAndReplace (.Leaf lp lv) := by
  cases hw with
  | leaf _ _ _ hl hn =>
    obtain ⟨hp1, hp2⟩ := hp
    have hlen : lp.length = p.length := by omega
    unfold diverge_with
    rw [if_neg (fun hcd => hne (eq_of_lcp_full lp p hcd.1 hlen))]
    have hk1 : lcp_len lp p < lp.length := by
      have h1 := lcp_len_le_left lp p
      rcases Nat.lt_or_ge (lcp_len lp p) lp.length with h | h
      · exact h
      · exact absurd (eq_of_lcp_full lp p (by omega) hlen) hne
    have hk2 : lcp_len lp p < p.length := by omega
    obtain ⟨o, os, ho⟩ := drop_cons_of_lt lp (lcp_len lp p) hk1
    obtain ⟨w, ws, hw2⟩ := drop_cons_of_lt p (lcp_len lp p) hk2
    have how : o ≠ w := by
      have hne2 := lcp_getD_ne lp p hk1 hk2
      have h1 : lp.getD (lcp_len lp p) 0 = o := by
        rw [← headD_drop, ho]; rfl
      have h2 : p.getD (lcp_len lp p) 0 = w := by
        rw [← headD_drop, hw2]; rfl
      rw [h1, h2] at hne2
      exact hne2
    have ho16 : o < 16 := hn o (List.mem_of_mem_drop (ho ▸ List.mem_cons_self o os))
    have hw16 : w < 16 := hp2 w (List.mem_of_mem_drop (hw2 ▸ List.mem_cons_self w ws))
    simp only [ho, hw2]
    have hbd : ∀ f2 : Nat, 1 ≤ f2 →
        deleteF f2 (.Branch ((emptyChildren.set o (some (.Leaf os lv))).set w
          (some (.Leaf ws v))) none) (w :: ws) =
        .DeletedAndReplace (.Leaf (o :: os) lv) := by
      intro f2 hf2
      cases f2 with
      | zero => omega
      | succ f3 =>
        simp only [deleteF]
        rw [getD_set_self _ _ _ _ (by simp [emptyChildren]; omega)]
        dsimp only
        rw [if_pos rfl, List.set_set]
        rw [set_restore _ _ _ (by
          rw [getD_set_other _ _ _ _ _ how, emptyChildren, getD_replicate_none])]
        simp only [try_collapse_branch]
        rw [activeChildren_singleton o _ ho16]
        rfl
    by_cases hk0 : 0 < lcp_len lp p
    · rw [if_pos hk0]
      cases fd with
      | zero => omega
      | succ f1 =>
        have hTL : (lp.take (lcp_len lp p)).length = lcp_len lp p := by
          simp [List.length_take]
          omega
        simp only [deleteF]
        rw [hTL, if_pos ⟨by omega, (take_lcp_eq lp p).symm⟩, hw2, hbd f1 (by omega)]
        dsimp only
        rw [show lp.take (lcp_len lp p) ++ o :: os = lp from by
          rw [← ho, List.take_append_drop]]
    · rw [if_neg hk0]
      have hz : lcp_len lp p = 0 := by omega
      rw [hz, List.drop_zero] at hw2 ho
      rw [hw2, ho]
      exact hbd fd (by omega)

/-- with sufficient fuel, `Node::delete` does not depend on the fuel. -/
theorem deleteF_fuel_irrel : ∀ f1 : Nat, ∀ {n : Node} {d : Nat} {p : List Nat} (f2 : Nat),
    Wf n d → goodP p d → fuelNeed n d ≤ f1 → fuelNeed n d ≤ f2 →
    deleteF f1 n p = deleteF f2 n p := by
  intro f1
  induction f1 with
  | zero =>
    intro n d p f2 hw hp h1 h2
    have := fuelNeed_pos hw
    omega
  | succ g ih =>
    intro n d p f2 hw hp h1 h2
    cases f2 with
    | zero =>
      have := fuelNeed_pos hw
      omega
    | succ f3 =>
      cases n with
      | Leaf lp lv => rfl
      | Extension ep ec =>
        cases hw with
        | ext _ _ _ hn hb hc =>
          cases ec with
          | Leaf _ _ => simp [isBranch] at hb
          | Extension _ _ => simp [isBranch] at hb
          | Branch bch bv =>
            have hd' : d + ep.length < 64 := by
              cases hc with
              | branch _ _ _ hlen2 hd2 hv2 hch2 hcount2 => exact hd2
            obtain ⟨hp1, hp2⟩ := hp
            simp only [deleteF]
            by_cases hcond : ep.length ≤ p.length ∧ p.take ep.length = ep
            · rw [if_pos hcond, if_pos hcond]
              have hgood : goodP (p.drop ep.length) (d + ep.length) := by
                refine ⟨?_, fun x hx => hp2 x (List.mem_of_mem_drop hx)⟩
                rw [List.length_drop]
                omega
              rw [ih f3 hc hgood (by simp only [fuelNeed] at h1 ⊢; omega)
                (by simp only [fuelNeed] at h2 ⊢; omega)]
            · rw [if_neg hcond, if_neg hcond]
      | Branch ch cv =>
        cases hw with
        | branch _ _ _ hlen hd hv hch hcount =>
          cases p with
          | nil => rfl
          | cons i rest =>
            obtain ⟨hp1, hp2⟩ := hp
            have hrest : goodP rest (d + 1) := by
              refine ⟨?_, fun x hx => hp2 x (List.mem_cons_of_mem i hx)⟩
              simp only [List.length_cons] at hp1
              omega
            simp only [deleteF]
            cases hcg : ch.getD i none with
            | none => rfl
            | some child =>
              have hcw : Wf child (d + 1) := hch i child hcg
              have hfb1 : fuelNeed child (d + 1) ≤ g := by
                have := fuelNeed_le child (d + 1)
                simp only [fuelNeed] at h1
                omega
              have hfb2 : fuelNeed child (d + 1) ≤ f3 := by
                have := fuelNeed_le child (d + 1)
                simp only [fuelNeed] at h2
                omega
              cases child with
              | Leaf lp2 lv2 => rfl
              | Extension ep2 ec2 =>
                dsimp only
                rw [ih f3 hcw hrest hfb1 hfb2]
              | Branch bch2 bv2 =>
                dsimp only
                rw [ih f3 hcw hrest hfb1 hfb2]

/-- deleting a freshly inserted key restores the original node exactly
(`Deleted` in place, or `DeletedAndReplace` after a restructuring collapse). -/
theorem insert_delete_aux : ∀ fi : Nat,
    (∀ n d p v fd, Wf n d → goodP p d → fuelNeed n d ≤ fi → 3 * (65 - d) + 3 ≤ fd →
      (∀ fg, getF fg n p = none) →
      deleteF fd (insertF fi n p v) p = .Deleted n ∨
      deleteF fd (insertF fi n p v) p = .DeletedAndReplace n) ∧
    (∀ ep ec d p v fd, (∀ x ∈ ep, x < 16) → isBranch ec → Wf ec (d + ep.length) →
      goodP p d → 3 * (65 - d) + 1 ≤ fi → 3 * (65 - d) + 3 ≤ fd →
      (∀ fg, getF fg (.Extension ep ec) p = none) →
      deleteF fd (mergeF fi ep ec p v) p = .Deleted (.Extension ep ec) ∨
      deleteF fd (mergeF fi ep ec p v) p = .DeletedAndReplace (.Extension ep ec)) := by
  intro fi
  induction fi with
  | zero =>
    constructor
    · intro n d p v fd hw hp hf hfd hget
      have := fuelNeed_pos hw
      omega
    · intro ep ec d p v fd hn hb hc hp hf hfd hget
      omega
  | succ g ih =>
    obtain ⟨ihI, ihM⟩ := ih
    constructor
    · intro n d p v fd hw hp hf hfd hget
      cases n with
      | Leaf lp lv =>
        have hne : lp ≠ p := by
          have h1 := hget 1
          rw [show (1 : Nat) = 0 + 1 from rfl, getF_succ_leaf] at h1
          intro he
          rw [if_pos he] at h1
          cases h1
        simp only [insertF]
        exact Or.inr (diverge_delete lp lv p v d fd hw hp hne (by omega))
      | Extension ep ec =>
        simp only [insertF]
        cases hw with
        | ext _ _ _ hn hb hc =>
          refine ihM ep ec d p v fd hn hb hc hp ?_ hfd hget
          simp only [fuelNeed] at hf
          omega
      | Branch ch cv =>
        cases hw with
        | branch _ _ _ hlen hd hv hch hcount =>
          cases p with
          | nil =>
            obtain ⟨hp1, hp2⟩ := hp
            simp at hp1
            omega
          | cons i rest =>
            obtain ⟨hp1, hp2⟩ := hp
            have hi16 : i < 16 := hp2 i (List.mem_cons_self i rest)
            have hil : i < ch.length := by omega
            have hrest : goodP rest (d + 1) := by
              refine ⟨?_, fun x hx => hp2 x (List.mem_cons_of_mem i hx)⟩
              simp only [List.length_cons] at hp1
              omega
            simp only [insertF]
            cases hcg : ch.getD i none with
            | none =>
              cases fd with
              | zero => omega
              | succ f1 =>
                dsimp only
                simp only [deleteF]
                rw [getD_set_self _ _ _ _ hil]
                dsimp only
                rw [if_pos rfl, List.set_set, set_restore _ _ _ hcg]
                simp only [try_collapse_branch]
                rw [if_neg (fun hcd => by omega)]
                exact Or.inl rfl
            | some child =>
              have hcw : Wf child (d + 1) := hch i child hcg
              have hgc : ∀ fg, getF fg child rest = none := by
                intro fg
                have h1 := hget (fg + 1)
                rw [getF_succ_branch] at h1
                rw [hcg] at h1
                exact h1
              cases child with
              | Leaf lp2 lv2 =>
                have hlen2 : lp2.length = rest.length := by
                  cases hcw with
                  | leaf _ _ _ hl2 _ =>
                    simp only [List.length_cons] at hp1
                    omega
                have hne2 : lp2 ≠ rest := by
                  have h1 := hgc 1
                  rw [show (1 : Nat) = 0 + 1 from rfl, getF_succ_leaf] at h1
                  intro he
                  rw [if_pos he] at h1
                  cases h1
                cases fd with
                | zero => omega
                | succ f1 =>
                  dsimp only
                  cases hdv : diverge_with lp2 lv2 rest v with
                  | Leaf a b => exact absurd hdv (diverge_not_leaf lp2 lv2 rest v hlen2 hne2 a b)
                  | Extension a b =>
                    have hdd := diverge_delete lp2 lv2 rest v (d + 1) f1 hcw hrest hne2
                      (by omega)
                    rw [hdv] at hdd
                    simp only [deleteF]
                    rw [getD_set_self _ _ _ _ hil]
                    dsimp only
                    rw [hdd]
                    dsimp only
                    rw [List.set_set, set_restore _ _ _ hcg]
                    simp only [try_collapse_branch]
                    rw [if_neg (fun hcd => by omega)]
                    exact Or.inl rfl
                  | Branch a b =>
                    have hdd := diverge_delete lp2 lv2 rest v (d + 1) f1 hcw hrest hne2
                      (by omega)
                    rw [hdv] at hdd
                    simp only [deleteF]
                    rw [getD_set_self _ _ _ _ hil]
                    dsimp only
                    rw [hdd]
                    dsimp only
                    rw [List.set_set, set_restore _ _ _ hcg]
                    simp only [try_collapse_branch]
                    rw [if_neg (fun hcd => by omega)]
                    exact Or.inl rfl
              | Extension ep2 ec2 =>
                cases hcw with
                | ext _ _ _ hn2 hb2 hc2 =>
                  cases fd with
                  | zero => omega
                  | succ f1 =>
                    dsimp only
                    have hIH := ihM ep2 ec2 (d + 1) rest v f1 hn2 hb2 hc2 hrest
                      (by simp only [fuelNeed] at hf; omega) (by omega) hgc
                    cases hm : mergeF g ep2 ec2 rest v with
                    | Leaf a b => exact absurd hm (mergeF_not_leaf g ep2 ec2 rest v a b)
                    | Extension a b =>
                      rw [hm] at hIH
                      simp only [deleteF]
                      rw [getD_set_self _ _ _ _ hil]
                      dsimp only
                      rcases hIH with h | h
                      · rw [h]
                        dsimp only
                        rw [List.set_set, set_restore _ _ _ hcg]
                        simp only [try_collapse_branch]
                        rw [if_neg (fun hcd => by omega)]
                        exact Or.inl rfl
                      · rw [h]
                        dsimp only
                        rw [List.set_set, set_restore _ _ _ hcg]
                        simp only [try_collapse_branch]
                        rw [if_neg (fun hcd => by omega)]
                        exact Or.inl rfl
                    | Branch a b =>
                      rw [hm] at hIH
                      simp only [deleteF]
                      rw [getD_set_self _ _ _ _ hil]
                      dsimp only
                      rcases hIH with h | h
                      · rw [h]
                        dsimp only
                        rw [List.set_set, set_restore _ _ _ hcg]
                        simp only [try_collapse_branch]
                        rw [if_neg (fun hcd => by omega)]
                        exact Or.inl rfl
                      · rw [h]
                        dsimp only
                        rw [List.set_set, set_restore _ _ _ hcg]
                        simp only [try_collapse_branch]
                        rw [if_neg (fun hcd => by omega)]
                        exact Or.inl rfl
              | Branch bch2 bv2 =>
                cases fd with
                | zero => omega
                | succ f1 =>
                  obtain ⟨ch2, hch2⟩ := insertF_branch_shape g bch2 bv2 rest v
                  dsimp only
                  rw [hch2]
                  have hIH := ihI (.Branch bch2 bv2) (d + 1) rest v f1 hcw hrest
                    (by simp only [fuelNeed] at hf ⊢; omega) (by omega) hgc
                  rw [hch2] at hIH
                  simp only [deleteF]
                  rw [getD_set_self _ _ _ _ hil]
                  dsimp only
                  rcases hIH with h | h
                  · rw [h]
                    dsimp only
                    rw [List.set_set, set_restore _ _ _ hcg]
                    simp only [try_collapse_branch]
                    rw [if_neg (fun hcd => by omega)]
                    exact Or.inl rfl
                  · rw [h]
                    dsimp only
                    rw [List.set_set, set_restore _ _ _ hcg]
                    simp only [try_collapse_branch]
                    rw [if_neg (fun hcd => by omega)]
                    exact Or.inl rfl
    · intro ep ec d p v fd hn hb hc hp hf hfd hget
      cases ec with
      | Leaf _ _ => simp [isBranch] at hb
      | Extension _ _ => simp [isBranch] at hb
      | Branch bch bv =>
        have hd' : d + ep.length < 64 := by
          cases hc with
          | branch _ _ _ hlen2 hd2 hv2 hch2 hcount2 => exact hd2
        obtain ⟨hp1, hp2⟩ := hp
        have hle : ep.length ≤ p.length := by omega
        simp only [mergeF]
        rw [if_pos hle, lcp_take_right]
        by_cases hk : lcp_len ep p = ep.length
        · rw [if_pos hk, hk]
          obtain ⟨ch', hch'⟩ := insertF_branch_shape g bch bv (p.drop ep.length) v
          rw [hch']
          cases fd with
          | zero => omega
          | succ f1 =>
            simp only [deleteF]
            rw [if_pos ⟨hle, take_eq_of_lcp_full ep p hk hle⟩]
            have hgood : goodP (p.drop ep.length) (d + ep.length) := by
              refine ⟨?_, fun x hx => hp2 x (List.mem_of_mem_drop hx)⟩
              rw [List.length_drop]
              omega
            have hgc : ∀ fg, getF fg (.Branch bch bv) (p.drop ep.length) = none := by
              intro fg
              have h1 := hget (fg + 1)
              rw [getF_succ_ext] at h1
              rw [if_pos ⟨hle, (take_eq_of_lcp_full ep p hk hle).symm⟩] at h1
              exact h1
            have hwR : Wf (.Branch ch' bv) (d + ep.length) := by
              have h5 := (insert_wf_aux g).1 (.Branch bch bv) (d + ep.length)
                (p.drop ep.length) v hc hgood (by simp only [fuelNeed]; omega)
              rwa [hch'] at h5
            rw [deleteF_fuel_irrel f1 (3 * (65 - (d + ep.length)) + 3) hwR hgood
              (by simp only [fuelNeed]; omega) (by simp only [fuelNeed]; omega)]
            have hIH := ihI (.Branch bch bv) (d + ep.length) (p.drop ep.length) v
              (3 * (65 - (d + ep.length)) + 3) hc hgood (by simp only [fuelNeed]; omega)
              (by omega) hgc
            rw [hch'] at hIH
            rcases hIH with h | h
            · rw [h]
              exact Or.inl rfl
            · rw [h]
              exact Or.inl rfl
        · rw [if_neg hk]
          have hk1 : lcp_len ep p < ep.length := by
            have := lcp_len_le_left ep p
            omega
          have hk2 : lcp_len ep p < p.length := by omega
          obtain ⟨o, os, ho⟩ := drop_cons_of_lt ep (lcp_len ep p) hk1
          obtain ⟨w, ws, hw2⟩ := drop_cons_of_lt p (lcp_len ep p) hk2
          have how : o ≠ w := by
            have hne2 := lcp_getD_ne ep p hk1 hk2
            have h1 : ep.getD (lcp_len ep p) 0 = o := by
              rw [← headD_drop, ho]; rfl
            have h2 : p.getD (lcp_len ep p) 0 = w := by
              rw [← headD_drop, hw2]; rfl
            rw [h1, h2] at hne2
            exact hne2
          have ho16 : o < 16 := hn o (List.mem_of_mem_drop (ho ▸ List.mem_cons_self o os))
          have hw16 : w < 16 := hp2 w (List.mem_of_mem_drop (hw2 ▸ List.mem_cons_self w ws))
          simp only [ho, hw2]
          have hbd : ∀ f2 : Nat, 1 ≤ f2 →
              deleteF f2 (.Branch ((emptyChildren.set o (some (.Extension os
                (.Branch bch bv)))).set w (some (.Leaf ws v))) none) (w :: ws) =
              .DeletedAndReplace (.Extension (o :: os) (.Branch bch bv)) := by
            intro f2 hf2
            cases f2 with
            | zero => omega
            | succ f3 =>
              simp only [deleteF]
              rw [getD_set_self _ _ _ _ (by simp [emptyChildren]; omega)]
              dsimp only
              rw [if_pos rfl, List.set_set]
              rw [set_restore _ _ _ (by
                rw [getD_set_other _ _ _ _ _ how, emptyChildren, getD_replicate_none])]
              simp only [try_collapse_branch]
              rw [activeChildren_singleton o _ ho16]
              rfl
          by_cases hk0 : 0 < lcp_len ep p
          · rw [if_pos hk0]
            cases fd with
            | zero => omega
            | succ f1 =>
              have hTL : (ep.take (lcp_len ep p)).length = lcp_len ep p := by
                simp [List.length_take]
                omega
              simp only [deleteF]
              rw [hTL, if_pos ⟨by omega, (take_lcp_eq ep p).symm⟩, hw2, hbd f1 (by omega)]
              dsimp only
              rw [show ep.take (lcp_len ep p) ++ o :: os = ep from by
                rw [← ho, List.take_append_drop]]
              exact Or.inr rfl
          · rw [if_neg hk0]
            have hz : lcp_len ep p = 0 := by omega
            rw [hz, List.drop_zero] at hw2 ho
            rw [hw2, ho]
            exact Or.inr (hbd fd (by omega))

/-- the empty trie satisfies the reachable-tree invariant. -/
theorem TrieWf_new : TrieWf Trie.new := trivial

/-- `Trie::set` preserves the reachable-tree invariant. -/
theorem TrieWf_set (t : Trie) (k v : List Nat) (hw : TrieWf t) (hk : isKey32 k) :
    TrieWf (t.set k v) := by
  have hg := goodP_keyNibbles k hk
  unfold TrieWf Trie.set
  cases hr : t.root with
  | none => exact Wf.leaf _ _ 0 hg.1 hg.2
  | some r =>
    have hwr : Wf r 0 := by
      unfold TrieWf at hw
      rw [hr] at hw
      exact hw
    exact (insert_wf_aux FUEL).1 r 0 (keyNibbles k) v hwr hg
      (by have := fuelNeed_le r 0; unfold FUEL; omega)

/-- a lookup that misses at the standard fuel misses at every fuel. -/
theorem get_none_all (r : Node) (p : List Nat) (hw : Wf r 0) (hp : goodP p 0)
    (h : getF FUEL r p = none) : ∀ fg, getF fg r p = none := by
  intro fg
  cases hx : getF fg r p with
  | none => rfl
  | some w =>
    exfalso
    by_cases hle : fg ≤ FUEL
    · have h2 := getF_le_some fg FUEL hle hx
      rw [h] at h2
      cases h2
    · have heq := getF_fuel_irrel FUEL fg hw hp
        (by have := fuelNeed_le r 0; unfold FUEL; omega)
        (by have := fuelNeed_le r 0; unfold FUEL at hle; omega)
      rw [← heq, h] at hx
      cases hx

/-- `set` then `get` of the same 32-byte key returns the new value. -/
theorem trie_set_get (t : Trie) (k v : List Nat) (hw : TrieWf t) (hk : isKey32 k) :
    (t.set k v).get k = some v := by
  have hg := goodP_keyNibbles k hk
  unfold Trie.get Trie.set
  cases hr : t.root with
  | none =>
    dsimp only
    rw [show FUEL = 199 + 1 from rfl, getF_succ_leaf, if_pos rfl]
  | some r =>
    dsimp only
    have hwr : Wf r 0 := by
      unfold TrieWf at hw
      rw [hr] at hw
      exact hw
    exact (insert_get_self_aux FUEL).1 r 0 (keyNibbles k) v FUEL hwr hg
      (by have := fuelNeed_le r 0; unfold FUEL; omega) (by unfold FUEL; omega)

/-- `set` of one key leaves lookups of every other 32-byte key unchanged. -/
theorem trie_set_frame (t : Trie) (k k' v : List Nat) (hw : TrieWf t) (hk : isKey32 k)
    (hk' : isKey32 k') (hne : k' ≠ k) : (t.set k' v).get k = t.get k := by
  have hgk := goodP_keyNibbles k hk
  have hgk' := goodP_keyNibbles k' hk'
  have hnib : keyNibbles k' ≠ keyNibbles k := fun he => hne (keyNibbles_inj _ _ he)
  unfold Trie.get Trie.set
  cases hr : t.root with
  | none =>
    dsimp only
    rw [show FUEL = 199 + 1 from rfl, getF_succ_leaf, if_neg hnib]
  | some r =>
    dsimp only
    have hwr : Wf r 0 := by
      unfold TrieWf at hw
      rw [hr] at hw
      exact hw
    exact (insert_frame_aux FUEL).1 r 0 (keyNibbles k') (keyNibbles k) v FUEL hwr hgk'
      hgk hnib (by have := fuelNeed_le r 0; unfold FUEL; omega) (by unfold FUEL; omega)

/-- `Trie::delete`: a present key reports `true` and is gone afterwards; an
absent key reports `false`. -/
theorem trie_delete_spec (t : Trie) (k : List Nat) (hw : TrieWf t) (hk : isKey32 k) :
    (∀ v, t.get k = some v → (t.delete k).2 = true ∧ ((t.delete k).1).get k = none) ∧
    (t.get k = none → (t.delete k).2 = false) := by
  have hg := goodP_keyNibbles k hk
  cases hr : t.root with
  | none =>
    constructor
    · intro v hv
      unfold Trie.get at hv
      rw [hr] at hv
      simp at hv
    · intro hv
      unfold Trie.delete
      rw [hr]
  | some r =>
    have hwr : Wf r 0 := by
      unfold TrieWf at hw
      rw [hr] at hw
      exact hw
    cases r with
    | Leaf lp lv =>
      constructor
      · intro v hv
        unfold Trie.get at hv
        rw [hr] at hv
        dsimp only at hv
        rw [show FUEL = 199 + 1 from rfl, getF_succ_leaf] at hv
        have hlp : lp = keyNibbles k := by
          by_cases he : lp = keyNibbles k
          · exact he
          · rw [if_neg he] at hv
            cases hv
        unfold Trie.delete
        rw [hr]
        dsimp only
        rw [if_pos hlp]
        exact ⟨rfl, rfl⟩
      · intro hv
        unfold Trie.get at hv
        rw [hr] at hv
        dsimp only at hv
        rw [show FUEL = 199 + 1 from rfl, getF_succ_leaf] at hv
        have hlp : lp ≠ keyNibbles k := by
          intro he
          rw [if_pos he] at hv
          cases hv
        unfold Trie.delete
        rw [hr]
        dsimp only
        rw [if_neg hlp]
    | Extension ep ec =>
      constructor
      · intro v hv
        unfold Trie.get at hv
        rw [hr] at hv
        dsimp only at hv
        have hcanon : getF (3 * (65 - 0) + 3) (.Extension ep ec) (keyNibbles k)
            = some v := by
          rw [← getF_fuel_irrel FUEL (3 * (65 - 0) + 3) hwr hg
            (by have := fuelNeed_le (Node.Extension ep ec) 0; unfold FUEL; omega)
            (by have := fuelNeed_le (Node.Extension ep ec) 0; omega)]
          exact hv
        have hE := delete_present_aux FUEL (.Extension ep ec) 0 (keyNibbles k) v hwr hg
          trivial (by have := fuelNeed_le (Node.Extension ep ec) 0; unfold FUEL; omega)
          hcanon
        unfold Trie.delete
        rw [hr]
        dsimp only
        cases hdel : deleteF FUEL (.Extension ep ec) (keyNibbles k) with
        | NotFound =>
          rw [hdel] at hE
          exact hE.elim
        | Deleted n' =>
          rw [hdel] at hE
          obtain ⟨hw', hk', hg'⟩ := hE
          refine ⟨rfl, ?_⟩
          unfold Trie.get
          dsimp only
          rw [getF_fuel_irrel FUEL (3 * (65 - 0) + 3) hw' hg
            (by have := fuelNeed_le n' 0; unfold FUEL; omega)
            (by have := fuelNeed_le n' 0; omega)]
          exact hg'
        | DeletedAndReplace n' =>
          rw [hdel] at hE
          obtain ⟨hw', hg'⟩ := hE
          refine ⟨rfl, ?_⟩
          unfold Trie.get
          dsimp only
          rw [getF_fuel_irrel FUEL (3 * (65 - 0) + 3) hw' hg
            (by have := fuelNeed_le n' 0; unfold FUEL; omega)
            (by have := fuelNeed_le n' 0; omega)]
          exact hg'
      · intro hv
        unfold Trie.get at hv
        rw [hr] at hv
        dsimp only at hv
        have hnone := get_none_all (.Extension ep ec) (keyNibbles k) hwr hg hv
        have hD := delete_absent_aux FUEL (.Extension ep ec) 0 (keyNibbles k) hwr hg hnone
        unfold Trie.delete
        rw [hr]
        dsimp only
        rw [hD]
    | Branch ch cv =>
      constructor
      · intro v hv
        unfold Trie.get at hv
        rw [hr] at hv
        dsimp only at hv
        have hcanon : getF (3 * (65 - 0) + 3) (.Branch ch cv) (keyNibbles k)
            = some v := by
          rw [← getF_fuel_irrel FUEL (3 * (65 - 0) + 3) hwr hg
            (by have := fuelNeed_le (Node.Branch ch cv) 0; unfold FUEL; omega)
            (by have := fuelNeed_le (Node.Branch ch cv) 0; omega)]
          exact hv
        have hE := delete_present_aux FUEL (.Branch ch cv) 0 (keyNibbles k) v hwr hg
          trivial (by have := fuelNeed_le (Node.Branch ch cv) 0; unfold FUEL; omega)
          hcanon
        unfold Trie.delete
        rw [hr]
        dsimp only
        cases hdel : deleteF FUEL (.Branch ch cv) (keyNibbles k) with
        | NotFound =>
          rw [hdel] at hE
          exact hE.elim
        | Deleted n' =>
          rw [hdel] at hE
          obtain ⟨hw', hk', hg'⟩ := hE
          refine ⟨rfl, ?_⟩
          unfold Trie.get
          dsimp only
          rw [getF_fuel_irrel FUEL (3 * (65 - 0) + 3) hw' hg
            (by have := fuelNeed_le n' 0; unfold FUEL; omega)
            (by have := fuelNeed_le n' 0; omega)]
          exact hg'
        | DeletedAndReplace n' =>
          rw [hdel] at hE
          obtain ⟨hw', hg'⟩ := hE
          refine ⟨rfl, ?_⟩
          unfold Trie.get
          dsimp only
          rw [getF_fuel_irrel FUEL (3 * (65 - 0) + 3) hw' hg
            (by have := fuelNeed_le n' 0; unfold FUEL; omega)
            (by have := fuelNeed_le n' 0; omega)]
          exact hg'
      · intro hv
        unfold Trie.get at hv
        rw [hr] at hv
        dsimp only at hv
        have hnone := get_none_all (.Branch ch cv) (keyNibbles k) hwr hg hv
        have hD := delete_absent_aux FUEL (.Branch ch cv) 0 (keyNibbles k) hwr hg hnone
        unfold Trie.delete
        rw [hr]
        dsimp only
        rw [hD]

/-- deleting a freshly set key returns exactly the previous trie, with `true`. -/
theorem set_delete_inverse (t : Trie) (k v : List Nat) (hw : TrieWf t) (hk : isKey32 k)
    (hnone : t.get k = none) : (t.set k v).delete k = (t, true) := by
  have hg := goodP_keyNibbles k hk
  obtain ⟨root, db⟩ := t
  cases root with
  | none =>
    unfold Trie.set Trie.delete
    dsimp only
    rw [if_pos rfl]
  | some r =>
    have hwr : Wf r 0 := hw
    unfold Trie.get at hnone
    dsimp only at hnone
    have hall := get_none_all r (keyNibbles k) hwr hg hnone
    have hF := (insert_delete_aux FUEL).1 r 0 (keyNibbles k) v FUEL hwr hg
      (by have := fuelNeed_le r 0; unfold FUEL; omega) (by unfold FUEL; omega) hall
    unfold Trie.set Trie.delete
    dsimp only
    cases hins : insertF FUEL r (keyNibbles k) v with
    | Leaf a b =>
      rw [hins] at hF
      rcases hF with h | h <;> cases h
    | Extension a b =>
      rw [hins] at hF
      dsimp only
      rcases hF with h | h
      · rw [h]
      · rw [h]
    | Branch a b =>
      rw [hins] at hF
      dsimp only
      rcases hF with h | h
      · rw [h]
      · rw [h]

/-- every trie built by `set` from the empty trie is well-formed. -/
theorem TrieWf_fold_set : ∀ (pairs : List (List Nat × List Nat)) (t : Trie),
    TrieWf t → (∀ kv ∈ pairs, isKey32 kv.1) →
    TrieWf (pairs.foldl (fun t kv => t.set kv.1 kv.2) t) := by
  intro pairs
  induction pairs with
  | nil => intro t hw hk; exact hw
  | cons kv rest ih =>
    intro t hw hk
    exact ih (t.set kv.1 kv.2) (TrieWf_set t kv.1 kv.2 hw (hk kv (List.mem_cons_self _ _)))
      (fun x hx => hk x (List.mem_cons_of_mem kv hx))

/-- a key bound by none of the `set`s stays absent. -/
theorem fold_set_get_none : ∀ (pairs : List (List Nat × List Nat)) (t : Trie)
    (k : List Nat), TrieWf t → (∀ kv ∈ pairs, isKey32 kv.1) → isKey32 k →
    (∀ kv ∈ pairs, kv.1 ≠ k) → t.get k = none →
    (pairs.foldl (fun t kv => t.set kv.1 kv.2) t).get k = none := by
  intro pairs
  induction pairs with
  | nil => intro t k hw hks hk hfr h; exact h
  | cons kv rest ih =>
    intro t k hw hks hk hfr h
    refine ih (t.set kv.1 kv.2) k
      (TrieWf_set t kv.1 kv.2 hw (hks kv (List.mem_cons_self _ _)))
      (fun x hx => hks x (List.mem_cons_of_mem kv hx)) hk
      (fun x hx => hfr x (List.mem_cons_of_mem kv hx)) ?_
    rw [trie_set_frame t k kv.1 kv.2 hw hk (hks kv (List.mem_cons_self _ _))
      (hfr kv (List.mem_cons_self _ _))]
    exact h

/-- `buildTrie` of a prefix is well-formed. -/
theorem TrieWf_buildTrie (pairs : List (List Nat × List Nat))
    (hk : ∀ kv ∈ pairs, isKey32 kv.1) : TrieWf (buildTrie pairs) :=
  TrieWf_fold_set pairs Trie.new trivial hk

theorem buildTrie_append_set (A : List (List Nat × List Nat))
    (kv : List Nat × List Nat) :
    buildTrie (A ++ [kv]) = (buildTrie A).set kv.1 kv.2 := by
  unfold buildTrie
  rw [List.foldl_append]
  rfl

theorem deleteKeys_append (t : Trie) (xs : List (List Nat)) (y : List Nat) :
    deleteKeys t (xs ++ [y]) = ((deleteKeys t xs).delete y).1 := by
  unfold deleteKeys
  rw [List.foldl_append]
  rfl

/-- deleting a suffix of distinct inserted keys in reverse order restores the
trie built from the prefix alone. -/
theorem build_delete_reversal : ∀ (suf pre : List (List Nat × List Nat)),
    (∀ kv ∈ pre ++ suf, isKey32 kv.1) → ((pre ++ suf).map Prod.fst).Nodup →
    deleteKeys (buildTrie (pre ++ suf)) ((suf.map Prod.fst).reverse) = buildTrie pre := by
  intro suf
  induction suf with
  | nil =>
    intro pre hk hnd
    simp only [List.map_nil, List.reverse_nil, List.append_nil]
    rfl
  | cons kv rest ih =>
    intro pre hk hnd
    have hassoc : pre ++ kv :: rest = (pre ++ [kv]) ++ rest := by
      rw [List.append_assoc]
      rfl
    simp only [List.map_cons, List.reverse_cons]
    rw [deleteKeys_append, hassoc]
    rw [ih (pre ++ [kv]) (by rw [← hassoc]; exact hk) (by rw [← hassoc]; exact hnd)]
    rw [buildTrie_append_set]
    have hkv : isKey32 kv.1 := hk kv (by simp)
    have hkpre : ∀ x ∈ pre, x.1 ≠ kv.1 := by
      intro x hx he
      have h1 : ((pre ++ kv :: rest).map Prod.fst).Nodup := hnd
      rw [List.map_append, List.nodup_append] at h1
      exact h1.2.2 (List.mem_map_of_mem Prod.fst hx) (by rw [he]; simp)
    have hpw : TrieWf (buildTrie pre) :=
      TrieWf_buildTrie pre (fun x hx => hk x (by simp [hx]))
    have hfresh : (buildTrie pre).get kv.1 = none :=
      fold_set_get_none pre Trie.new kv.1 trivial
        (fun x hx => hk x (by simp [hx])) hkv hkpre rfl
    rw [set_delete_inverse (buildTrie pre) kv.1 kv.2 hpw hkv hfresh]

/-- C1: for every 32-byte key `k` and every value `v`, calling `set(k, v)` on
any trie satisfying the reachable-tree invariant — whether `k` was previously
absent or bound to another value — makes `get(k)` return `some v`; in
particular a second `set` of the same key overwrites the first value. -/
theorem set_then_get_self (t : Trie) (k v : List Nat) (hw : TrieWf t)
    (hk : isKey32 k) : (t.set k v).get k = some v :=
  trie_set_get t k v hw hk

theorem set_then_get_self_witness :
    isKey32 cexKeyA ∧
    ((Trie.new.set cexKeyA [1]).set cexKeyA [2]).get cexKeyA = some [2] :=
  ⟨by decide,
   set_then_get_self (Trie.new.set cexKeyA [1]) cexKeyA [2]
     (TrieWf_set Trie.new cexKeyA [1] trivial (by decide)) (by decide)⟩

/-- C6: for every 32-byte key `k` on a reachable trie: if `k` is present,
`delete(k)` returns `true` and a subsequent `get(k)` returns `none`; if `k`
is absent (`get(k) = none`), `delete(k)` returns `false`. -/
theorem delete_present_and_absent (t : Trie) (k : List Nat) (hw : TrieWf t)
    (hk : isKey32 k) :
    (∀ v, t.get k = some v → (t.delete k).2 = true ∧ ((t.delete k).1).get k = none) ∧
    (t.get k = none → (t.delete k).2 = false) :=
  trie_delete_spec t k hw hk

theorem delete_present_and_absent_witness :
    (Trie.new.set cexKeyA [7]).get cexKeyA = some [7] ∧
    ((Trie.new.set cexKeyA [7]).delete cexKeyA).2 = true ∧
    (((Trie.new.set cexKeyA [7]).delete cexKeyA).1).get cexKeyA = none ∧
    (Trie.new.delete cexKeyB).2 = false := by
  have h1 := delete_present_and_absent (Trie.new.set cexKeyA [7]) cexKeyA
    (TrieWf_set Trie.new cexKeyA [7] trivial (by decide)) (by decide)
  have h2 := delete_present_and_absent Trie.new cexKeyB trivial (by decide)
  have hget : (Trie.new.set cexKeyA [7]).get cexKeyA = some [7] := by decide
  exact ⟨hget, (h1.1 [7] hget).1, (h1.1 [7] hget).2, h2.2 rfl⟩

/-- C5: for distinct 32-byte keys inserted in order into an empty trie
(prefix `pre` then suffix `suf`), deleting the suffix's keys in reverse order
yields exactly the trie built from the prefix alone — i.e. after each delete
the tree is structurally equal to the snapshot taken just before the
corresponding insert, down to the empty trie. -/
theorem delete_reversal_snapshots (suf pre : List (List Nat × List Nat))
    (hk : ∀ kv ∈ pre ++ suf, isKey32 kv.1)
    (hnd : ((pre ++ suf).map Prod.fst).Nodup) :
    deleteKeys (buildTrie (pre ++ suf)) ((suf.map Prod.fst).reverse) = buildTrie pre :=
  build_delete_reversal suf pre hk hnd

theorem delete_reversal_snapshots_witness :
    (∀ kv ∈ ([] : List (List Nat × List Nat)) ++ [(cexKeyA, [1]), (cexKeyB, [2])],
      isKey32 kv.1) ∧
    ((([] : List (List Nat × List Nat)) ++
      [(cexKeyA, [1]), (cexKeyB, [2])]).map Prod.fst).Nodup ∧
    deleteKeys (buildTrie (([] : List (List Nat × List Nat)) ++
        [(cexKeyA, [1]), (cexKeyB, [2])]))
      (([(cexKeyA, [1]), (cexKeyB, [2])].map Prod.fst).reverse) = buildTrie [] :=
  ⟨by decide, by decide,
   delete_reversal_snapshots [(cexKeyA, [1]), (cexKeyB, [2])] [] (by decide) (by decide)⟩
